import Mathlib

/-!
# sclogo: spreading-code matrix loading and sequency ordering

A shallow embedding of `sclogo.go`.  Go's `int` is the 64-bit `int` and is
modelled by `Int` (the counter of `Sequency` is bounded by the slice length, so
it cannot wrap; the values `strconv.Atoi` returns lie in the `int` range),
slices by `List`, slice indices by `Nat`, and an out-of-range slice access
(a run-time panic in Go) by `none`.  The routines of Go's standard library the
program calls (`sort.Sort`, `bufio.Scanner`, `strings.Fields`, `strconv.Atoi`)
are embedded from the library, next to the code that calls them.
-/

namespace Sclogo

/-! ## Data model -/

/-- One row of the matrix: `type SpreadingCode struct { Chips []int }`. -/
structure SpreadingCode where
  Chips : List Int
deriving DecidableEq, Repr

/-- The matrix: `type WalshMatrix struct { Rows []SpreadingCode }`. -/
structure WalshMatrix where
  Rows : List SpreadingCode
deriving DecidableEq, Repr

/-! ## Sequency -/

/-- The `for i := 1; i < len(chips); i++` loop of `Sequency`: `k` iterations
remain, `i` is the loop index and `count` the counter.  Every index read lies
in `1 ≤ i < len(chips)`, so the default of `getD` is never used. -/
def sequencyLoop (chips : List Int) : Nat → Nat → Int → Int
  | 0, _, count => count
  | k + 1, i, count =>
    sequencyLoop chips k (i + 1)
      (if chips.getD i 0 ≠ chips.getD (i - 1) 0 then count + 1 else count)

/-- The method `func (code *SpreadingCode) Sequency() int`. -/
def SpreadingCode.Sequency (code : SpreadingCode) : Int :=
  let chips := code.Chips
  if chips.length = 0 then 0
  else sequencyLoop chips (chips.length - 1) 1 0

/-- The number of indices `i` with `1 ≤ i < len` and `chips[i] ≠ chips[i-1]`,
written as the specification words it: a count over index positions. -/
def adjacentChangeCount (chips : List Int) : Nat :=
  ((List.range chips.length).filter
    (fun i => decide (1 ≤ i) && decide (chips[i]? ≠ chips[i - 1]?))).length


/-! ## The `sort.Interface` hooks -/

/-- The hook `func (m WalshMatrix) Len() int`. -/
def WalshMatrix.Len (m : WalshMatrix) : Nat :=
  m.Rows.length

/-- The hook `func (m WalshMatrix) Swap(i, j int)`:
`m.Rows[i], m.Rows[j] = m.Rows[j], m.Rows[i]`.  Both operands are read first,
then `Rows[i]` and `Rows[j]` are assigned in that order; an index outside the
slice is a run-time panic, modelled by `none`. -/
def WalshMatrix.Swap (m : WalshMatrix) (i j : Nat) : Option WalshMatrix :=
  match m.Rows[i]?, m.Rows[j]? with
  | some ri, some rj => some ⟨(m.Rows.set i rj).set j ri⟩
  | _, _ => none

/-- The hook `func (m WalshMatrix) Less(i, j int) bool`:
`m.Rows[i].Sequency() < m.Rows[j].Sequency()`, `none` on an index outside the
slice. -/
def WalshMatrix.Less (m : WalshMatrix) (i j : Nat) : Option Bool :=
  match m.Rows[i]?, m.Rows[j]? with
  | some ri, some rj => some (decide (ri.Sequency < rj.Sequency))
  | _, _ => none

/-! ## `sort.Sort`: the pattern-defeating quicksort of the library

`sort.Sort` computes `n := data.Len()`, returns for `n <= 1`, and otherwise
runs `pdqsort(data, 0, n, bits.Len(uint(n)))`.  The routines below are the
library's, driven by the hooks `Len`, `Swap` and `Less`; a loop whose number of
iterations is not fixed by a counter carries a fuel, and `none` is a hook
called with an index out of range or the fuel used up. -/

/-- The inner loop of the library's `insertionSort`:
`for j := i; j > a && data.Less(j, j-1); j-- { data.Swap(j, j-1) }`. -/
def insertionInner (a : Nat) : Nat → WalshMatrix → Option WalshMatrix
  | 0, m => some m
  | j + 1, m =>
    if a < j + 1 then
      match m.Less (j + 1) j with
      | none => none
      | some false => some m
      | some true =>
        match m.Swap (j + 1) j with
        | none => none
        | some m1 => insertionInner a j m1
    else some m

/-- The outer loop of the library's `insertionSort`, `for i := a + 1; i < b; i++`,
with `k = b - i` iterations remaining. -/
def insertionOuter (a : Nat) : Nat → Nat → WalshMatrix → Option WalshMatrix
  | 0, _, m => some m
  | k + 1, i, m =>
    match insertionInner a i m with
    | none => none
    | some m1 => insertionOuter a k (i + 1) m1

/-- The library's `func insertionSort(data Interface, a, b int)`. -/
def insertionSort (m : WalshMatrix) (a b : Nat) : Option WalshMatrix :=
  insertionOuter a (b - (a + 1)) (a + 1) m

/-- The library's `sortedHint`. -/
inductive sortedHint where
  | unknownHint
  | increasingHint
  | decreasingHint
deriving DecidableEq, Repr

/-- The halving loop behind `bits.Len`. -/
def bitsLenLoop : Nat → Nat → Nat
  | 0, _ => 0
  | fuel + 1, x => if x = 0 then 0 else bitsLenLoop fuel (x / 2) + 1

/-- The library's `bits.Len`: the number of bits needed to write `x`. -/
def bitsLen (x : Nat) : Nat :=
  bitsLenLoop x x

/-- The library's `nextPowerOfTwo`: `1 << bits.Len(uint(length))`. -/
def nextPowerOfTwo (length : Nat) : Nat :=
  2 ^ bitsLen length

/-- The library's `(*xorshift).Next` on a `uint64` state:
`*r ^= *r << 13; *r ^= *r >> 7; *r ^= *r << 17`.  The generator only picks the
rows `breakPatterns` swaps; the lemmas on the sort hold for every step function
in its place. -/
def xorshiftNext (r : Nat) : Nat :=
  let r1 := r ^^^ ((r <<< 13) % 2 ^ 64)
  let r2 := r1 ^^^ (r1 >>> 7)
  r2 ^^^ ((r2 <<< 17) % 2 ^ 64)

/-- A loop `for i < hi && cond(i) { i++ }`: the index it stops at. -/
def scanUp (cond : Nat → Option Bool) (hi : Nat) : Nat → Nat → Option Nat
  | 0, _ => none
  | fuel + 1, i =>
    if i < hi then
      match cond i with
      | none => none
      | some true => scanUp cond hi fuel (i + 1)
      | some false => some i
    else some i

/-- A loop `for lo <= j && cond(j) { j-- }` with `lo >= 1`: the index it stops
at. -/
def scanDown (cond : Nat → Option Bool) (lo : Nat) : Nat → Nat → Option Nat
  | 0, _ => none
  | fuel + 1, j =>
    if lo ≤ j then
      match cond j with
      | none => none
      | some true => scanDown cond lo fuel (j - 1)
      | some false => some j
    else some j

/-- The loop `for { ... }` of the library's `partition`, from the indices `i`
and `j`: the data and the final `j`. -/
def partitionLoop (a : Nat) : Nat → WalshMatrix → Nat → Nat → Option (WalshMatrix × Nat)
  | 0, _, _, _ => none
  | fuel + 1, data, i, j =>
    match scanUp (fun k => data.Less k a) (j + 1) (data.Len + 1) i with
    | none => none
    | some i1 =>
      match scanDown (fun k => (data.Less k a).map not) i1 (data.Len + 1) j with
      | none => none
      | some j1 =>
        if i1 > j1 then some (data, j1)
        else
          match data.Swap i1 j1 with
          | none => none
          | some data1 => partitionLoop a fuel data1 (i1 + 1) (j1 - 1)

/-- The library's `partition(data, a, b, pivot)`: the data, the new index of
the pivot and `alreadyPartitioned`. -/
def partition (data : WalshMatrix) (a b pivot : Nat) : Option (WalshMatrix × Nat × Bool) :=
  match data.Swap a pivot with
  | none => none
  | some data0 =>
    match scanUp (fun k => data0.Less k a) (b - 1 + 1) (data0.Len + 1) (a + 1) with
    | none => none
    | some i =>
      match scanDown (fun k => (data0.Less k a).map not) i (data0.Len + 1) (b - 1) with
      | none => none
      | some j =>
        if i > j then
          match data0.Swap j a with
          | none => none
          | some data1 => some (data1, j, true)
        else
          match data0.Swap i j with
          | none => none
          | some data1 =>
            match partitionLoop a (data1.Len + 1) data1 (i + 1) (j - 1) with
            | none => none
            | some (data2, j2) =>
              match data2.Swap j2 a with
              | none => none
              | some data3 => some (data3, j2, false)

/-- The loop `for { ... }` of the library's `partitionEqual`: the data and the
final `i`. -/
def partitionEqualLoop (a : Nat) :
    Nat → WalshMatrix → Nat → Nat → Option (WalshMatrix × Nat)
  | 0, _, _, _ => none
  | fuel + 1, data, i, j =>
    match scanUp (fun k => (data.Less a k).map not) (j + 1) (data.Len + 1) i with
    | none => none
    | some i1 =>
      match scanDown (fun k => data.Less a k) i1 (data.Len + 1) j with
      | none => none
      | some j1 =>
        if i1 > j1 then some (data, i1)
        else
          match data.Swap i1 j1 with
          | none => none
          | some data1 => partitionEqualLoop a fuel data1 (i1 + 1) (j1 - 1)

/-- The library's `partitionEqual(data, a, b, pivot)`. -/
def partitionEqual (data : WalshMatrix) (a b pivot : Nat) : Option (WalshMatrix × Nat) :=
  match data.Swap a pivot with
  | none => none
  | some data0 => partitionEqualLoop a (data0.Len + 1) data0 (a + 1) (b - 1)

/-- The step `if child+1 < hi && data.Less(first+child, first+child+1) { child++ }`
of `siftDown`: the child to compare the root with. -/
def siftDownChild (data : WalshMatrix) (hi first child : Nat) : Option Nat :=
  if child + 1 < hi then
    match data.Less (first + child) (first + child + 1) with
    | none => none
    | some true => some (child + 1)
    | some false => some child
  else some child

/-- The loop `for { ... }` of the library's `siftDown`, from the node `root`. -/
def siftDownLoop (hi first : Nat) : Nat → WalshMatrix → Nat → Option WalshMatrix
  | 0, _, _ => none
  | fuel + 1, data, root =>
    if 2 * root + 1 ≥ hi then some data
    else
      match siftDownChild data hi first (2 * root + 1) with
      | none => none
      | some child =>
        match data.Less (first + root) (first + child) with
        | none => none
        | some false => some data
        | some true =>
          match data.Swap (first + root) (first + child) with
          | none => none
          | some data1 => siftDownLoop hi first fuel data1 child

/-- The library's `siftDown(data, lo, hi, first)`. -/
def siftDown (data : WalshMatrix) (lo hi first : Nat) : Option WalshMatrix :=
  siftDownLoop hi first (hi + 1) data lo

/-- The loop `for i := (hi - 1) / 2; i >= 0; i--` of `heapSort`, with `k = i + 1`. -/
def heapBuildLoop (hi first : Nat) : Nat → WalshMatrix → Option WalshMatrix
  | 0, data => some data
  | i + 1, data =>
    match siftDown data i hi first with
    | none => none
    | some data1 => heapBuildLoop hi first i data1

/-- The loop `for i := hi - 1; i >= 0; i--` of `heapSort`, with `k = i + 1`. -/
def heapPopLoop (first : Nat) : Nat → WalshMatrix → Option WalshMatrix
  | 0, data => some data
  | i + 1, data =>
    match data.Swap first (first + i) with
    | none => none
    | some data1 =>
      match siftDown data1 0 i first with
      | none => none
      | some data2 => heapPopLoop first i data2

/-- The library's `heapSort(data, a, b)`. -/
def heapSort (data : WalshMatrix) (a b : Nat) : Option WalshMatrix :=
  let first := a
  let hi := b - a
  match heapBuildLoop hi first ((hi - 1) / 2 + 1) data with
  | none => none
  | some data1 => heapPopLoop first hi data1

/-- The loop `for j := i - 1; j >= 1; j--` of `partialInsertionSort`, from
`j`: it stops at the first pair in order. -/
def shiftLeftLoop : Nat → WalshMatrix → Option WalshMatrix
  | 0, data => some data
  | j + 1, data =>
    match data.Less (j + 1) j with
    | none => none
    | some false => some data
    | some true =>
      match data.Swap (j + 1) j with
      | none => none
      | some data1 => shiftLeftLoop j data1

/-- The loop `for j := i + 1; j < b; j++` of `partialInsertionSort`, with
`k = b - j` iterations remaining. -/
def shiftRightLoop : Nat → WalshMatrix → Nat → Option WalshMatrix
  | 0, data, _ => some data
  | k + 1, data, j =>
    match data.Less j (j - 1) with
    | none => none
    | some false => some data
    | some true =>
      match data.Swap j (j - 1) with
      | none => none
      | some data1 => shiftRightLoop k data1 (j + 1)

/-- The loop `for j := 0; j < maxSteps; j++` of `partialInsertionSort`, with
`steps` iterations remaining: the data and whether the range is sorted. -/
def partialInsertionLoop (a b : Nat) :
    Nat → WalshMatrix → Nat → Option (WalshMatrix × Bool)
  | 0, data, _ => some (data, false)
  | steps + 1, data, i =>
    match scanUp (fun k => (data.Less k (k - 1)).map not) b (data.Len + 1) i with
    | none => none
    | some i1 =>
      if i1 = b then some (data, true)
      else if b - a < 50 then some (data, false)
      else
        match data.Swap i1 (i1 - 1) with
        | none => none
        | some data1 =>
          match (if i1 - a ≥ 2 then shiftLeftLoop (i1 - 1) data1 else some data1) with
          | none => none
          | some data2 =>
            match (if b - i1 ≥ 2 then shiftRightLoop (b - (i1 + 1)) data2 (i1 + 1)
              else some data2) with
            | none => none
            | some data3 => partialInsertionLoop a b steps data3 i1

/-- The library's `partialInsertionSort(data, a, b)`, `maxSteps = 5`,
`shortestShifting = 50`. -/
def partialInsertionSort (data : WalshMatrix) (a b : Nat) : Option (WalshMatrix × Bool) :=
  partialInsertionLoop a b 5 data (a + 1)

/-- The loop `for i := 0; i < 3; i++` of `breakPatterns`, with `k = 3 - i`;
`next` is the step of the random generator. -/
def breakPatternsLoop (next : Nat → Nat) (a length modulus idx : Nat) :
    Nat → Nat → Nat → WalshMatrix → Option WalshMatrix
  | 0, _, _, data => some data
  | k + 1, i, random, data =>
    let random1 := next random
    let other := random1 &&& (modulus - 1)
    let other1 := if other ≥ length then other - length else other
    match data.Swap (idx - 1 + i) (a + other1) with
    | none => none
    | some data1 => breakPatternsLoop next a length modulus idx k (i + 1) random1 data1

/-- The library's `breakPatterns(data, a, b)`, the generator seeded with the
length. -/
def breakPatterns (next : Nat → Nat) (data : WalshMatrix) (a b : Nat) : Option WalshMatrix :=
  let length := b - a
  if length ≥ 8 then
    breakPatternsLoop next a length (nextPowerOfTwo length) (a + (length / 4) * 2 - 1)
      3 0 length data
  else some data

/-- The library's `order2`: the two indices in order and the swap counter. -/
def order2 (data : WalshMatrix) (a b swaps : Nat) : Option (Nat × Nat × Nat) :=
  match data.Less b a with
  | none => none
  | some true => some (b, a, swaps + 1)
  | some false => some (a, b, swaps)

/-- The library's `median`: the index of the median and the swap counter. -/
def median (data : WalshMatrix) (a b c swaps : Nat) : Option (Nat × Nat) :=
  match order2 data a b swaps with
  | none => none
  | some (a1, b1, swaps1) =>
    match order2 data b1 c swaps1 with
    | none => none
    | some (b2, _, swaps2) =>
      match order2 data a1 b2 swaps2 with
      | none => none
      | some (_, b3, swaps3) => some (b3, swaps3)

/-- The library's `medianAdjacent`. -/
def medianAdjacent (data : WalshMatrix) (a swaps : Nat) : Option (Nat × Nat) :=
  median data (a - 1) a (a + 1) swaps

/-- The library's `choosePivot(data, a, b)`, `shortestNinther = 50`,
`maxSwaps = 12`. -/
def choosePivot (data : WalshMatrix) (a b : Nat) : Option (Nat × sortedHint) :=
  let l := b - a
  let i := a + l / 4 * 1
  let j := a + l / 4 * 2
  let k := a + l / 4 * 3
  match (if l ≥ 8 then
      match (if l ≥ 50 then
          match medianAdjacent data i 0 with
          | none => none
          | some (i1, s1) =>
            match medianAdjacent data j s1 with
            | none => none
            | some (j1, s2) =>
              match medianAdjacent data k s2 with
              | none => none
              | some (k1, s3) => some (i1, j1, k1, s3)
        else some (i, j, k, 0)) with
      | none => none
      | some (i1, j1, k1, s) => median data i1 j1 k1 s
    else some (j, 0)) with
  | none => none
  | some (j1, swaps) =>
    some (j1, if swaps = 0 then sortedHint.increasingHint
      else if swaps = 12 then sortedHint.decreasingHint
      else sortedHint.unknownHint)

/-- The loop `for i < j { data.Swap(i, j); i++; j-- }` of `reverseRange`. -/
def reverseRangeLoop : Nat → WalshMatrix → Nat → Nat → Option WalshMatrix
  | 0, _, _, _ => none
  | fuel + 1, data, i, j =>
    if i < j then
      match data.Swap i j with
      | none => none
      | some data1 => reverseRangeLoop fuel data1 (i + 1) (j - 1)
    else some data

/-- The library's `reverseRange(data, a, b)`. -/
def reverseRange (data : WalshMatrix) (a b : Nat) : Option WalshMatrix :=
  reverseRangeLoop (data.Len + 1) data a (b - 1)

/-- The step `if !wasBalanced { breakPatterns(data, a, b); limit-- }` of
`pdqsort`: the data and the limit after it. -/
def pdqBreak (next : Nat → Nat) (data : WalshMatrix) (a b limit : Nat) (wasBalanced : Bool) :
    Option (WalshMatrix × Nat) :=
  if !wasBalanced then
    match breakPatterns next data a b with
    | none => none
    | some data1 => some (data1, limit - 1)
  else some (data, limit)

/-- The step `if hint == decreasingHint { reverseRange(data, a, b);
pivot = (b - 1) - (pivot - a); hint = increasingHint }` of `pdqsort`. -/
def pdqReverse (data : WalshMatrix) (a b pivot : Nat) (hint : sortedHint) :
    Option (WalshMatrix × Nat × sortedHint) :=
  if hint = sortedHint.decreasingHint then
    match reverseRange data a b with
    | none => none
    | some data1 => some (data1, (b - 1) - (pivot - a), sortedHint.increasingHint)
  else some (data, pivot, hint)

/-- The step `if wasBalanced && wasPartitioned && hint == increasingHint {
if partialInsertionSort(data, a, b) { return } }` of `pdqsort`: the data and
whether `pdqsort` returns. -/
def pdqPartial (data : WalshMatrix) (a b : Nat) (wasBalanced wasPartitioned : Bool)
    (hint : sortedHint) : Option (WalshMatrix × Bool) :=
  if wasBalanced && wasPartitioned && hint = sortedHint.increasingHint then
    partialInsertionSort data a b
  else some (data, false)

/-- The test `a > 0 && !data.Less(a-1, pivot)` of `pdqsort`. -/
def pdqEqualTest (data : WalshMatrix) (a pivot : Nat) : Option Bool :=
  if a > 0 then
    match data.Less (a - 1) pivot with
    | none => none
    | some less => some (!less)
  else some false

/-- The library's `pdqsort(data, a, b, limit)`: one pass of its loop followed
by the rest of the loop, `wasBalanced` and `wasPartitioned` being the loop's
two flags (both true on entry). -/
def pdqsort (next : Nat → Nat) :
    Nat → WalshMatrix → Nat → Nat → Nat → Bool → Bool → Option WalshMatrix
  | 0, _, _, _, _, _, _ => none
  | fuel + 1, data, a, b, limit, wasBalanced, wasPartitioned =>
    if b - a ≤ 12 then insertionSort data a b
    else if limit = 0 then heapSort data a b
    else
      match pdqBreak next data a b limit wasBalanced with
      | none => none
      | some (data1, limit1) =>
        match choosePivot data1 a b with
        | none => none
        | some (pivot, hint) =>
          match pdqReverse data1 a b pivot hint with
          | none => none
          | some (data2, pivot1, hint1) =>
            match pdqPartial data2 a b wasBalanced wasPartitioned hint1 with
            | none => none
            | some (data3, true) => some data3
            | some (data3, false) =>
              match pdqEqualTest data3 a pivot1 with
              | none => none
              | some true =>
                match partitionEqual data3 a b pivot1 with
                | none => none
                | some (data4, mid) =>
                  pdqsort next fuel data4 mid b limit1 wasBalanced wasPartitioned
              | some false =>
                match partition data3 a b pivot1 with
                | none => none
                | some (data4, mid, alreadyPartitioned) =>
                  if mid - a < b - mid then
                    match pdqsort next fuel data4 a mid limit1 true true with
                    | none => none
                    | some data5 =>
                      pdqsort next fuel data5 (mid + 1) b limit1
                        (decide (mid - a ≥ (b - a) / 8)) alreadyPartitioned
                  else
                    match pdqsort next fuel data4 (mid + 1) b limit1 true true with
                    | none => none
                    | some data5 =>
                      pdqsort next fuel data5 a mid limit1
                        (decide (b - mid ≥ (b - a) / 8)) alreadyPartitioned

/-- The library's `sort.Sort(data)` with the generator step `next`. -/
def sortWith (next : Nat → Nat) (m : WalshMatrix) : Option WalshMatrix :=
  let n := m.Len
  if n ≤ 1 then some m else pdqsort next (n + 1) m 0 n (bitsLen n) true true

/-- The call `sort.Sort(matrix)` of `main`, with the library's generator.  The
result is `none` only if a hook is called with an index outside the slice or a
fuel runs out. -/
def sort_Sort (m : WalshMatrix) : Option WalshMatrix :=
  sortWith xorshiftNext m

/-- Ascending sequency order between two rows. -/
def seqLE (r s : SpreadingCode) : Prop :=
  r.Sequency ≤ s.Sequency

/-- The sequencies of the rows of a matrix, in row order. -/
def WalshMatrix.sequencies (m : WalshMatrix) : List Int :=
  m.Rows.map SpreadingCode.Sequency

/-- A matrix whose rows have sequencies 3, 0 and 2. -/
def exampleMatrix : WalshMatrix :=
  ⟨[⟨[1, -1, 1, -1]⟩, ⟨[1, 1, 1, 1]⟩, ⟨[1, -1, -1, 1]⟩]⟩

/-- A matrix of 13 rows: the row at index 6 has sequency 1, the other rows
have sequency 0. -/
def tiedExample : WalshMatrix :=
  ⟨[⟨[0, 0]⟩, ⟨[1, 1]⟩, ⟨[2, 2]⟩, ⟨[3, 3]⟩, ⟨[4, 4]⟩, ⟨[5, 5]⟩, ⟨[6, -6]⟩, ⟨[7, 7]⟩,
    ⟨[8, 8]⟩, ⟨[9, 9]⟩, ⟨[10, 10]⟩, ⟨[11, 11]⟩, ⟨[12, 12]⟩]⟩

/-- A matrix whose rows have sequencies 0, 2 and 3. -/
def sortedExample : WalshMatrix :=
  ⟨[⟨[1, 1, 1, 1]⟩, ⟨[1, -1, -1, 1]⟩, ⟨[1, -1, 1, -1]⟩]⟩

/-! ## Predicates on the rows of a matrix under sorting -/

/-- The sequency of the row at index `k`, 0 outside the matrix. -/
def keyAt (rows : List SpreadingCode) (k : Nat) : Int :=
  match rows[k]? with
  | some r => r.Sequency
  | none => 0

/-- The rows `rows2` come from `rows1` by calls of `Swap` on indices of the
range `[a, b)`. -/
inductive RangePerm (a b : Nat) : List SpreadingCode → List SpreadingCode → Prop where
  | refl (rows : List SpreadingCode) : RangePerm a b rows rows
  | swap {rows rows1 rows2 : List SpreadingCode} (i j : Nat) :
      RangePerm a b rows rows1 → a ≤ i → i < b → a ≤ j → j < b →
      WalshMatrix.Swap ⟨rows1⟩ i j = some ⟨rows2⟩ → RangePerm a b rows rows2

/-- The rows of the range `[a, b)` are in ascending sequency order. -/
def SortedRange (a b : Nat) (rows : List SpreadingCode) : Prop :=
  ∀ i j : Nat, a ≤ i → i < j → j < b → keyAt rows i ≤ keyAt rows j

/-- No row before index `a` has a greater sequency than a row of `[a, b)`. -/
def LeftLE (a b : Nat) (rows : List SpreadingCode) : Prop :=
  ∀ p q : Nat, p < a → a ≤ q → q < b → keyAt rows p ≤ keyAt rows q

/-- The heap property of `heapSort` on the nodes `lo ≤ r < hi` of the heap
rooted at index `first`: no child has a greater sequency than its parent. -/
def HeapFrom (first lo hi : Nat) (rows : List SpreadingCode) : Prop :=
  ∀ p c : Nat, lo ≤ p → c < hi → (c = 2 * p + 1 ∨ c = 2 * p + 2) →
    keyAt rows (first + c) ≤ keyAt rows (first + p)


/-- The range `[a, b)` is partitioned at `mid`: the rows before `mid` have a
smaller sequency than the row at `mid`, the rows after it do not. -/
def PivotAt (a mid b : Nat) (rows : List SpreadingCode) : Prop :=
  (∀ k : Nat, a ≤ k → k < mid → keyAt rows k < keyAt rows mid)
    ∧ (∀ k : Nat, mid < k → k < b → ¬ keyAt rows k < keyAt rows mid)

/-! ## Text input

A file's contents are modelled as the sequence of code points of a well-formed
UTF-8 text; `byteLen` is the length in bytes, the unit in which the library
counts. -/

/-- The number of bytes of a text in UTF-8: Go's `len` of the string. -/
def byteLen (s : List Char) : Nat :=
  (s.map Char.utf8Size).sum

/-- The library's `unicode.IsSpace`: the Latin-1 spaces `'\t'`, `'\n'`, `'\v'`,
`'\f'`, `'\r'`, `' '`, U+0085, U+00A0, and beyond Latin-1 the code points with
the `White_Space` property. -/
def isSpace (c : Char) : Bool :=
  let r := c.toNat
  (0x09 ≤ r && r ≤ 0x0D) || r == 0x20 || r == 0x85 || r == 0xA0 || r == 0x1680
    || (0x2000 ≤ r && r ≤ 0x200A) || r == 0x2028 || r == 0x2029 || r == 0x202F
    || r == 0x205F || r == 0x3000

/-- The scan of the library's `strings.Fields` (`FieldsFunc` with
`unicode.IsSpace`): `cur` is the field begun and not yet closed, empty when no
field is open. -/
def fieldsLoop : List Char → List Char → List (List Char)
  | cur, [] => if cur = [] then [] else [cur]
  | cur, c :: cs =>
    if isSpace c then
      if cur = [] then fieldsLoop [] cs else cur :: fieldsLoop [] cs
    else fieldsLoop (cur ++ [c]) cs

/-- The library's `strings.Fields`: the maximal runs of non-space characters. -/
def Fields (s : List Char) : List (List Char) :=
  fieldsLoop [] s

/-- The whitespace-delimited tokens of a line, as the specification words it:
the line is cut at every white-space character and the empty pieces are
dropped. -/
def tokensOf (line : List Char) : List (List Char) :=
  (line.splitOnP isSpace).filter (fun t => !t.isEmpty)

/-! ## `strconv.Atoi` (64-bit `int`) -/

/-- The two errors of the library's integer parser: `ErrSyntax`, `ErrRange`. -/
inductive NumError where
  | ErrSyntax
  | ErrRange
deriving DecidableEq, Repr

/-- The largest `uint64`. -/
def maxUint64 : Nat := 2 ^ 64 - 1

/-- The largest `int`. -/
def maxInt : Int := 2 ^ 63 - 1

/-- The smallest `int`. -/
def minInt : Int := -(2 ^ 63)

/-- Is the byte an ASCII decimal digit. -/
def isDigit (c : Char) : Bool :=
  48 ≤ c.toNat && c.toNat ≤ 57

/-- The digit loop of the library's `ParseUint(s, 10, 0)`: a character that is
not a decimal digit is a syntax error with value 0; when `n*10` or `n*10 + d`
leaves the `uint64` range the loop stops at once with the largest `uint64` and
a range error. -/
def parseUintLoop : List Char → Nat → Nat × Option NumError
  | [], n => (n, none)
  | c :: cs, n =>
    if isDigit c then
      if n ≥ maxUint64 / 10 + 1 then (maxUint64, some NumError.ErrRange)
      else
        let n1 := n * 10 + (c.toNat - 48)
        if n1 > maxUint64 then (maxUint64, some NumError.ErrRange)
        else parseUintLoop cs n1
    else (0, some NumError.ErrSyntax)

/-- The library's `ParseUint(s, 10, 0)`. -/
def ParseUint (s : List Char) : Nat × Option NumError :=
  if s = [] then (0, some NumError.ErrSyntax) else parseUintLoop s 0

/-- The library's `ParseInt(s, 10, 0)`: a leading sign is picked off, a syntax
error gives 0, and a magnitude outside the `int` range gives the nearest end
of the range together with a range error. -/
def ParseInt (s : List Char) : Int × Option NumError :=
  match s with
  | [] => (0, some NumError.ErrSyntax)
  | c :: rest =>
    let neg := c = '-'
    let s1 := if c = '+' ∨ c = '-' then rest else s
    let (un, err) := ParseUint s1
    if err = some NumError.ErrSyntax then (0, err)
    else if ¬ neg ∧ (un : Int) ≥ 2 ^ 63 then (maxInt, some NumError.ErrRange)
    else if neg ∧ (un : Int) > 2 ^ 63 then (minInt, some NumError.ErrRange)
    else (if neg then -(un : Int) else (un : Int), none)

/-- The digit loop of the fast path of `Atoi`; `none` is its syntax error. -/
def atoiFastLoop : List Char → Nat → Option Nat
  | [], n => some n
  | c :: cs, n => if isDigit c then atoiFastLoop cs (n * 10 + (c.toNat - 48)) else none

/-- The library's `strconv.Atoi`: the value and the error (`none` for `nil`).
Strings of 1 to 18 bytes take the fast path, which cannot leave the `int`
range; all others go through `ParseInt`. -/
def Atoi (s : List Char) : Int × Option NumError :=
  let sLen := byteLen s
  if 0 < sLen ∧ sLen < 19 then
    match s with
    | [] => (0, some NumError.ErrSyntax)
    | c :: rest =>
      let signed := c = '-' ∨ c = '+'
      let s1 := if signed then rest else s
      if signed ∧ s1 = [] then (0, some NumError.ErrSyntax)
      else
        match atoiFastLoop s1 0 with
        | none => (0, some NumError.ErrSyntax)
        | some n => (if c = '-' then -(n : Int) else (n : Int), none)
  else ParseInt s

/-- The digits of a token: the token without its leading sign. -/
def digitsOf (tok : List Char) : List Char :=
  match tok with
  | [] => []
  | c :: r => if c = '+' ∨ c = '-' then r else c :: r

/-- The number a string of decimal digits denotes in base 10, the least
significant digit last. -/
def decimalValue (ds : List Char) : Nat :=
  Nat.ofDigits 10 (ds.reverse.map (fun c => c.toNat - 48))

/-- The integer a signed decimal numeral denotes: the value of its digits,
negated after a minus sign. -/
def intValue (tok : List Char) : Int :=
  if tok.head? = some '-' then -(decimalValue (digitsOf tok) : Int)
  else (decimalValue (digitsOf tok) : Int)

/-- A valid signed decimal integer: an optional sign, at least one digit,
digits only, and a value that an `int` holds. -/
def ValidInt (tok : List Char) : Prop :=
  digitsOf tok ≠ [] ∧ (∀ c ∈ digitsOf tok, isDigit c = true)
    ∧ minInt ≤ intValue tok ∧ intValue tok ≤ maxInt

instance (tok : List Char) : Decidable (ValidInt tok) :=
  inferInstanceAs (Decidable (digitsOf tok ≠ [] ∧ (∀ c ∈ digitsOf tok, isDigit c = true)
    ∧ minInt ≤ intValue tok ∧ intValue tok ≤ maxInt))

/-! ## The loader -/

/-- The library's `bytes.IndexByte`. -/
def indexByte (data : List Char) (c : Char) : Option Nat :=
  match data with
  | [] => none
  | d :: ds => if d = c then some 0 else (indexByte ds c).map (· + 1)

/-- The library's `dropCR`: drops one terminal `'\r'`. -/
def dropCR (data : List Char) : List Char :=
  if data.getLast? = some '\r' then data.dropLast else data

/-- The library's `bufio.MaxScanTokenSize`, the size the scanner's buffer may
reach. -/
def maxScanTokenSize : Nat := 64 * 1024

/-- One call of `scanner.Scan()` with the split function `ScanLines`, on the
input still unread: the line up to the next `'\n'` (or up to the end of the
input for a last line without one), less a terminal `'\r'`, and the input left.
`none` is `Scan` returning false: at the end of the input, or with
`ErrTooLong` when the buffer, which holds at most `maxScanTokenSize` bytes,
fills up before the line is complete. -/
def Scan (data : List Char) : Option (List Char × List Char) :=
  if data = [] then none
  else
    match indexByte data '\n' with
    | some i =>
      if byteLen (data.take i) < maxScanTokenSize then
        some (dropCR (data.take i), data.drop (i + 1))
      else none
    | none =>
      if byteLen data < maxScanTokenSize then some (dropCR data, []) else none

/-- The lines for which `scanner.Scan()` returns true, in order; every
successful `Scan` consumes at least one character, so `fuel` equal to the
length of the input never runs out. -/
def scanAll : Nat → List Char → List (List Char)
  | 0, _ => []
  | fuel + 1, data =>
    match Scan data with
    | none => []
    | some (line, rest) => line :: scanAll fuel rest

/-- The loop `for i, chipStr := range row` over a slice made by
`make([]int, len(row))`: `chips[i], err = strconv.Atoi(chipStr)` stores the
value `Atoi` returns whether or not it reports an error; a token with an error
is reported by `log.Printf` and collected in `warned`. -/
def chipsLoop : List (List Char) → Nat → List Int → List (List Char)
    → List Int × List (List Char)
  | [], _, chips, warned => (chips, warned)
  | chipStr :: row, i, chips, warned =>
    let r := Atoi chipStr
    chipsLoop row (i + 1) (chips.set i r.1)
      (if r.2 ≠ none then warned ++ [chipStr] else warned)

/-- The body of the scan loop for one line: the row of chips and the tokens
reported. -/
def parseRow (line : List Char) : SpreadingCode × List (List Char) :=
  let row := Fields line
  let r := chipsLoop row 0 (List.replicate row.length 0) []
  (⟨r.1⟩, r.2)

/-- How the loader ends: `log.Fatal` terminates the process, otherwise the
matrix is returned to the caller. -/
inductive Outcome where
  | fatal (msg : String)
  | returned (matrix : WalshMatrix)
deriving DecidableEq, Repr

/-- A run of the loader: how it ended, the lines scanned and the tokens
reported by `log.Printf`. -/
structure LoadRun where
  outcome : Outcome
  scanned : List (List Char)
  warned : List (List Char)
deriving DecidableEq, Repr

/-- The loop `for scanner.Scan() { ... }`: each line appends one row to
`matrix.Rows`. -/
def loadLoop : List (List Char) → WalshMatrix → List (List Char)
    → WalshMatrix × List (List Char)
  | [], matrix, warned => (matrix, warned)
  | line :: lines, matrix, warned =>
    let r := parseRow line
    loadLoop lines ⟨matrix.Rows ++ [r.1]⟩ (warned ++ r.2)

/-- The function `WalshMatrixFromFile`.  The argument is the result of
`os.Open`: `none` when the file cannot be opened, else the contents. -/
def WalshMatrixFromFile (file : Option (List Char)) : LoadRun :=
  match file with
  | none => ⟨Outcome.fatal "Couldn't open matrix file.", [], []⟩
  | some text =>
    let lines := scanAll text.length text
    let r := loadLoop lines ⟨[]⟩ []
    ⟨Outcome.returned r.1, lines, r.2⟩

/-- The lines of a text, as the specification words them: the pieces between
line feeds, without the empty piece after a final line feed. -/
def linesOf (text : List Char) : List (List Char) :=
  let pieces := text.splitOn '\n'
  if pieces.getLast? = some [] then pieces.dropLast else pieces

/-- The row the specification assigns to a line of valid tokens. -/
def rowOf (line : List Char) : SpreadingCode :=
  ⟨(tokensOf line).map intValue⟩


/-- A text of one line of 32768 chips `1`, each followed by a blank: 65536
bytes without a line feed. -/
def longLineText : List Char :=
  (List.replicate 32768 ['1', ' ']).flatten

/-! ## Sign changes -/

/-- Do two chips have different signs (negative, zero, positive). -/
def differentSign (a b : Int) : Bool :=
  decide (Int.sign a ≠ Int.sign b)

/-- Do two chips have opposite signs: one negative, the other positive. -/
def oppositeSign (a b : Int) : Bool :=
  decide ((a < 0 ∧ 0 < b) ∨ (0 < a ∧ b < 0))

/-- The number of sign changes of a code, as the comment on `Sequency` words
it: the adjacent positions `i` where `chips[i-1]` and `chips[i]` have different
signs. -/
def signChangeCount (chips : List Int) : Nat :=
  ((List.range chips.length).filter
    (fun i => decide (1 ≤ i) &&
      match chips[i - 1]?, chips[i]? with
      | some a, some b => differentSign a b
      | _, _ => false)).length

/-- The number of adjacent sign crossings of a code: the positions `i` where
`chips[i-1]` and `chips[i]` have opposite sign. -/
def signCrossingCount (chips : List Int) : Nat :=
  ((List.range chips.length).filter
    (fun i => decide (1 ≤ i) &&
      match chips[i - 1]?, chips[i]? with
      | some a, some b => oppositeSign a b
      | _, _ => false)).length

/-- The number of adjacent pairs of a list that differ, by recursion on the
list. -/
def changes : List Int → Nat
  | a :: b :: rest => (if b ≠ a then 1 else 0) + changes (b :: rest)
  | _ => 0

/-! ## The grid drawn by `main`

The coordinates handed to `Rectangle` are `float64` values; all of them are
products and sums of small non-negative integers, on which `float64` arithmetic
is exact, and they are modelled by `Nat`. -/

/-- The type `color.RGBA`: four `uint8` channels. -/
structure ColorRGBA where
  R : Nat
  G : Nat
  B : Nat
  A : Nat
deriving DecidableEq, Repr

/-- The `logoSize := 128` of `main`. -/
def logoSize : Nat := 128

/-- The `float64(logoSize / matrixSize)` of `main`, with
`matrixSize := len(matrix.Rows)`: an integer division, `none` for the run-time
panic of an integer division by zero. -/
def cellPixSize (matrix : WalshMatrix) : Option Nat :=
  let matrixSize := matrix.Rows.length
  if matrixSize = 0 then none else some (logoSize / matrixSize)

/-- The colour `main` sets before it draws the cell of chip `col`:
`color.RGBA{0x44, 0xff, 0x44, 0xff}` for `col < 0`, else
`color.RGBA{0xff, 0x00, 0x44, 0x00}`. -/
def fillColor (col : Int) : ColorRGBA :=
  if col < 0 then ⟨0x44, 0xff, 0x44, 0xff⟩ else ⟨0xff, 0x00, 0x44, 0x00⟩

/-- One call `Rectangle(gc, x1, y1, x2, y2)` together with the fill colour set
when it is made. -/
structure Cell where
  x1 : Nat
  y1 : Nat
  x2 : Nat
  y2 : Nat
  fill : ColorRGBA
deriving DecidableEq, Repr

/-- The cell `main` draws for the chip `col` at row `i`, column `j`. -/
def cellAt (cell i j : Nat) (col : Int) : Cell :=
  ⟨i * cell, j * cell, i * cell + cell, j * cell + cell, fillColor col⟩

/-- The loop `for j, col := range row.Chips` of `main`, from column `j` on. -/
def drawRowLoop (cell i : Nat) : Nat → List Int → List Cell
  | _, [] => []
  | j, col :: cols => cellAt cell i j col :: drawRowLoop cell i (j + 1) cols

/-- The loop `for i, row := range matrix.Rows` of `main`, from row `i` on. -/
def drawRowsLoop (cell : Nat) : Nat → List SpreadingCode → List Cell
  | _, [] => []
  | i, row :: rows => drawRowLoop cell i 0 row.Chips ++ drawRowsLoop cell (i + 1) rows

/-- The cells `main` draws for a sorted matrix, in drawing order; `none` when
the cell size cannot be computed. -/
def drawGrid (matrix : WalshMatrix) : Option (List Cell) :=
  match cellPixSize matrix with
  | none => none
  | some cell => some (drawRowsLoop cell 0 matrix.Rows)

/-- How the first part of `main` ends: the loader's `log.Fatal`, a panic of a
hook on an index out of range, the panic of the division by zero, or the grid
drawn. -/
inductive MainRun where
  | fatal (msg : String)
  | indexPanic
  | divideByZero
  | drawn (cells : List Cell)
deriving DecidableEq, Repr

/-- The first part of `main`: load `walsh.txt`, sort, compute the cell size,
draw the grid. -/
def mainGrid (file : Option (List Char)) : MainRun :=
  match (WalshMatrixFromFile file).outcome with
  | Outcome.fatal msg => MainRun.fatal msg
  | Outcome.returned matrix =>
    match sort_Sort matrix with
    | none => MainRun.indexPanic
    | some sorted =>
      match drawGrid sorted with
      | none => MainRun.divideByZero
      | some cells => MainRun.drawn cells

/-! ## Line drawing on an image -/

/-- The library's `image.RGBA` seen through its bounds `Rect` (`Min` inclusive,
`Max` exclusive) and the colour of each pixel (`RGBAAt`). -/
structure ImageRGBA where
  minX : Int
  minY : Int
  maxX : Int
  maxY : Int
  pix : Int → Int → ColorRGBA

/-- The type `Image struct { RGBA *image.RGBA }`. -/
structure Image where
  RGBA : ImageRGBA

/-- The bounds of an image are Go `int`s. -/
def Image.boundsAreInts (img : Image) : Prop :=
  img.RGBA.maxX ≤ maxInt ∧ img.RGBA.maxY ≤ maxInt

instance (img : Image) : Decidable img.boundsAreInts :=
  inferInstanceAs (Decidable (img.RGBA.maxX ≤ maxInt ∧ img.RGBA.maxY ≤ maxInt))

/-- The library's `Point{x, y}.In(p.Rect)`. -/
def ImageRGBA.contains (p : ImageRGBA) (x y : Int) : Prop :=
  p.minX ≤ x ∧ x < p.maxX ∧ p.minY ≤ y ∧ y < p.maxY

instance (p : ImageRGBA) (x y : Int) : Decidable (p.contains x y) :=
  inferInstanceAs (Decidable (p.minX ≤ x ∧ x < p.maxX ∧ p.minY ≤ y ∧ y < p.maxY))

/-- The library's `(*image.RGBA).Set` with a `color.RGBA` colour: nothing
happens for a point outside the bounds, else the pixel takes the colour. -/
def ImageRGBA.Set (p : ImageRGBA) (x y : Int) (c : ColorRGBA) : ImageRGBA :=
  if p.contains x y then
    { p with pix := fun x0 y0 => if x0 = x ∧ y0 = y then c else p.pix x0 y0 }
  else p

/-- The function `NewImage`: 100 by 100 pixels at the origin, all zero. -/
def NewImage : Image :=
  ⟨⟨0, 0, 100, 100, fun _ _ => ⟨0, 0, 0, 0⟩⟩⟩

/-- The loop `for ; x1 <= x2; x1++ { img.RGBA.Set(x1, y, color) }` with `k`
iterations remaining. -/
def hLineLoop (y : Int) (color : ColorRGBA) : Nat → Int → Image → Image
  | 0, _, img => img
  | k + 1, x1, img => hLineLoop y color k (x1 + 1) ⟨img.RGBA.Set x1 y color⟩

/-- The method `HLine`.  The loop runs `x2 - x1 + 1` times when `x1 <= x2` and
not at all otherwise; with `x2` the largest `int` the increment wraps around
and the loop never ends, which is `none`. -/
def Image.HLine (img : Image) (x1 y x2 : Int) (color : ColorRGBA) : Option Image :=
  if x1 ≤ x2 ∧ x2 = maxInt then none
  else some (hLineLoop y color (x2 + 1 - x1).toNat x1 img)

/-- The loop `for ; y1 <= y2; y1++ { img.RGBA.Set(x, y1, color) }` with `k`
iterations remaining. -/
def vLineLoop (x : Int) (color : ColorRGBA) : Nat → Int → Image → Image
  | 0, _, img => img
  | k + 1, y1, img => vLineLoop x color k (y1 + 1) ⟨img.RGBA.Set x y1 color⟩

/-- The method `VLine`; `none` as for `HLine`. -/
def Image.VLine (img : Image) (x y1 y2 : Int) (color : ColorRGBA) : Option Image :=
  if y1 ≤ y2 ∧ y2 = maxInt then none
  else some (vLineLoop x color (y2 + 1 - y1).toNat y1 img)

/-- The method `Rect`: two horizontal and two vertical lines. -/
def Image.Rect (img : Image) (x1 y1 x2 y2 : Int) (color : ColorRGBA) : Option Image :=
  match img.HLine x1 y1 x2 color with
  | none => none
  | some a =>
    match a.HLine x1 y2 x2 color with
    | none => none
    | some b =>
      match b.VLine x1 y1 y2 color with
      | none => none
      | some c => c.VLine x2 y1 y2 color

/-- Does the point lie on the outline of the rectangle with corners
`(x1, y1)` and `(x2, y2)`, end points included. -/
def onOutline (x1 y1 x2 y2 x y : Int) : Prop :=
  x1 ≤ x ∧ x ≤ x2 ∧ y1 ≤ y ∧ y ≤ y2 ∧ (x = x1 ∨ x = x2 ∨ y = y1 ∨ y = y2)

instance (x1 y1 x2 y2 x y : Int) : Decidable (onOutline x1 y1 x2 y2 x y) :=
  inferInstanceAs (Decidable (x1 ≤ x ∧ x ≤ x2 ∧ y1 ≤ y ∧ y ≤ y2
    ∧ (x = x1 ∨ x = x2 ∨ y = y1 ∨ y = y2)))

/-- The green of `main`: `color.RGBA{0, 255, 0, 255}`. -/
def green : ColorRGBA := ⟨0, 255, 0, 255⟩

/-! ## Lemmas on `Sequency` -/

theorem sequencyLoop_eq (chips : List Int) (k i : Nat) (count : Int) :
    sequencyLoop chips k i count =
      count + (((List.range' i k).filter
        (fun j => decide (chips.getD j 0 ≠ chips.getD (j - 1) 0))).length : Int) := by
  induction k generalizing i count with
  | zero => simp [sequencyLoop]
  | succ k ih =>
    rw [sequencyLoop, ih, List.range'_succ, List.filter_cons]
    by_cases h : chips.getD i 0 ≠ chips.getD (i - 1) 0
    · simp only [h, if_true, decide_True, List.length_cons, ne_eq, not_false_eq_true]
      push_cast
      ring
    · simp only [h, if_false, decide_False, ne_eq, not_false_eq_true]
      simp

theorem range_filter_pos (n : Nat) (p : Nat → Bool) :
    (List.range (n + 1)).filter (fun i => decide (1 ≤ i) && p i) =
      (List.range' 1 n).filter p := by
  rw [List.range_eq_range', List.range'_succ, List.filter_cons]
  simp only [Nat.le_zero_eq, Nat.one_ne_zero, decide_False, Bool.false_and, Bool.false_eq_true,
    if_false, zero_add]
  apply List.filter_congr
  intro x hx
  have : 1 ≤ x := (List.mem_range'_1.mp hx).1
  simp [this]

theorem getD_ne_iff (chips : List Int) (i : Nat) (h0 : 1 ≤ i) (h : i < chips.length) :
    chips.getD i 0 ≠ chips.getD (i - 1) 0 ↔ chips[i]? ≠ chips[i - 1]? := by
  have h1 : i - 1 < chips.length := by omega
  simp [List.getD_eq_getElem?_getD, List.getElem?_eq_getElem h, List.getElem?_eq_getElem h1]

theorem Sequency_eq_adjacentChangeCount (code : SpreadingCode) :
    code.Sequency = (adjacentChangeCount code.Chips : Int) := by
  obtain ⟨chips⟩ := code
  unfold SpreadingCode.Sequency adjacentChangeCount
  obtain hlen | ⟨n, hlen⟩ : chips.length = 0 ∨ ∃ n, chips.length = n + 1 := by
    cases chips.length with
    | zero => exact Or.inl rfl
    | succ n => exact Or.inr ⟨n, rfl⟩
  · simp [hlen]
  · simp only [hlen, Nat.succ_ne_zero, if_false, Nat.add_sub_cancel]
    rw [sequencyLoop_eq, range_filter_pos, zero_add]
    congr 2
    apply List.filter_congr
    intro x hx
    have hx1 := List.mem_range'_1.mp hx
    have := getD_ne_iff chips x hx1.1 (by omega)
    simp only [decide_eq_decide]
    exact this

/-! ## Lemmas on the hooks -/

theorem cons_set_perm (t : List SpreadingCode) :
    ∀ (k : Nat) (x a : SpreadingCode), t[k]? = some x → (x :: t.set k a).Perm (a :: t) := by
  induction t with
  | nil => intro k x a h; simp at h
  | cons b t ih =>
    intro k x a h
    cases k with
    | zero =>
      simp only [List.getElem?_cons_zero, Option.some.injEq] at h
      subst h
      exact List.Perm.swap _ _ _
    | succ k =>
      simp only [List.getElem?_cons_succ] at h
      simp only [List.set_cons_succ]
      exact (List.Perm.swap _ _ _).trans
        (((ih k x a h).cons b).trans (List.Perm.swap _ _ _))

theorem set_set_perm_rows (l : List SpreadingCode) :
    ∀ (i j : Nat) (ri rj : SpreadingCode), l[i]? = some ri → l[j]? = some rj →
      ((l.set i rj).set j ri).Perm l := by
  induction l with
  | nil => intro i j ri rj h; simp at h
  | cons a t ih =>
    intro i j ri rj hi hj
    cases i with
    | zero =>
      simp only [List.getElem?_cons_zero, Option.some.injEq] at hi
      subst hi
      cases j with
      | zero =>
        simp only [List.getElem?_cons_zero, Option.some.injEq] at hj
        subst hj
        simp
      | succ j =>
        simp only [List.getElem?_cons_succ] at hj
        simp only [List.set_cons_zero, List.set_cons_succ]
        exact cons_set_perm t j rj a hj
    | succ i =>
      simp only [List.getElem?_cons_succ] at hi
      cases j with
      | zero =>
        simp only [List.getElem?_cons_zero, Option.some.injEq] at hj
        subst hj
        simp only [List.set_cons_zero, List.set_cons_succ]
        exact cons_set_perm t i ri a hi
      | succ j =>
        simp only [List.getElem?_cons_succ] at hj
        simp only [List.set_cons_succ]
        exact (ih i j ri rj hi hj).cons a

/-- An in-range `Swap` permutes the rows. -/
theorem Swap_perm (m m1 : WalshMatrix) (i j : Nat) (h : m.Swap i j = some m1) :
    m1.Rows.Perm m.Rows := by
  unfold WalshMatrix.Swap at h
  cases hi : m.Rows[i]? with
  | none => simp [hi] at h
  | some ri =>
    cases hj : m.Rows[j]? with
    | none => simp [hi, hj] at h
    | some rj =>
      simp only [hi, hj, Option.some.injEq] at h
      subst h
      exact set_set_perm_rows m.Rows i j ri rj hi hj

/-- With pairwise distinct sequencies there is one ascending arrangement of
the rows only. -/
theorem ascending_unique (rows R1 R2 : List SpreadingCode)
    (hd : (rows.map SpreadingCode.Sequency).Nodup)
    (hp1 : R1.Perm rows) (hs1 : R1.Pairwise seqLE)
    (hp2 : R2.Perm rows) (hs2 : R2.Pairwise seqLE) : R1 = R2 := by
  have hmap : R1.map SpreadingCode.Sequency = R2.map SpreadingCode.Sequency := by
    apply List.eq_of_perm_of_sorted (r := (· ≤ ·))
    · exact (hp1.trans hp2.symm).map _
    · exact List.pairwise_map.mpr hs1
    · exact List.pairwise_map.mpr hs2
  have hinj : ∀ a ∈ rows, ∀ b ∈ rows, a.Sequency = b.Sequency → a = b :=
    fun a ha b hb hab => List.inj_on_of_nodup_map hd ha hb hab
  have key : ∀ (A B : List SpreadingCode), (∀ a ∈ A, a ∈ rows) → (∀ b ∈ B, b ∈ rows) →
      A.map SpreadingCode.Sequency = B.map SpreadingCode.Sequency → A = B := by
    intro A
    induction A with
    | nil => intro B _ _ h; simpa using h.symm
    | cons a A ih =>
      intro B hA hB h
      cases B with
      | nil => simp at h
      | cons b B =>
        simp only [List.map_cons, List.cons.injEq] at h
        have hab : a = b := hinj a (hA a (by simp)) b (hB b (by simp)) h.1
        have hAB : A = B := ih B (fun x hx => hA x (List.mem_cons_of_mem _ hx))
          (fun x hx => hB x (List.mem_cons_of_mem _ hx)) h.2
        rw [hab, hAB]
  exact key R1 R2 (fun a ha => hp1.mem_iff.mp ha) (fun b hb => hp2.mem_iff.mp hb) hmap

theorem pairwise_lt_seqLE (rows : List SpreadingCode)
    (h : (rows.map SpreadingCode.Sequency).Pairwise (· < ·)) : rows.Pairwise seqLE :=
  (List.pairwise_map.mp h).imp (fun hab => le_of_lt hab)

theorem Swap_short (m m1 : WalshMatrix) (i j : Nat) (hlen : m.Rows.length ≤ 1)
    (h : m.Swap i j = some m1) : m1 = m := by
  obtain ⟨rows⟩ := m
  match rows, hlen with
  | [], _ => simp [WalshMatrix.Swap] at h
  | [r], _ =>
    cases i with
    | succ i => simp [WalshMatrix.Swap] at h
    | zero =>
      cases j with
      | succ j => simp [WalshMatrix.Swap] at h
      | zero =>
        simp [WalshMatrix.Swap] at h
        exact h.symm

/-! ## Lemmas on the hooks, by index -/

theorem keyAt_of_getElem? (rows : List SpreadingCode) (k : Nat) (r : SpreadingCode)
    (h : rows[k]? = some r) : keyAt rows k = r.Sequency := by
  simp [keyAt, h]

theorem Less_keyAt (rows : List SpreadingCode) (i j : Nat) (hi : i < rows.length)
    (hj : j < rows.length) :
    WalshMatrix.Less ⟨rows⟩ i j = some (decide (keyAt rows i < keyAt rows j)) := by
  simp only [WalshMatrix.Less, keyAt, List.getElem?_eq_getElem hi, List.getElem?_eq_getElem hj]

theorem Swap_keyAt (rows : List SpreadingCode) (i j : Nat) (hi : i < rows.length)
    (hj : j < rows.length) :
    ∃ rows1, WalshMatrix.Swap ⟨rows⟩ i j = some ⟨rows1⟩ ∧ rows1.length = rows.length
      ∧ ∀ k, keyAt rows1 k
          = if k = j then keyAt rows i else if k = i then keyAt rows j else keyAt rows k := by
  refine ⟨(rows.set i rows[j]).set j rows[i], ?_, by simp, ?_⟩
  · simp only [WalshMatrix.Swap, List.getElem?_eq_getElem hi, List.getElem?_eq_getElem hj]
  · intro k
    simp only [keyAt, List.getElem?_set, List.length_set]
    by_cases hkj : k = j
    · subst hkj
      simp [hj, List.getElem?_eq_getElem hi]
    · by_cases hki : k = i
      · subst hki
        have : ¬ j = k := fun h => hkj h.symm
        simp [hkj, this, hi, List.getElem?_eq_getElem hj]
      · have h1 : ¬ j = k := fun h => hkj h.symm
        have h2 : ¬ i = k := fun h => hki h.symm
        simp [hkj, hki, h1, h2]

theorem Swap_length (rows rows1 : List SpreadingCode) (i j : Nat)
    (h : WalshMatrix.Swap ⟨rows⟩ i j = some ⟨rows1⟩) :
    i < rows.length ∧ j < rows.length ∧ rows1.length = rows.length := by
  unfold WalshMatrix.Swap at h
  cases hi : rows[i]? with
  | none => simp [hi] at h
  | some ri =>
    cases hj : rows[j]? with
    | none => simp [hi, hj] at h
    | some rj =>
      simp only [hi, hj, Option.some.injEq, WalshMatrix.mk.injEq] at h
      subst h
      exact ⟨(List.getElem?_eq_some_iff.mp hi).1, (List.getElem?_eq_some_iff.mp hj).1,
        by simp⟩

/-! ## Lemmas on `RangePerm` -/

theorem RangePerm.trans {a b : Nat} {r1 r2 r3 : List SpreadingCode}
    (h12 : RangePerm a b r1 r2) (h23 : RangePerm a b r2 r3) : RangePerm a b r1 r3 := by
  induction h23 with
  | refl => exact h12
  | swap i j _ hai hib haj hjb hs ih => exact RangePerm.swap i j ih hai hib haj hjb hs

theorem RangePerm.mono {a b a1 b1 : Nat} {r1 r2 : List SpreadingCode}
    (h : RangePerm a b r1 r2) (ha : a1 ≤ a) (hb : b ≤ b1) : RangePerm a1 b1 r1 r2 := by
  induction h with
  | refl => exact RangePerm.refl _
  | swap i j _ hai hib haj hjb hs ih =>
    exact RangePerm.swap i j ih (by omega) (by omega) (by omega) (by omega) hs

theorem RangePerm.length_eq {a b : Nat} {r1 r2 : List SpreadingCode}
    (h : RangePerm a b r1 r2) : r2.length = r1.length := by
  induction h with
  | refl => rfl
  | swap i j _ _ _ _ _ hs ih => rw [← ih]; exact (Swap_length _ _ i j hs).2.2

theorem RangePerm.perm {a b : Nat} {r1 r2 : List SpreadingCode}
    (h : RangePerm a b r1 r2) : r2.Perm r1 := by
  induction h with
  | refl => exact List.Perm.refl _
  | swap i j _ _ _ _ _ hs ih => exact (Swap_perm ⟨_⟩ ⟨_⟩ i j hs).trans ih

theorem RangePerm.of_swap {a b : Nat} {r1 r2 : List SpreadingCode} (i j : Nat)
    (hai : a ≤ i) (hib : i < b) (haj : a ≤ j) (hjb : j < b)
    (hs : WalshMatrix.Swap ⟨r1⟩ i j = some ⟨r2⟩) : RangePerm a b r1 r2 :=
  RangePerm.swap i j (RangePerm.refl r1) hai hib haj hjb hs

/-- Outside the range the rows stay where they are. -/
theorem RangePerm.frame {a b : Nat} {r1 r2 : List SpreadingCode}
    (h : RangePerm a b r1 r2) (k : Nat) (hk : k < a ∨ b ≤ k) : keyAt r2 k = keyAt r1 k := by
  induction h with
  | refl => rfl
  | swap i j _ hai hib haj hjb hs ih =>
    obtain ⟨hi, hj, _⟩ := Swap_length _ _ i j hs
    obtain ⟨r, hr, _, hkey⟩ := Swap_keyAt _ i j hi hj
    rw [hs, Option.some.injEq, WalshMatrix.mk.injEq] at hr
    subst hr
    rw [hkey, if_neg (by omega), if_neg (by omega), ih]

/-- What holds of the sequency of every row of the range holds after the
swaps. -/
theorem RangePerm.range_forall {a b : Nat} {r1 r2 : List SpreadingCode}
    (h : RangePerm a b r1 r2) (P : Int → Prop)
    (hP : ∀ k, a ≤ k → k < b → P (keyAt r1 k)) : ∀ k, a ≤ k → k < b → P (keyAt r2 k) := by
  induction h with
  | refl => exact hP
  | swap i j _ hai hib haj hjb hs ih =>
    obtain ⟨hi, hj, _⟩ := Swap_length _ _ i j hs
    obtain ⟨r, hr, _, hkey⟩ := Swap_keyAt _ i j hi hj
    rw [hs, Option.some.injEq, WalshMatrix.mk.injEq] at hr
    subst hr
    intro k hak hkb
    rw [hkey]
    split_ifs
    · exact ih i hai hib
    · exact ih j haj hjb
    · exact ih k hak hkb

theorem RangePerm.leftLE {a b a1 b1 : Nat} {r1 r2 : List SpreadingCode}
    (h : RangePerm a1 b1 r1 r2) (ha : a ≤ a1) (hb : b1 ≤ b) (hl : LeftLE a b r1) :
    LeftLE a b r2 := by
  intro p q hp haq hqb
  rw [h.frame p (Or.inl (by omega))]
  by_cases hq : a1 ≤ q ∧ q < b1
  · exact h.range_forall (fun x => keyAt r1 p ≤ x)
      (fun k hk1 hk2 => hl p k hp (by omega) (by omega)) q hq.1 hq.2
  · rw [h.frame q (by omega)]
    exact hl p q hp haq hqb

/-! ## Lemmas on the scanning loops -/

theorem scanUp_spec (cond : Nat → Option Bool) (P : Nat → Prop) [DecidablePred P]
    (hi : Nat) (fuel : Nat) :
    ∀ i : Nat, i ≤ hi → hi < i + fuel →
      (∀ k, i ≤ k → k < hi → cond k = some (decide (P k))) →
      ∃ i1, scanUp cond hi fuel i = some i1 ∧ i ≤ i1 ∧ i1 ≤ hi
        ∧ (∀ k, i ≤ k → k < i1 → P k) ∧ (i1 < hi → ¬ P i1) := by
  induction fuel with
  | zero => intro i h1 h2; omega
  | succ fuel ih =>
    intro i h1 h2 hc
    rw [scanUp]
    by_cases hlt : i < hi
    · rw [if_pos hlt, hc i (le_refl _) hlt]
      by_cases hp : P i
      · simp only [hp, decide_True]
        obtain ⟨i1, hr, h3, h4, h5, h6⟩ := ih (i + 1) (by omega) (by omega)
          (fun k hk1 hk2 => hc k (by omega) hk2)
        refine ⟨i1, hr, by omega, h4, ?_, h6⟩
        intro k hk1 hk2
        by_cases hki : k = i
        · subst hki; exact hp
        · exact h5 k (by omega) hk2
      · simp only [hp, decide_False]
        exact ⟨i, rfl, le_refl _, h1, fun k hk1 hk2 => by omega, fun _ => hp⟩
    · rw [if_neg hlt]
      exact ⟨i, rfl, le_refl _, h1, fun k hk1 hk2 => by omega, fun h => absurd h hlt⟩

theorem scanDown_spec (cond : Nat → Option Bool) (P : Nat → Prop) [DecidablePred P]
    (lo : Nat) (hlo : 1 ≤ lo) (fuel : Nat) :
    ∀ j : Nat, lo ≤ j + 1 → j + 1 < lo + fuel →
      (∀ k, lo ≤ k → k ≤ j → cond k = some (decide (P k))) →
      ∃ j1, scanDown cond lo fuel j = some j1 ∧ j1 ≤ j ∧ lo ≤ j1 + 1
        ∧ (∀ k, j1 < k → k ≤ j → P k) ∧ (lo ≤ j1 → ¬ P j1) := by
  induction fuel with
  | zero => intro j h1 h2; omega
  | succ fuel ih =>
    intro j h1 h2 hc
    rw [scanDown]
    by_cases hle : lo ≤ j
    · rw [if_pos hle, hc j hle (le_refl _)]
      by_cases hp : P j
      · simp only [hp, decide_True]
        obtain ⟨j1, hr, h3, h4, h5, h6⟩ := ih (j - 1) (by omega) (by omega)
          (fun k hk1 hk2 => hc k hk1 (by omega))
        refine ⟨j1, hr, by omega, h4, ?_, h6⟩
        intro k hk1 hk2
        by_cases hkj : k = j
        · subst hkj; exact hp
        · exact h5 k hk1 (by omega)
      · simp only [hp, decide_False]
        exact ⟨j, rfl, le_refl _, h1, fun k hk1 hk2 => by omega, fun _ => hp⟩
    · rw [if_neg hle]
      exact ⟨j, rfl, le_refl _, h1, fun k hk1 hk2 => by omega, fun h => absurd h hle⟩

/-! ## The insertion sort on a range -/

theorem insertionInner_range (a i : Nat) :
    ∀ (j : Nat) (rows : List SpreadingCode), a ≤ j → j ≤ i → i < rows.length →
      (∀ p q, a ≤ p → p < q → q ≤ i → p ≠ j → q ≠ j → keyAt rows p ≤ keyAt rows q) →
      (∀ q, j < q → q ≤ i → keyAt rows j ≤ keyAt rows q) →
      ∃ rows1, insertionInner a j ⟨rows⟩ = some ⟨rows1⟩ ∧ RangePerm a (i + 1) rows rows1
        ∧ SortedRange a (i + 1) rows1 := by
  intro j
  induction j with
  | zero =>
    intro rows ha _ _ h1 h2
    refine ⟨rows, by simp [insertionInner], RangePerm.refl _, ?_⟩
    intro p q hp hpq hq
    by_cases hp0 : p = 0
    · subst hp0
      exact h2 q (by omega) (by omega)
    · exact h1 p q hp hpq (by omega) hp0 (by omega)
  | succ j ih =>
    intro rows ha hji hi h1 h2
    rw [insertionInner]
    by_cases haj : a < j + 1
    · rw [if_pos haj, Less_keyAt rows (j + 1) j (by omega) (by omega)]
      by_cases hlt : keyAt rows (j + 1) < keyAt rows j
      · obtain ⟨rows1, hs, hlen, hkey⟩ := Swap_keyAt rows (j + 1) j (by omega) (by omega)
        simp only [hlt, decide_True, hs]
        obtain ⟨rows2, hr, hperm, hsorted⟩ := ih rows1 (by omega) (by omega) (by omega)
          (by
            intro p q hp hpq hq hpj hqj
            rw [hkey, hkey, if_neg hpj, if_neg hqj]
            by_cases hp1 : p = j + 1
            · rw [if_pos hp1, if_neg (by omega)]
              exact h1 j q (by omega) (by omega) hq (by omega) (by omega)
            · rw [if_neg hp1]
              by_cases hq1 : q = j + 1
              · rw [if_pos hq1]
                exact h1 p j hp (by omega) (by omega) hp1 (by omega)
              · rw [if_neg hq1]
                exact h1 p q hp hpq hq hp1 hq1)
          (by
            intro q hjq hq
            rw [hkey, hkey, if_pos rfl, if_neg (by omega)]
            by_cases hq1 : q = j + 1
            · rw [if_pos hq1]
              exact le_of_lt hlt
            · rw [if_neg hq1]
              exact h2 q (by omega) hq)
        exact ⟨rows2, hr,
          (RangePerm.of_swap (j + 1) j (by omega) (by omega) (by omega) (by omega) hs).trans
            hperm, hsorted⟩
      · simp only [hlt, decide_False]
        refine ⟨rows, rfl, RangePerm.refl _, ?_⟩
        intro p q hp hpq hq
        by_cases hpj : p = j + 1
        · subst hpj
          exact h2 q hpq (by omega)
        · by_cases hqj : q = j + 1
          · subst hqj
            by_cases hpj2 : p = j
            · subst hpj2
              exact not_lt.mp hlt
            · exact le_trans (h1 p j hp (by omega) (by omega) hpj (by omega)) (not_lt.mp hlt)
          · exact h1 p q hp hpq (by omega) hpj hqj
    · rw [if_neg haj]
      refine ⟨rows, rfl, RangePerm.refl _, ?_⟩
      intro p q hp hpq hq
      by_cases hpj : p = j + 1
      · subst hpj
        exact h2 q hpq (by omega)
      · exact h1 p q hp hpq (by omega) hpj (by omega)

theorem insertionOuter_range (a b : Nat) (k : Nat) :
    ∀ (i : Nat) (rows : List SpreadingCode), a < i → i + k = b → b ≤ rows.length →
      SortedRange a i rows →
      ∃ rows1, insertionOuter a k i ⟨rows⟩ = some ⟨rows1⟩ ∧ RangePerm a b rows rows1
        ∧ SortedRange a b rows1 := by
  induction k with
  | zero =>
    intro i rows _ hik _ hs
    have : i = b := by omega
    subst this
    exact ⟨rows, rfl, RangePerm.refl _, hs⟩
  | succ k ih =>
    intro i rows hai hik hb hs
    obtain ⟨rows1, hr, hperm, hsorted⟩ := insertionInner_range a i i rows (by omega)
      (le_refl _) (by omega)
      (fun p q hp hpq hq _ hqi => hs p q hp hpq (by omega))
      (fun q hq1 hq2 => by omega)
    obtain ⟨rows2, hr2, hperm2, hsorted2⟩ := ih (i + 1) rows1 (by omega) (by omega)
      (by rw [hperm.length_eq]; exact hb) hsorted
    rw [insertionOuter, hr]
    exact ⟨rows2, hr2, (hperm.mono (le_refl _) (by omega)).trans hperm2, hsorted2⟩

/-- The library's `insertionSort` sorts the range `[a, b)` by swaps inside it. -/
theorem insertionSort_range (rows : List SpreadingCode) (a b : Nat) (hb : b ≤ rows.length) :
    ∃ rows1, insertionSort ⟨rows⟩ a b = some ⟨rows1⟩ ∧ RangePerm a b rows rows1
      ∧ SortedRange a b rows1 := by
  unfold insertionSort
  by_cases hab : a + 1 ≤ b
  · exact insertionOuter_range a b (b - (a + 1)) (a + 1) rows (by omega) (by omega) hb
      (fun p q hp hpq hq => by omega)
  · have : b - (a + 1) = 0 := by omega
    rw [this]
    exact ⟨rows, rfl, RangePerm.refl _, fun p q hp hpq hq => by omega⟩

/-! ## The partition -/

theorem partition_scan (rows : List SpreadingCode) (a b i j : Nat) (hia : a + 1 ≤ i)
    (hij : i ≤ j + 1) (hjb : j < b) (hb : b ≤ rows.length)
    (hlo : ∀ k, a < k → k < i → keyAt rows k < keyAt rows a)
    (hhi : ∀ k, j < k → k < b → ¬ keyAt rows k < keyAt rows a) :
    ∃ i1 j1, scanUp (fun k => WalshMatrix.Less ⟨rows⟩ k a) (j + 1) (rows.length + 1) i
        = some i1
      ∧ scanDown (fun k => (WalshMatrix.Less ⟨rows⟩ k a).map not) i1 (rows.length + 1) j
        = some j1
      ∧ i ≤ i1 ∧ i1 ≤ j1 + 1 ∧ j1 ≤ j
      ∧ (∀ k, a < k → k < i1 → keyAt rows k < keyAt rows a)
      ∧ (∀ k, j1 < k → k < b → ¬ keyAt rows k < keyAt rows a)
      ∧ (i1 ≤ j1 → ¬ keyAt rows i1 < keyAt rows a ∧ keyAt rows j1 < keyAt rows a) := by
  obtain ⟨i1, hup, h1, h2, h3, h4⟩ := scanUp_spec (fun k => WalshMatrix.Less ⟨rows⟩ k a)
    (fun k => keyAt rows k < keyAt rows a) (j + 1) (rows.length + 1) i hij (by omega)
    (fun k _ hk => Less_keyAt rows k a (by omega) (by omega))
  obtain ⟨j1, hdown, h5, h6, h7, h8⟩ := scanDown_spec
    (fun k => (WalshMatrix.Less ⟨rows⟩ k a).map not)
    (fun k => ¬ keyAt rows k < keyAt rows a) i1 (by omega) (rows.length + 1) j (by omega)
    (by omega)
    (fun k _ hk => by
      simp only [Less_keyAt rows k a (by omega) (by omega), Option.map_some', decide_not])
  refine ⟨i1, j1, hup, hdown, h1, h6, h5, ?_, ?_, ?_⟩
  · intro k hk1 hk2
    by_cases hki : k < i
    · exact hlo k hk1 hki
    · exact h3 k (by omega) hk2
  · intro k hk1 hk2
    by_cases hkj : k ≤ j
    · exact h7 k hk1 hkj
    · exact hhi k (by omega) hk2
  · intro hle
    exact ⟨h4 (by omega), not_not.mp (h8 hle)⟩

theorem partitionLoop_spec (a b : Nat) (fuel : Nat) :
    ∀ (rows : List SpreadingCode) (i j : Nat), a + 1 ≤ i → i ≤ j + 1 → j < b →
      b ≤ rows.length → j + 2 ≤ i + fuel →
      (∀ k, a < k → k < i → keyAt rows k < keyAt rows a) →
      (∀ k, j < k → k < b → ¬ keyAt rows k < keyAt rows a) →
      ∃ rows1 j1, partitionLoop a fuel ⟨rows⟩ i j = some (⟨rows1⟩, j1)
        ∧ RangePerm (a + 1) b rows rows1 ∧ a ≤ j1 ∧ j1 < b
        ∧ (∀ k, a < k → k ≤ j1 → keyAt rows1 k < keyAt rows1 a)
        ∧ (∀ k, j1 < k → k < b → ¬ keyAt rows1 k < keyAt rows1 a) := by
  induction fuel with
  | zero => intro rows i j h1 h2 h3 h4 h5; omega
  | succ fuel ih =>
    intro rows i j hia hij hjb hb hfuel hlo hhi
    obtain ⟨i1, j1, hup, hdown, h1, h2, h3, h4, h5, h6⟩ :=
      partition_scan rows a b i j hia hij hjb hb hlo hhi
    rw [partitionLoop]
    simp only [WalshMatrix.Len, hup, hdown]
    by_cases hgt : i1 > j1
    · rw [if_pos hgt]
      exact ⟨rows, j1, rfl, RangePerm.refl _, by omega, by omega,
        fun k hk1 hk2 => h4 k hk1 (by omega), h5⟩
    · rw [if_neg hgt]
      obtain ⟨hni, hnj⟩ := h6 (by omega)
      have hne : i1 ≠ j1 := fun h => hni (h ▸ hnj)
      obtain ⟨rows1, hs, hlen, hkey⟩ := Swap_keyAt rows i1 j1 (by omega) (by omega)
      rw [hs]
      have hka : keyAt rows1 a = keyAt rows a := by
        rw [hkey, if_neg (by omega), if_neg (by omega)]
      obtain ⟨rows2, j2, hr, hperm, hj2a, hj2b, hlo2, hhi2⟩ := ih rows1 (i1 + 1) (j1 - 1)
        (by omega) (by omega) (by omega) (by omega) (by omega)
        (by
          intro k hk1 hk2
          rw [hka, hkey]
          by_cases hkj : k = j1
          · omega
          · rw [if_neg hkj]
            by_cases hki : k = i1
            · rw [if_pos hki]; exact hnj
            · rw [if_neg hki]; exact h4 k hk1 (by omega))
        (by
          intro k hk1 hk2
          rw [hka, hkey]
          by_cases hkj : k = j1
          · rw [if_pos hkj]; exact hni
          · rw [if_neg hkj, if_neg (by omega)]
            exact h5 k (by omega) hk2)
      exact ⟨rows2, j2, hr,
        (RangePerm.of_swap i1 j1 (by omega) (by omega) (by omega) (by omega) hs).trans hperm,
        hj2a, hj2b, hlo2, hhi2⟩

theorem partition_final_swap (rows : List SpreadingCode) (a b j : Nat) (haj : a ≤ j)
    (hjb : j < b) (hb : b ≤ rows.length)
    (hlo : ∀ k, a < k → k ≤ j → keyAt rows k < keyAt rows a)
    (hhi : ∀ k, j < k → k < b → ¬ keyAt rows k < keyAt rows a) :
    ∃ rows1, WalshMatrix.Swap ⟨rows⟩ j a = some ⟨rows1⟩ ∧ RangePerm a b rows rows1
      ∧ (∀ k, a ≤ k → k < j → keyAt rows1 k < keyAt rows1 j)
      ∧ (∀ k, j < k → k < b → ¬ keyAt rows1 k < keyAt rows1 j) := by
  obtain ⟨rows1, hs, _, hkey⟩ := Swap_keyAt rows j a (by omega) (by omega)
  have hmid : keyAt rows1 j = keyAt rows a := by
    rw [hkey]
    by_cases hja : j = a
    · rw [if_pos hja, hja]
    · rw [if_neg hja, if_pos rfl]
  refine ⟨rows1, hs, RangePerm.of_swap j a haj hjb (le_refl _) (by omega) hs, ?_, ?_⟩
  · intro k hk1 hk2
    rw [hmid, hkey]
    by_cases hka : k = a
    · rw [if_pos hka]
      exact hlo j (by omega) (le_refl _)
    · rw [if_neg hka, if_neg (by omega)]
      exact hlo k (by omega) (by omega)
  · intro k hk1 hk2
    rw [hmid, hkey, if_neg (by omega), if_neg (by omega)]
    exact hhi k hk1 hk2

/-- The library's `partition` returns an index `mid` of the range with every
row of smaller sequency before it and no row of smaller sequency after it. -/
theorem partition_spec (rows : List SpreadingCode) (a b pivot : Nat) (hap : a ≤ pivot)
    (hpb : pivot < b) (hb : b ≤ rows.length) :
    ∃ rows1 mid flag, partition ⟨rows⟩ a b pivot = some (⟨rows1⟩, mid, flag)
      ∧ RangePerm a b rows rows1 ∧ a ≤ mid ∧ mid < b
      ∧ (∀ k, a ≤ k → k < mid → keyAt rows1 k < keyAt rows1 mid)
      ∧ (∀ k, mid < k → k < b → ¬ keyAt rows1 k < keyAt rows1 mid) := by
  obtain ⟨rows0, hs0, hlen0, hkey0⟩ := Swap_keyAt rows a pivot (by omega) (by omega)
  have hp0 := RangePerm.of_swap (a := a) (b := b) a pivot (le_refl _) (by omega) hap hpb hs0
  obtain ⟨i1, j1, hup, hdown, h1, h2, h3, h4, h5, h6⟩ :=
    partition_scan rows0 a b (a + 1) (b - 1) (le_refl _) (by omega) (by omega) (by omega)
      (fun k hk1 hk2 => by omega) (fun k hk1 hk2 => by omega)
  unfold partition
  simp only [hs0, WalshMatrix.Len, hup, hdown]
  by_cases hgt : i1 > j1
  · rw [if_pos hgt]
    obtain ⟨rows1, hs1, hperm1, hlo1, hhi1⟩ := partition_final_swap rows0 a b j1 (by omega)
      (by omega) (by omega) (fun k hk1 hk2 => h4 k hk1 (by omega)) h5
    simp only [hs1]
    exact ⟨rows1, j1, true, rfl, hp0.trans hperm1, by omega, by omega, hlo1, hhi1⟩
  · rw [if_neg hgt]
    obtain ⟨hni, hnj⟩ := h6 (by omega)
    have hne : i1 ≠ j1 := fun h => hni (h ▸ hnj)
    obtain ⟨rows1, hs1, hlen1, hkey1⟩ := Swap_keyAt rows0 i1 j1 (by omega) (by omega)
    have hka : keyAt rows1 a = keyAt rows0 a := by
      rw [hkey1, if_neg (by omega), if_neg (by omega)]
    obtain ⟨rows2, j2, hr, hperm, hj2a, hj2b, hlo2, hhi2⟩ :=
      partitionLoop_spec a b (rows1.length + 1) rows1 (i1 + 1) (j1 - 1)
        (by omega) (by omega) (by omega) (by omega) (by omega)
        (by
          intro k hk1 hk2
          rw [hka, hkey1]
          by_cases hkj : k = j1
          · omega
          · rw [if_neg hkj]
            by_cases hki : k = i1
            · rw [if_pos hki]; exact hnj
            · rw [if_neg hki]; exact h4 k hk1 (by omega))
        (by
          intro k hk1 hk2
          rw [hka, hkey1]
          by_cases hkj : k = j1
          · rw [if_pos hkj]; exact hni
          · rw [if_neg hkj, if_neg (by omega)]
            exact h5 k (by omega) hk2)
    have hlen2 := hperm.length_eq
    obtain ⟨rows3, hs3, hperm3, hlo3, hhi3⟩ := partition_final_swap rows2 a b j2 hj2a hj2b
      (by omega) hlo2 hhi2
    simp only [hs1, hr, hs3]
    exact ⟨rows3, j2, false, rfl,
      (hp0.trans ((RangePerm.of_swap i1 j1 (by omega) (by omega) (by omega) (by omega)
        hs1).trans (hperm.mono (by omega) (le_refl _)))).trans hperm3,
      hj2a, hj2b, hlo3, hhi3⟩

/-! ## The partition of the rows equal to the pivot -/

theorem partitionEqual_scan (rows : List SpreadingCode) (a b i j : Nat) (hia : a + 1 ≤ i)
    (hij : i ≤ j + 1) (hjb : j < b) (hb : b ≤ rows.length)
    (hlo : ∀ k, a < k → k < i → ¬ keyAt rows a < keyAt rows k)
    (hhi : ∀ k, j < k → k < b → keyAt rows a < keyAt rows k) :
    ∃ i1 j1, scanUp (fun k => (WalshMatrix.Less ⟨rows⟩ a k).map not) (j + 1)
        (rows.length + 1) i = some i1
      ∧ scanDown (fun k => WalshMatrix.Less ⟨rows⟩ a k) i1 (rows.length + 1) j = some j1
      ∧ i ≤ i1 ∧ i1 ≤ j1 + 1 ∧ j1 ≤ j
      ∧ (∀ k, a < k → k < i1 → ¬ keyAt rows a < keyAt rows k)
      ∧ (∀ k, j1 < k → k < b → keyAt rows a < keyAt rows k)
      ∧ (i1 ≤ j1 → keyAt rows a < keyAt rows i1 ∧ ¬ keyAt rows a < keyAt rows j1) := by
  obtain ⟨i1, hup, h1, h2, h3, h4⟩ := scanUp_spec
    (fun k => (WalshMatrix.Less ⟨rows⟩ a k).map not)
    (fun k => ¬ keyAt rows a < keyAt rows k) (j + 1) (rows.length + 1) i hij (by omega)
    (fun k _ hk => by
      simp only [Less_keyAt rows a k (by omega) (by omega), Option.map_some', decide_not])
  obtain ⟨j1, hdown, h5, h6, h7, h8⟩ := scanDown_spec
    (fun k => WalshMatrix.Less ⟨rows⟩ a k)
    (fun k => keyAt rows a < keyAt rows k) i1 (by omega) (rows.length + 1) j (by omega)
    (by omega)
    (fun k _ hk => Less_keyAt rows a k (by omega) (by omega))
  refine ⟨i1, j1, hup, hdown, h1, h6, h5, ?_, ?_, ?_⟩
  · intro k hk1 hk2
    by_cases hki : k < i
    · exact hlo k hk1 hki
    · exact h3 k (by omega) hk2
  · intro k hk1 hk2
    by_cases hkj : k ≤ j
    · exact h7 k hk1 hkj
    · exact hhi k (by omega) hk2
  · intro hle
    exact ⟨not_not.mp (h4 (by omega)), h8 hle⟩

theorem partitionEqualLoop_spec (a b : Nat) (fuel : Nat) :
    ∀ (rows : List SpreadingCode) (i j : Nat), a + 1 ≤ i → i ≤ j + 1 → j < b →
      b ≤ rows.length → j + 2 ≤ i + fuel →
      (∀ k, a < k → k < i → ¬ keyAt rows a < keyAt rows k) →
      (∀ k, j < k → k < b → keyAt rows a < keyAt rows k) →
      ∃ rows1 i1, partitionEqualLoop a fuel ⟨rows⟩ i j = some (⟨rows1⟩, i1)
        ∧ RangePerm (a + 1) b rows rows1 ∧ a + 1 ≤ i1 ∧ i1 ≤ b
        ∧ keyAt rows1 a = keyAt rows a
        ∧ (∀ k, a < k → k < i1 → ¬ keyAt rows1 a < keyAt rows1 k)
        ∧ (∀ k, i1 ≤ k → k < b → keyAt rows1 a < keyAt rows1 k) := by
  induction fuel with
  | zero => intro rows i j h1 h2 h3 h4 h5; omega
  | succ fuel ih =>
    intro rows i j hia hij hjb hb hfuel hlo hhi
    obtain ⟨i1, j1, hup, hdown, h1, h2, h3, h4, h5, h6⟩ :=
      partitionEqual_scan rows a b i j hia hij hjb hb hlo hhi
    rw [partitionEqualLoop]
    simp only [WalshMatrix.Len, hup, hdown]
    by_cases hgt : i1 > j1
    · rw [if_pos hgt]
      exact ⟨rows, i1, rfl, RangePerm.refl _, by omega, by omega, rfl, h4,
        fun k hk1 hk2 => h5 k (by omega) hk2⟩
    · rw [if_neg hgt]
      obtain ⟨hni, hnj⟩ := h6 (by omega)
      have hne : i1 ≠ j1 := fun h => hnj (h ▸ hni)
      obtain ⟨rows1, hs, hlen, hkey⟩ := Swap_keyAt rows i1 j1 (by omega) (by omega)
      simp only [hs]
      have hka : keyAt rows1 a = keyAt rows a := by
        rw [hkey, if_neg (by omega), if_neg (by omega)]
      obtain ⟨rows2, i2, hr, hperm, hi2a, hi2b, hka2, hlo2, hhi2⟩ :=
        ih rows1 (i1 + 1) (j1 - 1)
        (by omega) (by omega) (by omega) (by omega) (by omega)
        (by
          intro k hk1 hk2
          rw [hka, hkey]
          by_cases hkj : k = j1
          · omega
          · rw [if_neg hkj]
            by_cases hki : k = i1
            · rw [if_pos hki]; exact hnj
            · rw [if_neg hki]; exact h4 k hk1 (by omega))
        (by
          intro k hk1 hk2
          rw [hka, hkey]
          by_cases hkj : k = j1
          · rw [if_pos hkj]; exact hni
          · rw [if_neg hkj, if_neg (by omega)]
            exact h5 k (by omega) hk2)
      exact ⟨rows2, i2, hr,
        (RangePerm.of_swap i1 j1 (by omega) (by omega) (by omega) (by omega) hs).trans hperm,
        hi2a, hi2b, hka2.trans hka, hlo2, hhi2⟩

/-- On a range without a row of smaller sequency than the pivot, the library's
`partitionEqual` puts the rows of the pivot's sequency first and returns the
index of the first row of greater sequency. -/
theorem partitionEqual_spec (rows : List SpreadingCode) (a b pivot : Nat) (hap : a ≤ pivot)
    (hpb : pivot < b) (hb : b ≤ rows.length)
    (hge : ∀ k, a ≤ k → k < b → ¬ keyAt rows k < keyAt rows pivot) :
    ∃ rows1 mid, partitionEqual ⟨rows⟩ a b pivot = some (⟨rows1⟩, mid)
      ∧ RangePerm a b rows rows1 ∧ a < mid ∧ mid ≤ b
      ∧ (∀ k, a ≤ k → k < mid → keyAt rows1 k = keyAt rows pivot)
      ∧ (∀ k, mid ≤ k → k < b → keyAt rows pivot < keyAt rows1 k) := by
  obtain ⟨rows0, hs0, hlen0, hkey0⟩ := Swap_keyAt rows a pivot (by omega) (by omega)
  have hp0 := RangePerm.of_swap (a := a) (b := b) a pivot (le_refl _) (by omega) hap hpb hs0
  have hka0 : keyAt rows0 a = keyAt rows pivot := by
    rw [hkey0]
    by_cases hpa : a = pivot
    · rw [if_pos hpa, hpa]
    · rw [if_neg hpa, if_pos rfl]
  obtain ⟨rows1, i1, hr, hperm, hi1a, hi1b, hka1, hlo1, hhi1⟩ :=
    partitionEqualLoop_spec a b (rows0.length + 1) rows0 (a + 1) (b - 1)
      (le_refl _) (by omega) (by omega) (by omega) (by omega)
      (fun k hk1 hk2 => by omega) (fun k hk1 hk2 => by omega)
  have hall := hp0.trans (hperm.mono (Nat.le_succ a) (le_refl _))
  have hge1 := hall.range_forall (fun x => ¬ x < keyAt rows pivot) hge
  unfold partitionEqual
  simp only [hs0, WalshMatrix.Len, hr]
  refine ⟨rows1, i1, rfl, hall, by omega, hi1b, ?_, ?_⟩
  · intro k hk1 hk2
    by_cases hka : k = a
    · rw [hka, hka1, hka0]
    · have h1 := hlo1 k (by omega) hk2
      have h2 := hge1 k hk1 (by omega)
      rw [hka1, hka0] at h1
      exact le_antisymm (not_lt.mp h1) (not_lt.mp h2)
  · intro k hk1 hk2
    have := hhi1 k hk1 hk2
    rw [hka1, hka0] at this
    exact this

/-! ## The heap sort -/

theorem siftDownChild_spec (rows : List SpreadingCode) (hi first root : Nat)
    (hlen : first + hi ≤ rows.length) (hc : 2 * root + 1 < hi) :
    ∃ child1, siftDownChild ⟨rows⟩ hi first (2 * root + 1) = some child1
      ∧ (child1 = 2 * root + 1 ∨ child1 = 2 * root + 2) ∧ child1 < hi
      ∧ ∀ c, c < hi → (c = 2 * root + 1 ∨ c = 2 * root + 2) →
          keyAt rows (first + c) ≤ keyAt rows (first + child1) := by
  unfold siftDownChild
  by_cases h2 : 2 * root + 1 + 1 < hi
  · rw [if_pos h2, Less_keyAt rows _ _ (by omega) (by omega)]
    by_cases hl : keyAt rows (first + (2 * root + 1)) < keyAt rows (first + (2 * root + 1) + 1)
    · simp only [hl, decide_True]
      refine ⟨2 * root + 1 + 1, rfl, Or.inr rfl, h2, ?_⟩
      intro c _ hcc
      rcases hcc with rfl | rfl
      · exact le_of_lt hl
      · exact le_refl _
    · simp only [hl, decide_False]
      refine ⟨2 * root + 1, rfl, Or.inl rfl, hc, ?_⟩
      intro c _ hcc
      rcases hcc with rfl | rfl
      · exact le_refl _
      · exact not_lt.mp hl
  · rw [if_neg h2]
    refine ⟨2 * root + 1, rfl, Or.inl rfl, hc, ?_⟩
    intro c hch hcc
    rcases hcc with rfl | rfl
    · exact le_refl _
    · omega

theorem siftDownLoop_spec (hi first lo : Nat) (fuel : Nat) :
    ∀ (rows : List SpreadingCode) (root : Nat), lo ≤ root → root ≤ hi →
      first + hi ≤ rows.length → hi + 1 ≤ root + fuel →
      (∀ p c, lo ≤ p → c < hi → (c = 2 * p + 1 ∨ c = 2 * p + 2) → p ≠ root →
        keyAt rows (first + c) ≤ keyAt rows (first + p)) →
      (∀ p c, lo ≤ p → (root = 2 * p + 1 ∨ root = 2 * p + 2) → c < hi →
        (c = 2 * root + 1 ∨ c = 2 * root + 2) →
        keyAt rows (first + c) ≤ keyAt rows (first + p)) →
      ∃ rows1, siftDownLoop hi first fuel ⟨rows⟩ root = some ⟨rows1⟩
        ∧ RangePerm (first + lo) (first + hi) rows rows1 ∧ HeapFrom first lo hi rows1 := by
  induction fuel with
  | zero => intro rows root h1 h2 h3 h4; omega
  | succ fuel ih =>
    intro rows root hlo hroot hlen hfuel hI1 hI2
    rw [siftDownLoop]
    by_cases hch : 2 * root + 1 ≥ hi
    · rw [if_pos hch]
      refine ⟨rows, rfl, RangePerm.refl _, ?_⟩
      intro p c hp hc hpc
      by_cases hpr : p = root
      · omega
      · exact hI1 p c hp hc hpc hpr
    · rw [if_neg hch]
      obtain ⟨child1, hsel, hc1, hc1hi, hmax⟩ :=
        siftDownChild_spec rows hi first root hlen (by omega)
      simp only [hsel]
      rw [Less_keyAt rows _ _ (by omega) (by omega)]
      by_cases hl : keyAt rows (first + root) < keyAt rows (first + child1)
      · simp only [hl, decide_True]
        obtain ⟨rows1, hs, hlen1, hkey⟩ :=
          Swap_keyAt rows (first + root) (first + child1) (by omega) (by omega)
        simp only [hs]
        have hk_root : keyAt rows1 (first + root) = keyAt rows (first + child1) := by
          rw [hkey, if_neg (by omega), if_pos rfl]
        have hk_child : keyAt rows1 (first + child1) = keyAt rows (first + root) := by
          rw [hkey, if_pos rfl]
        have hk_other : ∀ x, x ≠ root → x ≠ child1 →
            keyAt rows1 (first + x) = keyAt rows (first + x) := by
          intro x h1 h2
          rw [hkey, if_neg (by omega), if_neg (by omega)]
        obtain ⟨rows2, hr, hperm, hheap⟩ := ih rows1 child1 (by omega) (by omega)
          (by omega) (by omega)
          (by
            intro p c hp hc hpc hpne
            by_cases hpr : p = root
            · rw [hpr, hk_root]
              by_cases hcc : c = child1
              · rw [hcc, hk_child]
                exact le_of_lt hl
              · rw [hk_other c (by omega) hcc]
                exact hmax c hc (by omega)
            · rw [hk_other p hpr hpne]
              by_cases hcr : c = root
              · rw [hcr, hk_root]
                exact hI2 p child1 hp (by omega) hc1hi hc1
              · rw [hk_other c hcr (by omega)]
                exact hI1 p c hp hc hpc hpr)
          (by
            intro p c hp hpc hc hcc
            have hpr : p = root := by omega
            rw [hpr, hk_root, hk_other c (by omega) (by omega)]
            exact hI1 child1 c (by omega) hc hcc (by omega))
        exact ⟨rows2, hr,
          (RangePerm.of_swap (first + root) (first + child1) (by omega) (by omega) (by omega)
            (by omega) hs).trans hperm, hheap⟩
      · simp only [hl, decide_False]
        refine ⟨rows, rfl, RangePerm.refl _, ?_⟩
        intro p c hp hc hpc
        by_cases hpr : p = root
        · subst hpr
          exact le_trans (hmax c hc hpc) (not_lt.mp hl)
        · exact hI1 p c hp hc hpc hpr

/-- The library's `siftDown(data, lo, hi, first)` restores the heap property at
the node `lo` when it holds at every node after `lo`. -/
theorem siftDown_spec (rows : List SpreadingCode) (lo hi first : Nat) (hlo : lo ≤ hi)
    (hlen : first + hi ≤ rows.length) (hheap : HeapFrom first (lo + 1) hi rows) :
    ∃ rows1, siftDown ⟨rows⟩ lo hi first = some ⟨rows1⟩
      ∧ RangePerm (first + lo) (first + hi) rows rows1 ∧ HeapFrom first lo hi rows1 := by
  unfold siftDown
  exact siftDownLoop_spec hi first lo (hi + 1) rows lo (le_refl _) hlo hlen (by omega)
    (fun p c hp hc hpc hpr => hheap p c (by omega) hc hpc)
    (fun p c hp hpc hc hcc => by omega)

theorem heapBuildLoop_spec (hi first : Nat) (k : Nat) :
    ∀ rows : List SpreadingCode, k ≤ hi + 1 → first + hi ≤ rows.length →
      HeapFrom first k hi rows →
      ∃ rows1, heapBuildLoop hi first k ⟨rows⟩ = some ⟨rows1⟩
        ∧ RangePerm first (first + hi) rows rows1 ∧ HeapFrom first 0 hi rows1 := by
  induction k with
  | zero => intro rows _ _ h; exact ⟨rows, rfl, RangePerm.refl _, h⟩
  | succ i ih =>
    intro rows hk hlen hheap
    obtain ⟨rows1, hr, hperm, hheap1⟩ := siftDown_spec rows i hi first (by omega) hlen hheap
    obtain ⟨rows2, hr2, hperm2, hheap2⟩ := ih rows1 (by omega)
      (by rw [hperm.length_eq]; exact hlen) hheap1
    rw [heapBuildLoop, hr]
    exact ⟨rows2, hr2, (hperm.mono (by omega) (le_refl _)).trans hperm2, hheap2⟩

theorem heap_root_max (first hi : Nat) (rows : List SpreadingCode)
    (hheap : HeapFrom first 0 hi rows) :
    ∀ r, r < hi → keyAt rows (first + r) ≤ keyAt rows (first + 0) := by
  intro r
  induction r using Nat.strong_induction_on with
  | _ r ih =>
    intro hr
    by_cases h0 : r = 0
    · subst h0; exact le_refl _
    · have hp : (r - 1) / 2 < r := by omega
      have := hheap ((r - 1) / 2) r (Nat.zero_le _) hr (by omega)
      exact le_trans this (ih _ hp (by omega))

theorem heapPopLoop_spec (first hi0 : Nat) (k : Nat) :
    ∀ rows : List SpreadingCode, k ≤ hi0 → first + hi0 ≤ rows.length →
      HeapFrom first 0 k rows → SortedRange (first + k) (first + hi0) rows →
      (∀ p q, p < k → k ≤ q → q < hi0 →
        keyAt rows (first + p) ≤ keyAt rows (first + q)) →
      ∃ rows1, heapPopLoop first k ⟨rows⟩ = some ⟨rows1⟩
        ∧ RangePerm first (first + hi0) rows rows1
        ∧ SortedRange first (first + hi0) rows1 := by
  induction k with
  | zero => intro rows _ _ _ hs _; exact ⟨rows, rfl, RangePerm.refl _, hs⟩
  | succ i ih =>
    intro rows hk hlen hheap hsorted hle
    obtain ⟨rows1, hs, hlen1, hkey⟩ := Swap_keyAt rows first (first + i) (by omega) (by omega)
    have hmax := heap_root_max first (i + 1) rows hheap
    have hk_top : keyAt rows1 (first + i) = keyAt rows (first + 0) := by
      rw [hkey, if_pos rfl]; rfl
    have hk_root : i ≠ 0 → keyAt rows1 (first + 0) = keyAt rows (first + i) := by
      intro hine
      rw [hkey, if_neg (by omega), if_pos (by omega)]
    have hk_other : ∀ x, x ≠ 0 → x ≠ i → keyAt rows1 (first + x) = keyAt rows (first + x) := by
      intro x h1 h2
      rw [hkey, if_neg (by omega), if_neg (by omega)]
    have hheap1 : HeapFrom first (0 + 1) i rows1 := by
      intro p c hp hc hpc
      rw [hk_other p (by omega) (by omega), hk_other c (by omega) (by omega)]
      exact hheap p c (Nat.zero_le _) (by omega) hpc
    obtain ⟨rows2, hr, hperm, hheap2⟩ := siftDown_spec rows1 0 i first (Nat.zero_le _)
      (by omega) hheap1
    have hperm' : RangePerm first (first + i) rows1 rows2 := by simpa using hperm
    have hbound : ∀ q, i ≤ q → q < hi0 → ∀ x, first ≤ x → x < first + i →
        keyAt rows1 x ≤ keyAt rows1 (first + q) := by
      intro q hq1 hq2 x hx1 hx2
      have hxe : x = first + (x - first) := by omega
      have htarget : keyAt rows (first + (x - first)) ≤ keyAt rows1 (first + q)
          ∧ keyAt rows (first + i) ≤ keyAt rows1 (first + q) := by
        by_cases hqi : q = i
        · rw [hqi, hk_top]
          exact ⟨hmax _ (by omega), hmax _ (by omega)⟩
        · rw [hk_other q (by omega) hqi]
          exact ⟨hle _ q (by omega) (by omega) hq2, hle i q (by omega) (by omega) hq2⟩
      rw [hxe]
      by_cases hx0 : x - first = 0
      · rw [hx0, hk_root (by omega)]
        exact htarget.2
      · rw [hk_other _ hx0 (by omega)]
        exact htarget.1
    obtain ⟨rows3, hr3, hperm3, hsorted3⟩ := ih rows2 (by omega)
      (by rw [hperm.length_eq]; omega) hheap2
      (by
        intro x y hx hxy hy
        rw [hperm'.frame x (Or.inr hx), hperm'.frame y (Or.inr (by omega))]
        have hye : y = first + (y - first) := by omega
        rw [hye, hk_other (y - first) (by omega) (by omega)]
        by_cases hxi : x = first + i
        · rw [hxi, hk_top]
          exact hle 0 (y - first) (by omega) (by omega) (by omega)
        · have hxe : x = first + (x - first) := by omega
          rw [hxe, hk_other (x - first) (by omega) (by omega)]
          have := hsorted x y (by omega) hxy hy
          rw [hxe, hye] at this
          simpa using this)
      (by
        intro p q hp hq1 hq2
        rw [hperm'.frame (first + q) (Or.inr (by omega))]
        exact hperm'.range_forall (fun v => v ≤ keyAt rows1 (first + q))
          (hbound q hq1 hq2) (first + p) (by omega) (by omega))
    rw [heapPopLoop]
    simp only [hs, hr]
    exact ⟨rows3, hr3,
      ((RangePerm.of_swap first (first + i) (le_refl _) (by omega) (by omega) (by omega)
        hs).trans (hperm'.mono (le_refl _) (by omega))).trans hperm3, hsorted3⟩

/-- The library's `heapSort` sorts the range `[a, b)` by swaps inside it. -/
theorem heapSort_spec (rows : List SpreadingCode) (a b : Nat) (hab : a ≤ b)
    (hb : b ≤ rows.length) :
    ∃ rows1, heapSort ⟨rows⟩ a b = some ⟨rows1⟩ ∧ RangePerm a b rows rows1
      ∧ SortedRange a b rows1 := by
  have hbe : a + (b - a) = b := by omega
  obtain ⟨rows1, hr1, hperm1, hheap1⟩ := heapBuildLoop_spec (b - a) a ((b - a - 1) / 2 + 1)
    rows (by omega) (by omega) (fun p c hp hc hpc => by omega)
  obtain ⟨rows2, hr2, hperm2, hsorted2⟩ := heapPopLoop_spec a (b - a) (b - a) rows1
    (le_refl _) (by rw [hperm1.length_eq]; omega) hheap1
    (fun x y hx hxy hy => by omega) (fun p q hp hq1 hq2 => by omega)
  rw [hbe] at hperm1 hperm2 hsorted2
  unfold heapSort
  simp only [hr1, hr2]
  exact ⟨rows2, rfl, hperm1.trans hperm2, hsorted2⟩

/-! ## The choice of the pivot -/

theorem order2_spec (rows : List SpreadingCode) (a b swaps : Nat) (ha : a < rows.length)
    (hb : b < rows.length) :
    ∃ x y s, order2 ⟨rows⟩ a b swaps = some (x, y, s)
      ∧ ((x = a ∧ y = b) ∨ (x = b ∧ y = a)) := by
  unfold order2
  rw [Less_keyAt rows b a hb ha]
  by_cases h : keyAt rows b < keyAt rows a
  · simp only [h, decide_True]
    exact ⟨b, a, swaps + 1, rfl, Or.inr ⟨rfl, rfl⟩⟩
  · simp only [h, decide_False]
    exact ⟨a, b, swaps, rfl, Or.inl ⟨rfl, rfl⟩⟩

theorem median_spec (rows : List SpreadingCode) (a b c swaps : Nat) (ha : a < rows.length)
    (hb : b < rows.length) (hc : c < rows.length) :
    ∃ m s, median ⟨rows⟩ a b c swaps = some (m, s) ∧ (m = a ∨ m = b ∨ m = c) := by
  obtain ⟨a1, b1, s1, h1, hab⟩ := order2_spec rows a b swaps ha hb
  obtain ⟨b2, c2, s2, h2, hbc⟩ := order2_spec rows b1 c s1 (by omega) hc
  obtain ⟨a3, b3, s3, h3, hab3⟩ := order2_spec rows a1 b2 s2 (by omega) (by omega)
  unfold median
  simp only [h1, h2, h3]
  exact ⟨b3, s3, rfl, by omega⟩

theorem medianAdjacent_spec (rows : List SpreadingCode) (a swaps : Nat) (ha : 1 ≤ a)
    (hb : a + 1 < rows.length) :
    ∃ m s, medianAdjacent ⟨rows⟩ a swaps = some (m, s) ∧ a - 1 ≤ m ∧ m ≤ a + 1 := by
  obtain ⟨m, s, h, hm⟩ := median_spec rows (a - 1) a (a + 1) swaps (by omega) (by omega) hb
  exact ⟨m, s, h, by omega, by omega⟩

/-- On a range of more than 12 rows the library's `choosePivot` returns an
index of the range. -/
theorem choosePivot_spec (rows : List SpreadingCode) (a b : Nat) (hab : a + 13 ≤ b)
    (hb : b ≤ rows.length) :
    ∃ pivot hint, choosePivot ⟨rows⟩ a b = some (pivot, hint) ∧ a ≤ pivot ∧ pivot < b := by
  unfold choosePivot
  have h8 : b - a ≥ 8 := by omega
  simp only [h8, if_true]
  by_cases h50 : b - a ≥ 50
  · obtain ⟨i1, s1, hi, hi1, hi2⟩ := medianAdjacent_spec rows (a + (b - a) / 4 * 1) 0
      (by omega) (by omega)
    obtain ⟨j1, s2, hj, hj1, hj2⟩ := medianAdjacent_spec rows (a + (b - a) / 4 * 2) s1
      (by omega) (by omega)
    obtain ⟨k1, s3, hk, hk1, hk2⟩ := medianAdjacent_spec rows (a + (b - a) / 4 * 3) s2
      (by omega) (by omega)
    obtain ⟨m, s, hm, hmm⟩ := median_spec rows i1 j1 k1 s3 (by omega) (by omega) (by omega)
    simp only [h50, if_true, hi, hj, hk, hm]
    exact ⟨m, _, rfl, by omega, by omega⟩
  · obtain ⟨m, s, hm, hmm⟩ := median_spec rows (a + (b - a) / 4 * 1) (a + (b - a) / 4 * 2)
      (a + (b - a) / 4 * 3) 0 (by omega) (by omega) (by omega)
    simp only [h50, if_false, hm]
    exact ⟨m, _, rfl, by omega, by omega⟩

/-! ## Reversing a range and breaking patterns -/

theorem reverseRangeLoop_spec (a b : Nat) (fuel : Nat) :
    ∀ (rows : List SpreadingCode) (i j : Nat), 1 ≤ fuel → j < i + fuel → a ≤ i → j < b →
      b ≤ rows.length →
      ∃ rows1, reverseRangeLoop fuel ⟨rows⟩ i j = some ⟨rows1⟩ ∧ RangePerm a b rows rows1 := by
  induction fuel with
  | zero => intro rows i j h; omega
  | succ fuel ih =>
    intro rows i j _ hfuel hai hjb hb
    rw [reverseRangeLoop]
    by_cases hij : i < j
    · rw [if_pos hij]
      obtain ⟨rows1, hs, hlen, _⟩ := Swap_keyAt rows i j (by omega) (by omega)
      obtain ⟨rows2, hr, hperm⟩ := ih rows1 (i + 1) (j - 1) (by omega) (by omega) (by omega)
        (by omega) (by omega)
      simp only [hs]
      exact ⟨rows2, hr,
        (RangePerm.of_swap i j hai (by omega) (by omega) hjb hs).trans hperm⟩
    · rw [if_neg hij]
      exact ⟨rows, rfl, RangePerm.refl _⟩

theorem reverseRange_spec (rows : List SpreadingCode) (a b : Nat) (hab : a < b)
    (hb : b ≤ rows.length) :
    ∃ rows1, reverseRange ⟨rows⟩ a b = some ⟨rows1⟩ ∧ RangePerm a b rows rows1 := by
  unfold reverseRange
  exact reverseRangeLoop_spec a b (rows.length + 1) rows a (b - 1) (by omega) (by omega)
    (le_refl _) (by omega) hb

theorem bitsLenLoop_pow_le (fuel : Nat) :
    ∀ x : Nat, 1 ≤ x → x ≤ fuel → 2 ^ bitsLenLoop fuel x ≤ 2 * x := by
  induction fuel with
  | zero => intro x h1 h2; omega
  | succ fuel ih =>
    intro x h1 h2
    rw [bitsLenLoop, if_neg (by omega), pow_succ]
    by_cases hx : x / 2 = 0
    · have : bitsLenLoop fuel (x / 2) = 0 := by
        rw [hx]
        cases fuel <;> simp [bitsLenLoop]
      rw [this]
      omega
    · have := ih (x / 2) (by omega) (by omega)
      omega

theorem nextPowerOfTwo_le (length : Nat) (h : 1 ≤ length) :
    nextPowerOfTwo length ≤ 2 * length :=
  bitsLenLoop_pow_le length length h (le_refl _)

theorem breakPatternsLoop_spec (next : Nat → Nat) (a b length modulus idx : Nat)
    (hlen : a + length = b) (hmod : modulus ≤ 2 * length) (hpos : 1 ≤ length)
    (hidx1 : a + 1 ≤ idx) (hidx2 : idx + 1 < b) (k : Nat) :
    ∀ (i random : Nat) (rows : List SpreadingCode), i + k ≤ 3 → b ≤ rows.length →
      ∃ rows1, breakPatternsLoop next a length modulus idx k i random ⟨rows⟩ = some ⟨rows1⟩
        ∧ RangePerm a b rows rows1 := by
  induction k with
  | zero => intro i random rows _ _; exact ⟨rows, rfl, RangePerm.refl _⟩
  | succ k ih =>
    intro i random rows hik hb
    have hand : next random &&& (modulus - 1) ≤ modulus - 1 := Nat.and_le_right
    have hother : (if next random &&& (modulus - 1) ≥ length
        then (next random &&& (modulus - 1)) - length
        else next random &&& (modulus - 1)) < length := by
      split <;> omega
    obtain ⟨rows1, hs, hlen1, _⟩ := Swap_keyAt rows (idx - 1 + i)
      (a + (if next random &&& (modulus - 1) ≥ length
        then (next random &&& (modulus - 1)) - length
        else next random &&& (modulus - 1))) (by omega) (by omega)
    obtain ⟨rows2, hr, hperm⟩ := ih (i + 1) (next random) rows1 (by omega) (by omega)
    rw [breakPatternsLoop]
    simp only [hs]
    exact ⟨rows2, hr,
      (RangePerm.of_swap _ _ (by omega) (by omega) (by omega) (by omega) hs).trans hperm⟩

/-- The library's `breakPatterns` only swaps rows of the range. -/
theorem breakPatterns_spec (next : Nat → Nat) (rows : List SpreadingCode) (a b : Nat)
    (hab : a ≤ b) (hb : b ≤ rows.length) :
    ∃ rows1, breakPatterns next ⟨rows⟩ a b = some ⟨rows1⟩ ∧ RangePerm a b rows rows1 := by
  unfold breakPatterns
  by_cases h8 : b - a ≥ 8
  · simp only [h8, if_true]
    exact breakPatternsLoop_spec next a b (b - a) (nextPowerOfTwo (b - a))
      (a + (b - a) / 4 * 2 - 1) (by omega) (nextPowerOfTwo_le _ (by omega)) (by omega)
      (by omega) (by omega) 3 0 (b - a) rows (by omega) hb
  · simp only [h8, if_false]
    exact ⟨rows, rfl, RangePerm.refl _⟩

/-! ## The partial insertion sort -/

theorem shiftLeftLoop_spec (a i : Nat) :
    ∀ (j : Nat) (rows : List SpreadingCode), a ≤ j → j ≤ i → i < rows.length →
      (∀ p q, a ≤ p → p < q → q ≤ i → p ≠ j → q ≠ j → keyAt rows p ≤ keyAt rows q) →
      (∀ q, j < q → q ≤ i → keyAt rows j ≤ keyAt rows q) →
      (0 < a → keyAt rows (a - 1) ≤ keyAt rows j) →
      ∃ rows1, shiftLeftLoop j ⟨rows⟩ = some ⟨rows1⟩ ∧ RangePerm a (i + 1) rows rows1
        ∧ SortedRange a (i + 1) rows1 := by
  intro j
  induction j with
  | zero =>
    intro rows ha _ _ h1 h2 _
    refine ⟨rows, by simp [shiftLeftLoop], RangePerm.refl _, ?_⟩
    intro p q hp hpq hq
    by_cases hp0 : p = 0
    · subst hp0
      exact h2 q (by omega) (by omega)
    · exact h1 p q hp hpq (by omega) hp0 (by omega)
  | succ j ih =>
    intro rows ha hji hi h1 h2 hstop
    rw [shiftLeftLoop, Less_keyAt rows (j + 1) j (by omega) (by omega)]
    by_cases hlt : keyAt rows (j + 1) < keyAt rows j
    · have haj : a < j + 1 := by
        by_contra hcon
        have haeq : a = j + 1 := by omega
        have := hstop (by omega)
        rw [haeq] at this
        simp only [Nat.add_sub_cancel] at this
        omega
      obtain ⟨rows1, hs, hlen, hkey⟩ := Swap_keyAt rows (j + 1) j (by omega) (by omega)
      simp only [hlt, decide_True, hs]
      obtain ⟨rows2, hr, hperm, hsorted⟩ := ih rows1 (by omega) (by omega) (by omega)
        (by
          intro p q hp hpq hq hpj hqj
          rw [hkey, hkey, if_neg hpj, if_neg hqj]
          by_cases hp1 : p = j + 1
          · rw [if_pos hp1, if_neg (by omega)]
            exact h1 j q (by omega) (by omega) hq (by omega) (by omega)
          · rw [if_neg hp1]
            by_cases hq1 : q = j + 1
            · rw [if_pos hq1]
              exact h1 p j hp (by omega) (by omega) hp1 (by omega)
            · rw [if_neg hq1]
              exact h1 p q hp hpq hq hp1 hq1)
        (by
          intro q hjq hq
          rw [hkey, hkey, if_pos rfl, if_neg (by omega)]
          by_cases hq1 : q = j + 1
          · rw [if_pos hq1]
            exact le_of_lt hlt
          · rw [if_neg hq1]
            exact h2 q (by omega) hq)
        (by
          intro ha0
          rw [hkey, hkey, if_pos rfl, if_neg (by omega), if_neg (by omega)]
          exact hstop ha0)
      exact ⟨rows2, hr,
        (RangePerm.of_swap (j + 1) j (by omega) (by omega) (by omega) (by omega) hs).trans
          hperm, hsorted⟩
    · simp only [hlt, decide_False]
      refine ⟨rows, rfl, RangePerm.refl _, ?_⟩
      intro p q hp hpq hq
      by_cases hpj : p = j + 1
      · subst hpj
        exact h2 q hpq (by omega)
      · by_cases hqj : q = j + 1
        · subst hqj
          by_cases hpj2 : p = j
          · subst hpj2
            exact not_lt.mp hlt
          · exact le_trans (h1 p j hp (by omega) (by omega) hpj (by omega)) (not_lt.mp hlt)
        · exact h1 p q hp hpq (by omega) hpj hqj

theorem shiftRightLoop_spec (lo b : Nat) (k : Nat) :
    ∀ (rows : List SpreadingCode) (j : Nat), lo + 1 ≤ j → j + k ≤ b → b ≤ rows.length →
      ∃ rows1, shiftRightLoop k ⟨rows⟩ j = some ⟨rows1⟩ ∧ RangePerm lo b rows rows1 := by
  induction k with
  | zero => intro rows j _ _ _; exact ⟨rows, rfl, RangePerm.refl _⟩
  | succ k ih =>
    intro rows j hlo hjk hb
    rw [shiftRightLoop, Less_keyAt rows j (j - 1) (by omega) (by omega)]
    by_cases hlt : keyAt rows j < keyAt rows (j - 1)
    · obtain ⟨rows1, hs, hlen, _⟩ := Swap_keyAt rows j (j - 1) (by omega) (by omega)
      obtain ⟨rows2, hr, hperm⟩ := ih rows1 (j + 1) (by omega) (by omega) (by omega)
      simp only [hlt, decide_True, hs]
      exact ⟨rows2, hr,
        (RangePerm.of_swap j (j - 1) (by omega) (by omega) (by omega) (by omega) hs).trans
          hperm⟩
    · simp only [hlt, decide_False]
      exact ⟨rows, rfl, RangePerm.refl _⟩

theorem SortedRange.extend {a i i1 : Nat} {rows : List SpreadingCode}
    (hs : SortedRange a i rows)
    (hadj : ∀ k, i ≤ k → k < i1 → keyAt rows (k - 1) ≤ keyAt rows k) :
    SortedRange a i1 rows := by
  have key : ∀ q p, a ≤ p → p < q → q < i1 → keyAt rows p ≤ keyAt rows q := by
    intro q
    induction q with
    | zero => intro p _ h _; omega
    | succ q ih =>
      intro p hp hpq hq
      by_cases hqi : q + 1 < i
      · exact hs p (q + 1) hp hpq hqi
      · have h1 := hadj (q + 1) (by omega) hq
        simp only [Nat.add_sub_cancel] at h1
        by_cases hpq2 : p = q
        · subst hpq2; exact h1
        · exact le_trans (ih p hp (by omega) (by omega)) h1
  exact fun p q hp hpq hq => key q p hp hpq hq

theorem SortedRange.of_rangePerm_right {a i b : Nat} {r1 r2 : List SpreadingCode}
    (hs : SortedRange a i r1) (h : RangePerm i b r1 r2) : SortedRange a i r2 := by
  intro p q hp hpq hq
  rw [h.frame p (Or.inl (by omega)), h.frame q (Or.inl (by omega))]
  exact hs p q hp hpq hq

theorem partialInsertionLoop_spec (a b : Nat) (steps : Nat) :
    ∀ (rows : List SpreadingCode) (i : Nat), a + 1 ≤ i → i ≤ b → b ≤ rows.length →
      SortedRange a i rows → LeftLE a b rows →
      ∃ rows1 flag, partialInsertionLoop a b steps ⟨rows⟩ i = some (⟨rows1⟩, flag)
        ∧ RangePerm a b rows rows1 ∧ (flag = true → SortedRange a b rows1) := by
  induction steps with
  | zero =>
    intro rows i _ _ _ _ _
    exact ⟨rows, false, rfl, RangePerm.refl _, fun h => by simp at h⟩
  | succ steps ih =>
    intro rows i hai hib hb hs hleft
    obtain ⟨i1, hup, h1, h2, h3, h4⟩ := scanUp_spec
      (fun k => (WalshMatrix.Less ⟨rows⟩ k (k - 1)).map not)
      (fun k => ¬ keyAt rows k < keyAt rows (k - 1)) b (rows.length + 1) i hib (by omega)
      (fun k _ hk => by
        simp only [Less_keyAt rows k (k - 1) (by omega) (by omega), Option.map_some',
          decide_not])
    have hs1 : SortedRange a i1 rows :=
      hs.extend (fun k hk1 hk2 => not_lt.mp (h3 k hk1 hk2))
    rw [partialInsertionLoop]
    simp only [WalshMatrix.Len, hup]
    by_cases hi1 : i1 = b
    · rw [if_pos hi1]
      exact ⟨rows, true, rfl, RangePerm.refl _, fun _ => hi1 ▸ hs1⟩
    · rw [if_neg hi1]
      by_cases h50 : b - a < 50
      · rw [if_pos h50]
        exact ⟨rows, false, rfl, RangePerm.refl _, fun h => by simp at h⟩
      · rw [if_neg h50]
        have hlt : keyAt rows i1 < keyAt rows (i1 - 1) := not_not.mp (h4 (by omega))
        obtain ⟨rows1, hsw, hlen1, hkey⟩ := Swap_keyAt rows i1 (i1 - 1) (by omega) (by omega)
        have hperm1 : RangePerm a b rows rows1 :=
          RangePerm.of_swap i1 (i1 - 1) (by omega) (by omega) (by omega) (by omega) hsw
        have hk_lo : ∀ k, k < i1 - 1 → keyAt rows1 k = keyAt rows k := by
          intro k hk
          rw [hkey, if_neg (by omega), if_neg (by omega)]
        have hk_m : keyAt rows1 (i1 - 1) = keyAt rows i1 := by
          rw [hkey, if_pos rfl]
        -- shifting the smaller row to the left
        have hleftStep : ∃ rows2,
            (if i1 - a ≥ 2 then shiftLeftLoop (i1 - 1) ⟨rows1⟩ else some ⟨rows1⟩)
              = some ⟨rows2⟩
            ∧ RangePerm a i1 rows1 rows2 ∧ SortedRange a i1 rows2 := by
          by_cases h2a : i1 - a ≥ 2
          · rw [if_pos h2a]
            obtain ⟨rows2, hr, hp, hso⟩ := shiftLeftLoop_spec a (i1 - 1) (i1 - 1) rows1
              (by omega) (le_refl _) (by omega)
              (by
                intro p q hp hpq hq _ hqj
                rw [hk_lo p (by omega), hk_lo q (by omega)]
                exact hs1 p q hp hpq (by omega))
              (by intro q hq1 hq2; omega)
              (by
                intro ha0
                rw [hk_m, hk_lo (a - 1) (by omega)]
                exact hleft (a - 1) i1 (by omega) (by omega) (by omega))
            have he : i1 - 1 + 1 = i1 := by omega
            rw [he] at hp hso
            exact ⟨rows2, hr, hp, hso⟩
          · rw [if_neg h2a]
            exact ⟨rows1, rfl, RangePerm.refl _, fun p q hp hpq hq => by omega⟩
        obtain ⟨rows2, hr2, hperm2, hsorted2⟩ := hleftStep
        have hlen2 : rows2.length = rows.length := by rw [hperm2.length_eq, hlen1]
        -- shifting the greater row to the right
        have hrightStep : ∃ rows3,
            (if b - i1 ≥ 2 then shiftRightLoop (b - (i1 + 1)) ⟨rows2⟩ (i1 + 1)
              else some ⟨rows2⟩) = some ⟨rows3⟩
            ∧ RangePerm i1 b rows2 rows3 := by
          by_cases h2b : b - i1 ≥ 2
          · rw [if_pos h2b]
            exact shiftRightLoop_spec i1 b (b - (i1 + 1)) rows2 (i1 + 1) (by omega)
              (by omega) (by omega)
          · rw [if_neg h2b]
            exact ⟨rows2, rfl, RangePerm.refl _⟩
        obtain ⟨rows3, hr3, hperm3⟩ := hrightStep
        have hperm13 : RangePerm a b rows rows3 :=
          (hperm1.trans (hperm2.mono (le_refl _) (by omega))).trans
            (hperm3.mono (by omega) (le_refl _))
        obtain ⟨rows4, flag, hr4, hperm4, hflag⟩ := ih rows3 i1 (by omega) (by omega)
          (by rw [hperm13.length_eq]; exact hb)
          (hsorted2.of_rangePerm_right hperm3)
          (hperm13.leftLE (le_refl _) (le_refl _) hleft)
        simp only [hsw, hr2, hr3]
        exact ⟨rows4, flag, hr4, hperm13.trans hperm4, hflag⟩

/-- The library's `partialInsertionSort` only swaps rows of the range, and the
range is sorted when it reports so. -/
theorem partialInsertionSort_spec (rows : List SpreadingCode) (a b : Nat) (hab : a + 1 ≤ b)
    (hb : b ≤ rows.length) (hleft : LeftLE a b rows) :
    ∃ rows1 flag, partialInsertionSort ⟨rows⟩ a b = some (⟨rows1⟩, flag)
      ∧ RangePerm a b rows rows1 ∧ (flag = true → SortedRange a b rows1) := by
  unfold partialInsertionSort
  exact partialInsertionLoop_spec a b 5 rows (a + 1) (le_refl _) hab hb
    (fun p q hp hpq hq => by omega) hleft

/-! ## The pattern-defeating quicksort -/

theorem LeftLE.shrink {a b b1 : Nat} {rows : List SpreadingCode} (h : LeftLE a b rows)
    (hb : b1 ≤ b) : LeftLE a b1 rows :=
  fun p q hp hq1 hq2 => h p q hp hq1 (by omega)

theorem SortedRange.outside {a b c d : Nat} {r1 r2 : List SpreadingCode}
    (hs : SortedRange a b r1) (h : RangePerm c d r1 r2) (hout : d ≤ a ∨ b ≤ c) :
    SortedRange a b r2 := by
  intro p q hp hpq hq
  rw [h.frame p (by omega), h.frame q (by omega)]
  exact hs p q hp hpq hq

theorem PivotAt.of_left {a mid b : Nat} {r1 r2 : List SpreadingCode}
    (hp : PivotAt a mid b r1) (h : RangePerm a mid r1 r2) : PivotAt a mid b r2 := by
  have hmid : keyAt r2 mid = keyAt r1 mid := h.frame mid (Or.inr (le_refl _))
  refine ⟨?_, ?_⟩
  · rw [hmid]
    exact h.range_forall (fun x => x < keyAt r1 mid) hp.1
  · intro k hk1 hk2
    rw [hmid, h.frame k (Or.inr (by omega))]
    exact hp.2 k hk1 hk2

theorem PivotAt.of_right {a mid b : Nat} {r1 r2 : List SpreadingCode}
    (hp : PivotAt a mid b r1) (h : RangePerm (mid + 1) b r1 r2) : PivotAt a mid b r2 := by
  have hmid : keyAt r2 mid = keyAt r1 mid := h.frame mid (Or.inl (by omega))
  refine ⟨?_, ?_⟩
  · intro k hk1 hk2
    rw [hmid, h.frame k (Or.inl (by omega))]
    exact hp.1 k hk1 hk2
  · rw [hmid]
    intro k hk1 hk2
    exact h.range_forall (fun x => ¬ x < keyAt r1 mid)
      (fun k hk1 hk2 => hp.2 k (by omega) hk2) k (by omega) hk2

theorem PivotAt.sorted {a mid b : Nat} {rows : List SpreadingCode}
    (hp : PivotAt a mid b rows) (hl : SortedRange a mid rows)
    (hr : SortedRange (mid + 1) b rows) : SortedRange a b rows := by
  intro p q hpa hpq hqb
  by_cases hq : q < mid
  · exact hl p q hpa hpq hq
  · by_cases hp1 : mid < p
    · exact hr p q (by omega) hpq hqb
    · have h1 : keyAt rows p ≤ keyAt rows mid := by
        by_cases hpm : p = mid
        · rw [hpm]
        · exact le_of_lt (hp.1 p hpa (by omega))
      have h2 : keyAt rows mid ≤ keyAt rows q := by
        by_cases hqm : q = mid
        · rw [hqm]
        · exact not_lt.mp (hp.2 q (by omega) hqb)
      exact le_trans h1 h2

theorem PivotAt.rightLE {a mid b : Nat} {rows : List SpreadingCode}
    (hp : PivotAt a mid b rows) (hl : LeftLE a b rows) (ham : a ≤ mid) :
    LeftLE (mid + 1) b rows := by
  intro p q hpm hq1 hq2
  have h2 : keyAt rows mid ≤ keyAt rows q := not_lt.mp (hp.2 q (by omega) hq2)
  by_cases hpa : p < a
  · exact hl p q hpa (by omega) hq2
  · by_cases hpeq : p = mid
    · rw [hpeq]; exact h2
    · exact le_trans (le_of_lt (hp.1 p (by omega) (by omega))) h2

theorem pdqBreak_spec (next : Nat → Nat) (rows : List SpreadingCode) (a b limit : Nat)
    (wasBalanced : Bool) (hab : a ≤ b) (hb : b ≤ rows.length) :
    ∃ rows1 limit1, pdqBreak next ⟨rows⟩ a b limit wasBalanced = some (⟨rows1⟩, limit1)
      ∧ RangePerm a b rows rows1 := by
  unfold pdqBreak
  cases wasBalanced with
  | true => exact ⟨rows, limit, by simp, RangePerm.refl _⟩
  | false =>
    obtain ⟨rows1, hr, hperm⟩ := breakPatterns_spec next rows a b hab hb
    exact ⟨rows1, limit - 1, by simp [hr], hperm⟩

theorem pdqReverse_spec (rows : List SpreadingCode) (a b pivot : Nat) (hint : sortedHint)
    (hap : a ≤ pivot) (hpb : pivot < b) (hb : b ≤ rows.length) :
    ∃ rows1 pivot1 hint1, pdqReverse ⟨rows⟩ a b pivot hint = some (⟨rows1⟩, pivot1, hint1)
      ∧ RangePerm a b rows rows1 ∧ a ≤ pivot1 ∧ pivot1 < b := by
  unfold pdqReverse
  by_cases hd : hint = sortedHint.decreasingHint
  · obtain ⟨rows1, hr, hperm⟩ := reverseRange_spec rows a b (by omega) hb
    rw [if_pos hd]
    simp only [hr]
    exact ⟨rows1, _, _, rfl, hperm, by omega, by omega⟩
  · rw [if_neg hd]
    exact ⟨rows, pivot, hint, rfl, RangePerm.refl _, hap, hpb⟩

theorem pdqPartial_spec (rows : List SpreadingCode) (a b : Nat)
    (wasBalanced wasPartitioned : Bool) (hint : sortedHint) (hab : a + 1 ≤ b)
    (hb : b ≤ rows.length) (hleft : LeftLE a b rows) :
    ∃ rows1 flag, pdqPartial ⟨rows⟩ a b wasBalanced wasPartitioned hint
        = some (⟨rows1⟩, flag)
      ∧ RangePerm a b rows rows1 ∧ (flag = true → SortedRange a b rows1) := by
  unfold pdqPartial
  split
  · exact partialInsertionSort_spec rows a b hab hb hleft
  · exact ⟨rows, false, rfl, RangePerm.refl _, fun h => by simp at h⟩

theorem pdqEqualTest_spec (rows : List SpreadingCode) (a pivot : Nat)
    (hp : pivot < rows.length) (hap : a ≤ pivot) :
    ∃ t, pdqEqualTest ⟨rows⟩ a pivot = some t
      ∧ (t = true → 0 < a ∧ ¬ keyAt rows (a - 1) < keyAt rows pivot) := by
  unfold pdqEqualTest
  by_cases ha : a > 0
  · rw [if_pos ha, Less_keyAt rows (a - 1) pivot (by omega) hp]
    refine ⟨_, rfl, ?_⟩
    intro h
    refine ⟨ha, ?_⟩
    simpa using h
  · rw [if_neg ha]
    exact ⟨false, rfl, fun h => by simp at h⟩

/-- The library's `pdqsort` returns, whatever the limit, the flags and the
generator, with the range sorted by swaps inside it, when no row before the
range has a greater sequency than a row of the range. -/
theorem pdqsort_spec (next : Nat → Nat) (fuel : Nat) :
    ∀ (rows : List SpreadingCode) (a b limit : Nat) (wasBalanced wasPartitioned : Bool),
      a ≤ b → b ≤ rows.length → b - a < fuel → LeftLE a b rows →
      ∃ rows1, pdqsort next fuel ⟨rows⟩ a b limit wasBalanced wasPartitioned = some ⟨rows1⟩
        ∧ RangePerm a b rows rows1 ∧ SortedRange a b rows1 := by
  induction fuel with
  | zero => intro rows a b limit wB wP _ _ h; omega
  | succ fuel ih =>
    intro rows a b limit wB wP hab hb hfuel hleft
    rw [pdqsort]
    by_cases h12 : b - a ≤ 12
    · rw [if_pos h12]
      exact insertionSort_range rows a b hb
    · rw [if_neg h12]
      by_cases hlim : limit = 0
      · rw [if_pos hlim]
        exact heapSort_spec rows a b hab hb
      · rw [if_neg hlim]
        obtain ⟨rows1, limit1, hbreak, hperm1⟩ := pdqBreak_spec next rows a b limit wB hab hb
        have hlen1 : rows1.length = rows.length := hperm1.length_eq
        obtain ⟨pivot, hint, hpivot, hp1, hp2⟩ := choosePivot_spec rows1 a b (by omega)
          (by omega)
        obtain ⟨rows2, pivot1, hint1, hrev, hperm2, hq1, hq2⟩ :=
          pdqReverse_spec rows1 a b pivot hint hp1 hp2 (by omega)
        have hperm02 : RangePerm a b rows rows2 := hperm1.trans hperm2
        have hlen2 : rows2.length = rows.length := hperm02.length_eq
        obtain ⟨rows3, flag, hpartial, hperm3, hflag⟩ := pdqPartial_spec rows2 a b wB wP hint1
          (by omega) (by omega) (hperm02.leftLE (le_refl _) (le_refl _) hleft)
        have hperm03 : RangePerm a b rows rows3 := hperm02.trans hperm3
        have hlen3 : rows3.length = rows.length := hperm03.length_eq
        have hleft3 : LeftLE a b rows3 := hperm03.leftLE (le_refl _) (le_refl _) hleft
        simp only [hbreak, hpivot, hrev, hpartial]
        cases flag with
        | true => exact ⟨rows3, rfl, hperm03, hflag rfl⟩
        | false =>
          obtain ⟨t, htest, ht⟩ := pdqEqualTest_spec rows3 a pivot1 (by omega) hq1
          simp only [htest]
          cases t with
          | true =>
            obtain ⟨ha0, hnlt⟩ := ht rfl
            obtain ⟨rows4, mid, hpe, hperm4, hm1, hm2, heq, hgt⟩ :=
              partitionEqual_spec rows3 a b pivot1 hq1 hq2 (by omega)
                (fun k hk1 hk2 => by
                  have := hleft3 (a - 1) k (by omega) hk1 hk2
                  omega)
            have hperm04 : RangePerm a b rows rows4 := hperm03.trans hperm4
            have hlen4 : rows4.length = rows.length := hperm04.length_eq
            have hleft4 : LeftLE a b rows4 := hperm04.leftLE (le_refl _) (le_refl _) hleft
            obtain ⟨rows5, hr5, hperm5, hsorted5⟩ := ih rows4 mid b limit1 wB wP hm2
              (by omega) (by omega)
              (fun p q hp hq1 hq2 => by
                by_cases hpa : p < a
                · exact hleft4 p q hpa (by omega) hq2
                · rw [heq p (by omega) hp]
                  exact le_of_lt (hgt q hq1 hq2))
            simp only [hpe]
            refine ⟨rows5, hr5, hperm04.trans (hperm5.mono (by omega) (le_refl _)), ?_⟩
            intro p q hp hpq hq
            by_cases hpm : mid ≤ p
            · exact hsorted5 p q hpm hpq hq
            · rw [hperm5.frame p (Or.inl (by omega)), heq p hp (by omega)]
              by_cases hqm : mid ≤ q
              · exact le_of_lt (hperm5.range_forall (fun x => keyAt rows3 pivot1 < x) hgt q
                  hqm hq)
              · rw [hperm5.frame q (Or.inl (by omega)), heq q (by omega) (by omega)]
          | false =>
            obtain ⟨rows4, mid, already, hpart, hperm4, hm1, hm2, hlo, hhi⟩ :=
              partition_spec rows3 a b pivot1 hq1 hq2 (by omega)
            have hperm04 : RangePerm a b rows rows4 := hperm03.trans hperm4
            have hlen4 : rows4.length = rows.length := hperm04.length_eq
            have hleft4 : LeftLE a b rows4 := hperm04.leftLE (le_refl _) (le_refl _) hleft
            have hpiv4 : PivotAt a mid b rows4 := ⟨hlo, hhi⟩
            simp only [hpart]
            by_cases hside : mid - a < b - mid
            · rw [if_pos hside]
              obtain ⟨rows5, hr5, hperm5, hsorted5⟩ := ih rows4 a mid limit1 true true hm1
                (by omega) (by omega) (hleft4.shrink (by omega))
              have hlen5 : rows5.length = rows.length := by rw [hperm5.length_eq, hlen4]
              have hpiv5 : PivotAt a mid b rows5 := hpiv4.of_left hperm5
              have hleft5 : LeftLE a b rows5 :=
                hperm5.leftLE (le_refl _) (by omega) hleft4
              obtain ⟨rows6, hr6, hperm6, hsorted6⟩ := ih rows5 (mid + 1) b limit1
                (decide (mid - a ≥ (b - a) / 8)) already (by omega) (by omega) (by omega)
                (hpiv5.rightLE hleft5 hm1)
              simp only [hr5]
              exact ⟨rows6, hr6,
                (hperm04.trans (hperm5.mono (le_refl _) (by omega))).trans
                  (hperm6.mono (by omega) (le_refl _)),
                (hpiv5.of_right hperm6).sorted (hsorted5.outside hperm6 (Or.inr (by omega)))
                  hsorted6⟩
            · rw [if_neg hside]
              obtain ⟨rows5, hr5, hperm5, hsorted5⟩ := ih rows4 (mid + 1) b limit1 true true
                (by omega) (by omega) (by omega) (hpiv4.rightLE hleft4 hm1)
              have hlen5 : rows5.length = rows.length := by rw [hperm5.length_eq, hlen4]
              have hpiv5 : PivotAt a mid b rows5 := hpiv4.of_right hperm5
              have hleft5 : LeftLE a b rows5 :=
                hperm5.leftLE (by omega) (le_refl _) hleft4
              obtain ⟨rows6, hr6, hperm6, hsorted6⟩ := ih rows5 a mid limit1
                (decide (b - mid ≥ (b - a) / 8)) already hm1 (by omega) (by omega)
                (hleft5.shrink (by omega))
              simp only [hr5]
              exact ⟨rows6, hr6,
                (hperm04.trans (hperm5.mono (by omega) (le_refl _))).trans
                  (hperm6.mono (le_refl _) (by omega)),
                (hpiv5.of_left hperm6).sorted hsorted6
                  (hsorted5.outside hperm6 (Or.inl (by omega)))⟩

/-- The library's `sort.Sort` returns on every matrix, whatever the
generator of `breakPatterns`: the rows it leaves are in ascending sequency
order and are a rearrangement of the rows it was given. -/
theorem sortWith_spec (next : Nat → Nat) (m : WalshMatrix) :
    ∃ R, sortWith next m = some ⟨R⟩ ∧ R.Pairwise seqLE ∧ R.Perm m.Rows := by
  obtain ⟨rows⟩ := m
  unfold sortWith
  simp only [WalshMatrix.Len]
  by_cases hn : rows.length ≤ 1
  · rw [if_pos hn]
    refine ⟨rows, rfl, ?_, List.Perm.refl _⟩
    match rows, hn with
    | [], _ => exact List.Pairwise.nil
    | [r], _ => exact List.pairwise_singleton _ _
    | _ :: _ :: _, h => simp at h
  · rw [if_neg hn]
    obtain ⟨rows1, hr, hperm, hsorted⟩ := pdqsort_spec next (rows.length + 1) rows 0
      rows.length (bitsLen rows.length) true true (Nat.zero_le _) (le_refl _) (by omega)
      (fun p q hp => by omega)
    refine ⟨rows1, hr, ?_, hperm.perm⟩
    rw [List.pairwise_iff_getElem]
    intro i j hi hj hij
    have h := hsorted i j (Nat.zero_le _) hij (by rw [← hperm.length_eq]; exact hj)
    unfold keyAt at h
    rw [List.getElem?_eq_getElem hi, List.getElem?_eq_getElem hj] at h
    exact h

/-- The call `sort.Sort(matrix)` returns, for every matrix, the rows permuted
into ascending sequency order. -/
theorem sort_Sort_spec (m : WalshMatrix) :
    ∃ R, sort_Sort m = some ⟨R⟩ ∧ R.Pairwise seqLE ∧ R.Perm m.Rows :=
  sortWith_spec xorshiftNext m

/-! ## Lemmas on the tokens of a line -/

theorem modifyHead_nil_append (L : List (List Char)) :
    L.modifyHead (fun t => [] ++ t) = L := by
  cases L <;> simp

theorem fieldsLoop_eq (cs : List Char) : ∀ cur : List Char,
    fieldsLoop cur cs =
      (((cs.splitOnP isSpace).modifyHead (fun t => cur ++ t)).filter
        (fun t => !t.isEmpty)) := by
  induction cs with
  | nil =>
    intro cur
    cases cur <;> simp [fieldsLoop, List.splitOnP_nil]
  | cons c cs ih =>
    intro cur
    rw [fieldsLoop, List.splitOnP_cons]
    by_cases hc : isSpace c = true
    · rw [if_pos hc, if_pos hc, ih []]
      simp only [modifyHead_nil_append, List.modifyHead_cons, List.append_nil]
      cases cur <;> simp
    · rw [if_neg hc, if_neg hc, ih (cur ++ [c]), List.modifyHead_modifyHead]
      congr 2
      funext t
      simp

/-- The library's `Fields` returns the whitespace-delimited tokens. -/
theorem Fields_eq_tokensOf (line : List Char) : Fields line = tokensOf line := by
  unfold Fields tokensOf
  rw [fieldsLoop_eq, modifyHead_nil_append]

theorem fieldsLoop_append_space (cs : List Char) (sp : Char) (hsp : isSpace sp = true) :
    ∀ cur : List Char, fieldsLoop cur (cs ++ [sp]) = fieldsLoop cur cs := by
  induction cs with
  | nil =>
    intro cur
    simp [fieldsLoop, hsp]
  | cons c cs ih =>
    intro cur
    rw [List.cons_append, fieldsLoop, fieldsLoop, ih, ih]

theorem Fields_dropCR (line : List Char) : Fields (dropCR line) = Fields line := by
  unfold dropCR
  split
  · rename_i h
    rcases List.eq_nil_or_concat line with hnil | ⟨l0, c, hl⟩
    · subst hnil
      simp
    · rw [List.concat_eq_append] at hl
      subst hl
      rw [List.getLast?_concat, Option.some.injEq] at h
      subst h
      rw [List.dropLast_concat]
      exact (fieldsLoop_append_space l0 '\r' (by decide) []).symm
  · rfl

/-! ## Lemmas on the row loop -/

theorem chipsLoop_fst (row : List (List Char)) :
    ∀ (pre rest : List Int) (warned : List (List Char)), rest.length = row.length →
      (chipsLoop row pre.length (pre ++ rest) warned).1
        = pre ++ row.map (fun t => (Atoi t).1) := by
  induction row with
  | nil =>
    intro pre rest warned h
    have : rest = [] := List.length_eq_zero.mp h
    simp [chipsLoop, this]
  | cons t row ih =>
    intro pre rest warned h
    cases rest with
    | nil => simp at h
    | cons r0 rest =>
      simp only [List.length_cons, Nat.add_right_cancel_iff] at h
      rw [chipsLoop]
      have hset : (pre ++ r0 :: rest).set pre.length (Atoi t).1
          = (pre ++ [(Atoi t).1]) ++ rest := by
        rw [List.set_append_right _ _ (le_refl _)]
        simp
      have hlen : pre.length + 1 = (pre ++ [(Atoi t).1]).length := by simp
      rw [hset, hlen, ih _ _ _ h]
      simp

/-- The row parsed from a line holds, position by position, the value `Atoi`
returned for the line's tokens. -/
theorem parseRow_chips (line : List Char) :
    (parseRow line).1 = ⟨(Fields line).map (fun t => (Atoi t).1)⟩ := by
  unfold parseRow
  simp only
  have := chipsLoop_fst (Fields line) [] (List.replicate (Fields line).length 0) []
    (by simp)
  simpa using this

theorem loadLoop_fst (lines : List (List Char)) :
    ∀ (matrix : WalshMatrix) (warned : List (List Char)),
      (loadLoop lines matrix warned).1
        = ⟨matrix.Rows ++ lines.map (fun l => (parseRow l).1)⟩ := by
  induction lines with
  | nil => intro matrix warned; simp [loadLoop]
  | cons l lines ih =>
    intro matrix warned
    rw [loadLoop, ih]
    simp

/-- The loader, on a file that opens, returns one row per scanned line. -/
theorem WalshMatrixFromFile_rows (text : List Char) :
    (WalshMatrixFromFile (some text)).outcome
      = Outcome.returned ⟨(scanAll text.length text).map
          (fun l => ⟨(Fields l).map (fun t => (Atoi t).1)⟩)⟩ := by
  simp only [WalshMatrixFromFile, loadLoop_fst, List.nil_append, parseRow_chips]

/-! ## Lemmas on the scanner -/

theorem indexByte_none (data : List Char) (c : Char) (h : indexByte data c = none) :
    c ∉ data := by
  induction data with
  | nil => simp
  | cons d ds ih =>
    rw [indexByte] at h
    by_cases hd : d = c
    · simp [hd] at h
    · rw [if_neg hd, Option.map_eq_none'] at h
      intro hmem
      rcases List.mem_cons.mp hmem with hc | hc
      · exact hd hc.symm
      · exact ih h hc

theorem indexByte_some (data : List Char) (c : Char) :
    ∀ i : Nat, indexByte data c = some i →
      c ∉ data.take i ∧ data = data.take i ++ c :: data.drop (i + 1) := by
  induction data with
  | nil => intro i h; simp [indexByte] at h
  | cons d ds ih =>
    intro i h
    rw [indexByte] at h
    by_cases hd : d = c
    · rw [if_pos hd, Option.some.injEq] at h
      subst h
      simp [hd]
    · rw [if_neg hd, Option.map_eq_some'] at h
      obtain ⟨k, hk, hki⟩ := h
      subst hki
      obtain ⟨h1, h2⟩ := ih k hk
      refine ⟨?_, ?_⟩
      · simp only [List.take_succ_cons, List.mem_cons, not_or]
        exact ⟨fun hcd => hd hcd.symm, h1⟩
      · simp only [List.take_succ_cons, List.drop_succ_cons, List.cons_append]
        rw [← h2]

theorem linesOf_nil : linesOf [] = [] := by
  simp [linesOf, List.splitOn, List.splitOnP_nil]

theorem linesOf_single (l : List Char) (hne : l ≠ []) (h : '\n' ∉ l) : linesOf l = [l] := by
  have hs : l.splitOn '\n' = [l] := by
    unfold List.splitOn
    apply List.splitOnP_eq_single
    intro x hx hx1
    have : x = '\n' := by simpa using hx1
    exact h (this ▸ hx)
  simp [linesOf, hs, hne]

theorem linesOf_cons (l0 rest : List Char) (h : '\n' ∉ l0) :
    linesOf (l0 ++ '\n' :: rest) = l0 :: linesOf rest := by
  have hs : (l0 ++ '\n' :: rest).splitOn '\n' = l0 :: rest.splitOn '\n' := by
    unfold List.splitOn
    apply List.splitOnP_first
    · intro x hx hx1
      have : x = '\n' := by simpa using hx1
      exact h (this ▸ hx)
    · simp
  have hne : rest.splitOn '\n' ≠ [] := List.splitOnP_ne_nil _ _
  unfold linesOf
  simp only [hs]
  obtain ⟨p, ps, hps⟩ := List.exists_cons_of_ne_nil hne
  rw [hps, List.getLast?_cons_cons, List.dropLast_cons₂]
  split <;> rfl

theorem scanAll_nil (fuel : Nat) : scanAll fuel [] = [] := by
  cases fuel <;> simp [scanAll, Scan]

/-- When every line fits the scanner's buffer, the scanner delivers every line
of the text, in order, each less a terminal carriage return. -/
theorem scanAll_eq_linesOf (fuel : Nat) :
    ∀ data : List Char, data.length ≤ fuel →
      (∀ l ∈ linesOf data, byteLen l < maxScanTokenSize) →
      scanAll fuel data = (linesOf data).map dropCR := by
  induction fuel with
  | zero =>
    intro data hlen _
    have : data = [] := List.length_eq_zero.mp (Nat.le_zero.mp hlen)
    subst this
    simp [scanAll, linesOf_nil]
  | succ fuel ih =>
    intro data hlen hfit
    by_cases hnil : data = []
    · subst hnil
      simp [scanAll_nil, linesOf_nil]
    · rw [scanAll, Scan, if_neg hnil]
      cases hidx : indexByte data '\n' with
      | none =>
        have hlines := linesOf_single data hnil (indexByte_none data '\n' hidx)
        have hb : byteLen data < maxScanTokenSize := hfit data (by simp [hlines])
        simp [hb, hlines, scanAll_nil]
      | some i =>
        obtain ⟨h1, h2⟩ := indexByte_some data '\n' i hidx
        have hlines := linesOf_cons (data.take i) (data.drop (i + 1)) h1
        rw [← h2] at hlines
        have hb : byteLen (data.take i) < maxScanTokenSize := hfit _ (by simp [hlines])
        have hrest : (data.drop (i + 1)).length ≤ fuel := by
          have := congrArg List.length h2
          simp only [List.length_append, List.length_cons] at this
          omega
        have hfit2 : ∀ l ∈ linesOf (data.drop (i + 1)), byteLen l < maxScanTokenSize :=
          fun l hl => hfit l (by rw [hlines]; exact List.mem_cons_of_mem _ hl)
        simp only [hb, if_true]
        rw [ih _ hrest hfit2, hlines]
        simp

theorem Scan_rest_shorter (data line rest : List Char) (h : Scan data = some (line, rest)) :
    rest.length < data.length := by
  unfold Scan at h
  by_cases hnil : data = []
  · simp [hnil] at h
  · rw [if_neg hnil] at h
    have hpos : 0 < data.length := List.length_pos.mpr hnil
    cases hidx : indexByte data '\n' with
    | none =>
      simp only [hidx] at h
      split at h
      · simp only [Option.some.injEq, Prod.mk.injEq] at h
        rw [← h.2]
        exact hpos
      · simp at h
    | some i =>
      simp only [hidx] at h
      split at h
      · simp only [Option.some.injEq, Prod.mk.injEq] at h
        have hlen := congrArg List.length (indexByte_some data '\n' i hidx).2
        simp only [List.length_append, List.length_cons] at hlen
        rw [← h.2]
        omega
      · simp at h

/-- The scan does not depend on the fuel once the fuel covers the length of the
input: the fuel never ends a scan early. -/
theorem scanAll_fuel (f1 : Nat) :
    ∀ (f2 : Nat) (data : List Char), data.length ≤ f1 → data.length ≤ f2 →
      scanAll f1 data = scanAll f2 data := by
  induction f1 with
  | zero =>
    intro f2 data h1 _
    have : data = [] := List.length_eq_zero.mp (Nat.le_zero.mp h1)
    subst this
    rw [scanAll_nil, scanAll_nil]
  | succ f1 ih =>
    intro f2 data h1 h2
    cases f2 with
    | zero =>
      have : data = [] := List.length_eq_zero.mp (Nat.le_zero.mp h2)
      subst this
      rw [scanAll_nil, scanAll_nil]
    | succ f2 =>
      rw [scanAll, scanAll]
      cases hs : Scan data with
      | none => rfl
      | some r =>
        obtain ⟨line, rest⟩ := r
        have hlt := Scan_rest_shorter data line rest hs
        simp only
        rw [ih f2 rest (by omega) (by omega)]

/-! ## Lemmas on `Atoi` -/

theorem decimalValue_cons (c : Char) (cs : List Char) :
    decimalValue (c :: cs) = (c.toNat - 48) * 10 ^ cs.length + decimalValue cs := by
  unfold decimalValue
  rw [List.reverse_cons, List.map_append, Nat.ofDigits_append, List.map_singleton,
    Nat.ofDigits_singleton, List.length_map, List.length_reverse]
  ring

theorem atoiFastLoop_digits (cs : List Char) :
    ∀ n : Nat, (∀ c ∈ cs, isDigit c = true) →
      atoiFastLoop cs n = some (n * 10 ^ cs.length + decimalValue cs) := by
  induction cs with
  | nil => intro n _; simp [atoiFastLoop, decimalValue]
  | cons c cs ih =>
    intro n h
    have hc : isDigit c = true := h c (by simp)
    rw [atoiFastLoop, if_pos hc, ih _ (fun x hx => h x (List.mem_cons_of_mem _ hx)),
      decimalValue_cons, List.length_cons]
    congr 1
    ring

theorem parseUintLoop_digits (cs : List Char) :
    ∀ n : Nat, (∀ c ∈ cs, isDigit c = true) →
      n * 10 ^ cs.length + decimalValue cs ≤ 2 ^ 63 →
      parseUintLoop cs n = (n * 10 ^ cs.length + decimalValue cs, none) := by
  induction cs with
  | nil => intro n _ _; simp [parseUintLoop, decimalValue]
  | cons c cs ih =>
    intro n h hb
    have hc : isDigit c = true := h c (by simp)
    rw [decimalValue_cons, List.length_cons] at hb
    have hpos : 1 ≤ 10 ^ cs.length := Nat.one_le_pow _ _ (by norm_num)
    have hstep : (n * 10 + (c.toNat - 48)) * 10 ^ cs.length + decimalValue cs ≤ 2 ^ 63 := by
      have : (n * 10 + (c.toNat - 48)) * 10 ^ cs.length
          = n * 10 ^ (cs.length + 1) + (c.toNat - 48) * 10 ^ cs.length := by ring
      omega
    have hn1 : n * 10 + (c.toNat - 48) ≤ 2 ^ 63 := by
      have : n * 10 + (c.toNat - 48) ≤ (n * 10 + (c.toNat - 48)) * 10 ^ cs.length :=
        Nat.le_mul_of_pos_right _ hpos
      omega
    have hcut : ¬ n ≥ maxUint64 / 10 + 1 := by
      have : maxUint64 / 10 + 1 = 1844674407370955162 := by decide
      omega
    have hmax : ¬ n * 10 + (c.toNat - 48) > maxUint64 := by
      have : maxUint64 = 18446744073709551615 := by decide
      omega
    rw [parseUintLoop, if_pos hc, if_neg hcut]
    simp only [hmax, if_false]
    rw [ih _ (fun x hx => h x (List.mem_cons_of_mem _ hx)) hstep, decimalValue_cons,
      List.length_cons]
    congr 1
    ring

/-- On a valid signed decimal integer `Atoi` returns the value the numeral
denotes and no error. -/
theorem Atoi_valid (tok : List Char) (h : ValidInt tok) : Atoi tok = (intValue tok, none) := by
  obtain ⟨hne, hdig, hlo, hhi⟩ := h
  cases tok with
  | nil => simp [digitsOf] at hne
  | cons c rest =>
    unfold minInt at hlo
    unfold maxInt at hhi
    by_cases hsign : c = '+' ∨ c = '-'
    · have hds : digitsOf (c :: rest) = rest := by simp [digitsOf, hsign]
      rw [hds] at hne hdig
      have hfast := atoiFastLoop_digits rest 0 hdig
      simp only [zero_mul, zero_add] at hfast
      simp only [intValue, hds, List.head?_cons, Option.some.injEq] at hlo hhi ⊢
      have hV : decimalValue rest ≤ 2 ^ 63 := by
        by_cases hneg : c = '-'
        · simp only [hneg, if_true] at hlo
          omega
        · simp only [hneg, if_false] at hhi
          omega
      have hslow := parseUintLoop_digits rest 0 hdig (by simpa using hV)
      simp only [zero_mul, zero_add] at hslow
      have hsign2 : c = '-' ∨ c = '+' := hsign.symm
      unfold Atoi
      simp only
      split
      · simp only [hsign2, if_true, true_and, hne, if_false, hfast]
      · simp only [ParseInt, hsign, if_true, ParseUint, hne, if_false, hslow]
        by_cases hneg : c = '-'
        · simp only [hneg, if_true] at hlo hhi ⊢
          have h2 : ¬ ((decimalValue rest : Int) > 2 ^ 63) := by omega
          simp [h2]
          omega
        · simp only [hneg, if_false] at hlo hhi ⊢
          have h2 : ¬ ((decimalValue rest : Int) ≥ 2 ^ 63) := by omega
          simp [h2]
          omega
    · have hds : digitsOf (c :: rest) = c :: rest := by simp [digitsOf, hsign]
      rw [hds] at hne hdig
      have hfast := atoiFastLoop_digits (c :: rest) 0 hdig
      simp only [zero_mul, zero_add] at hfast
      have hcm : ¬ c = '-' := fun hc => hsign (Or.inr hc)
      have hcp : ¬ c = '+' := fun hc => hsign (Or.inl hc)
      simp only [intValue, hds, List.head?_cons, Option.some.injEq, hcm, if_false] at hlo hhi ⊢
      have hV : decimalValue (c :: rest) ≤ 2 ^ 63 := by omega
      have hslow := parseUintLoop_digits (c :: rest) 0 hdig (by simpa using hV)
      simp only [zero_mul, zero_add] at hslow
      unfold Atoi
      simp only
      split
      · simp only [hcm, hcp, or_self, if_false, false_and, hfast]
      · simp only [ParseInt, hcm, hcp, or_self, if_false, ParseUint, hne, hslow]
        have h2 : ¬ ((decimalValue (c :: rest) : Int) ≥ 2 ^ 63) := by omega
        simp [h2]
        omega

/-- The value `Atoi` returns with an error: 0 with a syntax error, an end of
the `int` range with a range error. -/
theorem Atoi_error_value (tok : List Char) :
    ((Atoi tok).2 = some NumError.ErrSyntax → (Atoi tok).1 = 0)
      ∧ ((Atoi tok).2 = some NumError.ErrRange →
          (Atoi tok).1 = maxInt ∨ (Atoi tok).1 = minInt) := by
  unfold Atoi ParseInt
  simp only
  repeat' split
  all_goals simp_all

/-- The end of the `int` range on the side of the token's sign: the value
`Atoi` returns with a range error. -/
theorem Atoi_range_error_value (tok : List Char)
    (h : (Atoi tok).2 = some NumError.ErrRange) :
    (Atoi tok).1 = if tok.head? = some '-' then minInt else maxInt := by
  revert h
  unfold Atoi ParseInt
  simp only
  repeat' split
  all_goals simp_all

theorem decimalValue_lt (cs : List Char) (h : ∀ c ∈ cs, isDigit c = true) :
    decimalValue cs < 10 ^ cs.length := by
  induction cs with
  | nil => simp [decimalValue]
  | cons c cs ih =>
    have hc : isDigit c = true := h c (by simp)
    have hd : c.toNat - 48 ≤ 9 := by
      simp only [isDigit, Bool.and_eq_true, decide_eq_true_eq] at hc
      omega
    have := ih (fun x hx => h x (List.mem_cons_of_mem _ hx))
    rw [decimalValue_cons, List.length_cons, pow_succ]
    nlinarith [Nat.one_le_pow cs.length 10 (by norm_num)]

theorem parseUintLoop_overflow (cs : List Char) :
    ∀ n : Nat, n ≤ maxUint64 → (∀ c ∈ cs, isDigit c = true) →
      parseUintLoop cs n
        = if n * 10 ^ cs.length + decimalValue cs ≤ maxUint64
          then (n * 10 ^ cs.length + decimalValue cs, none)
          else (maxUint64, some NumError.ErrRange) := by
  induction cs with
  | nil =>
    intro n hn _
    simp [parseUintLoop, decimalValue, hn]
  | cons c cs ih =>
    intro n hn h
    have hc : isDigit c = true := h c (by simp)
    have hpos : 1 ≤ 10 ^ cs.length := Nat.one_le_pow _ _ (by norm_num)
    have hmaxv : maxUint64 = 18446744073709551615 := by decide
    have hcutv : maxUint64 / 10 + 1 = 1844674407370955162 := by decide
    have htotal : n * 10 ^ (cs.length + 1) + ((c.toNat - 48) * 10 ^ cs.length + decimalValue cs)
        = (n * 10 + (c.toNat - 48)) * 10 ^ cs.length + decimalValue cs := by ring
    have hge : n * 10 + (c.toNat - 48)
        ≤ (n * 10 + (c.toNat - 48)) * 10 ^ cs.length + decimalValue cs :=
      le_trans (Nat.le_mul_of_pos_right _ hpos) (Nat.le_add_right _ _)
    rw [parseUintLoop, if_pos hc, decimalValue_cons, List.length_cons, htotal]
    by_cases hcut : n ≥ maxUint64 / 10 + 1
    · rw [if_pos hcut, if_neg (by omega)]
    · rw [if_neg hcut]
      simp only
      by_cases hn1 : n * 10 + (c.toNat - 48) > maxUint64
      · rw [if_pos hn1, if_neg (by omega)]
      · rw [if_neg hn1, ih _ (by omega) (fun x hx => h x (List.mem_cons_of_mem _ hx))]

theorem byteLen_ge_length (s : List Char) : s.length ≤ byteLen s := by
  induction s with
  | nil => simp [byteLen]
  | cons c s ih =>
    have := Char.utf8Size_pos c
    simp only [byteLen, List.map_cons, List.sum_cons, List.length_cons] at ih ⊢
    omega

theorem ParseUint_digits (ds : List Char) (hne : ds ≠ [])
    (hdig : ∀ c ∈ ds, isDigit c = true) :
    ParseUint ds = if decimalValue ds ≤ maxUint64 then (decimalValue ds, none)
      else (maxUint64, some NumError.ErrRange) := by
  have hloop := parseUintLoop_overflow ds 0 (by decide) hdig
  simp only [zero_mul, zero_add] at hloop
  rw [ParseUint, if_neg hne, hloop]

theorem not_fast_path (tok ds : List Char) (hlen : ds.length ≤ tok.length)
    (hdig : ∀ c ∈ ds, isDigit c = true) (hbig : 2 ^ 63 ≤ decimalValue ds) :
    ¬ (0 < byteLen tok ∧ byteLen tok < 19) := by
  intro hfast
  have hlt := decimalValue_lt ds hdig
  have hbytes := byteLen_ge_length tok
  have : 10 ^ ds.length ≤ 10 ^ 18 := Nat.pow_le_pow_right (by norm_num) (by omega)
  omega

/-- A signed decimal numeral whose value is above the `int` range gives the
largest `int`, one whose value is below it the smallest `int`, both with a
range error. -/
theorem Atoi_out_of_range (tok : List Char) (hne : digitsOf tok ≠ [])
    (hdig : ∀ c ∈ digitsOf tok, isDigit c = true) :
    (maxInt < intValue tok → Atoi tok = (maxInt, some NumError.ErrRange))
      ∧ (intValue tok < minInt → Atoi tok = (minInt, some NumError.ErrRange)) := by
  cases tok with
  | nil => simp [digitsOf] at hne
  | cons c rest =>
    have hmaxv : maxUint64 = 18446744073709551615 := by decide
    have hminI : minInt = -9223372036854775808 := by decide
    have hmaxI : maxInt = 9223372036854775807 := by decide
    by_cases hsign : c = '+' ∨ c = '-'
    · have hds : digitsOf (c :: rest) = rest := by simp [digitsOf, hsign]
      rw [hds] at hne hdig
      have hU := ParseUint_digits rest hne hdig
      simp only [intValue, hds, List.head?_cons, Option.some.injEq]
      by_cases hneg : c = '-'
      · simp only [hneg, if_true]
        refine ⟨fun h => by omega, fun h => ?_⟩
        have hbig : 2 ^ 63 < decimalValue rest := by omega
        have hfast := not_fast_path ('-' :: rest) rest (by simp) hdig (by omega)
        unfold Atoi
        simp only
        rw [if_neg hfast]
        simp only [ParseInt, or_true, if_true, hU]
        by_cases hfit : decimalValue rest ≤ maxUint64
        · simp only [hfit, if_true]
          have hc : ((decimalValue rest : Nat) : Int) > 2 ^ 63 := by omega
          simp [hc]
          omega
        · simp only [hfit, if_false]
          simp [hmaxv]
      · simp only [hneg, if_false]
        refine ⟨fun h => ?_, fun h => by omega⟩
        have hbig : 2 ^ 63 ≤ decimalValue rest := by omega
        have hfast := not_fast_path (c :: rest) rest (by simp) hdig hbig
        have hplus : c = '+' := hsign.resolve_right hneg
        have hpm : ¬ ('+' : Char) = '-' := by decide
        subst hplus
        unfold Atoi
        simp only
        rw [if_neg hfast]
        simp only [ParseInt, true_or, if_true, hU, hpm]
        by_cases hfit : decimalValue rest ≤ maxUint64
        · simp only [hfit, if_true]
          have hc : ((decimalValue rest : Nat) : Int) ≥ 2 ^ 63 := by omega
          simp [hc]
          omega
        · simp only [hfit, if_false]
          simp [hmaxv]
    · have hds : digitsOf (c :: rest) = c :: rest := by simp [digitsOf, hsign]
      rw [hds] at hne hdig
      have hU := ParseUint_digits (c :: rest) hne hdig
      have hcm : ¬ c = '-' := fun hc => hsign (Or.inr hc)
      have hcp : ¬ c = '+' := fun hc => hsign (Or.inl hc)
      simp only [intValue, hds, List.head?_cons, Option.some.injEq, hcm, if_false]
      refine ⟨fun h => ?_, fun h => by omega⟩
      have hbig : 2 ^ 63 ≤ decimalValue (c :: rest) := by omega
      have hfast := not_fast_path (c :: rest) (c :: rest) (le_refl _) hdig hbig
      unfold Atoi
      simp only
      rw [if_neg hfast]
      simp only [ParseInt, hcm, hcp, or_self, if_false, hU]
      by_cases hfit : decimalValue (c :: rest) ≤ maxUint64
      · simp only [hfit, if_true]
        have hc : ((decimalValue (c :: rest) : Nat) : Int) ≥ 2 ^ 63 := by omega
        simp [hc]
        omega
      · simp only [hfit, if_false]
        simp [hmaxv]

/-! ## Lemmas on a line too long for the scanner -/

theorem scanAll_of_Scan_none (fuel : Nat) (data : List Char) (h : Scan data = none) :
    scanAll fuel data = [] := by
  cases fuel <;> simp [scanAll, h]

theorem chipLine_succ (n : Nat) :
    (List.replicate (n + 1) ['1', ' ']).flatten
      = '1' :: ' ' :: (List.replicate n ['1', ' ']).flatten := by
  simp [List.replicate_succ]

theorem chipLine_no_newline (n : Nat) : '\n' ∉ (List.replicate n ['1', ' ']).flatten := by
  induction n with
  | zero => simp
  | succ n ih =>
    rw [chipLine_succ]
    simp only [List.mem_cons, not_or]
    exact ⟨by decide, by decide, ih⟩

theorem chipLine_byteLen (n : Nat) : byteLen (List.replicate n ['1', ' ']).flatten = 2 * n := by
  induction n with
  | zero => simp [byteLen]
  | succ n ih =>
    rw [chipLine_succ]
    unfold byteLen at ih ⊢
    simp only [List.map_cons, List.sum_cons, ih]
    have h1 : Char.utf8Size '1' = 1 := by decide
    have h2 : Char.utf8Size ' ' = 1 := by decide
    omega

theorem chipLine_Fields (n : Nat) :
    Fields (List.replicate n ['1', ' ']).flatten = List.replicate n ['1'] := by
  unfold Fields
  induction n with
  | zero => simp [fieldsLoop]
  | succ n ih =>
    rw [chipLine_succ, fieldsLoop, if_neg (by decide), fieldsLoop, if_pos (by decide),
      if_neg (by simp), ih, List.replicate_succ]
    simp

theorem longLineText_lines : linesOf longLineText = [longLineText] := by
  apply linesOf_single
  · intro h
    have := congrArg byteLen h
    rw [longLineText, chipLine_byteLen] at this
    simp [byteLen] at this
  · exact chipLine_no_newline 32768

theorem longLineText_Scan : Scan longLineText = none := by
  have hb : ¬ byteLen longLineText < maxScanTokenSize := by
    rw [longLineText, chipLine_byteLen]
    decide
  have hidx : indexByte longLineText '\n' = none := by
    cases h : indexByte longLineText '\n' with
    | none => rfl
    | some i =>
      have h2 := (indexByte_some longLineText '\n' i h).2
      have hmem : '\n' ∈ longLineText := by
        rw [h2]
        simp
      exact absurd hmem (chipLine_no_newline 32768)
  unfold Scan
  simp only [hidx, hb, if_false]
  split <;> rfl

/-! ## Lemmas on the adjacent pairs of a row -/

theorem sequencyLoop_changes (rest : List Int) :
    ∀ (pre : List Int) (a : Int) (count : Int),
      sequencyLoop (pre ++ a :: rest) rest.length (pre.length + 1) count
        = count + (changes (a :: rest) : Int) := by
  induction rest with
  | nil => intro pre a count; simp [sequencyLoop, changes]
  | cons b t ih =>
    intro pre a count
    have hb : (pre ++ a :: b :: t).getD (pre.length + 1) 0 = b := by
      rw [List.getD_eq_getElem?_getD, List.getElem?_append_right (by omega)]
      simp
    have ha : (pre ++ a :: b :: t).getD (pre.length + 1 - 1) 0 = a := by
      rw [List.getD_eq_getElem?_getD, Nat.add_sub_cancel,
        List.getElem?_append_right (le_refl _)]
      simp
    have hrows : pre ++ a :: b :: t = (pre ++ [a]) ++ b :: t := by simp
    have hlen : pre.length + 1 = (pre ++ [a]).length := by simp
    rw [List.length_cons, sequencyLoop, hb, ha, hrows, hlen, ih, changes]
    by_cases h : b ≠ a
    · simp only [h, if_true, ne_eq, not_false_eq_true]
      push_cast
      ring
    · simp only [h, if_false, ne_eq, not_false_eq_true]
      push_cast
      ring

/-- `Sequency` is the number of adjacent pairs of chips that differ. -/
theorem Sequency_eq_changes (code : SpreadingCode) :
    code.Sequency = (changes code.Chips : Int) := by
  obtain ⟨chips⟩ := code
  cases chips with
  | nil => simp [SpreadingCode.Sequency, changes]
  | cons a rest =>
    have := sequencyLoop_changes rest [] a 0
    simp only [List.nil_append, List.length_nil, zero_add] at this
    simp only [SpreadingCode.Sequency, List.length_cons, Nat.succ_ne_zero, if_false,
      Nat.add_sub_cancel]
    exact this

theorem changes_map (f : Int → Int) (hf : Function.Injective f) (l : List Int) :
    changes (l.map f) = changes l := by
  induction l with
  | nil => rfl
  | cons a t ih =>
    cases t with
    | nil => rfl
    | cons b t =>
      simp only [List.map_cons, changes] at ih ⊢
      rw [ih]
      by_cases h : b = a
      · simp [h]
      · have : f b ≠ f a := fun hfa => h (hf hfa)
        simp [h, this]

theorem changes_concat (l : List Int) (x : Int) :
    changes (l ++ [x])
      = changes l + (match l.getLast? with
          | some y => if x ≠ y then 1 else 0
          | none => 0) := by
  induction l with
  | nil => rfl
  | cons a t ih =>
    cases t with
    | nil => simp [changes]
    | cons b t =>
      have e : changes (a :: b :: t ++ [x])
          = (if b ≠ a then 1 else 0) + changes (b :: t ++ [x]) := rfl
      have e2 : changes (a :: b :: t) = (if b ≠ a then 1 else 0) + changes (b :: t) := rfl
      rw [e, e2, ih, List.getLast?_cons_cons]
      omega

theorem changes_reverse (l : List Int) : changes l.reverse = changes l := by
  induction l with
  | nil => rfl
  | cons a t ih =>
    rw [List.reverse_cons, changes_concat, ih, List.getLast?_reverse]
    cases t with
    | nil => rfl
    | cons b t =>
      simp only [List.head?_cons, changes]
      by_cases h : b = a
      · simp [h]
      · have : ¬ a = b := fun hab => h hab.symm
        simp [h, this]
        omega

theorem changes_lt_length (l : List Int) (hne : l ≠ []) : changes l + 1 ≤ l.length := by
  induction l with
  | nil => exact absurd rfl hne
  | cons a t ih =>
    cases t with
    | nil => simp [changes]
    | cons b t =>
      have := ih (by simp)
      simp only [changes, List.length_cons] at this ⊢
      split <;> omega

theorem changes_max_iff (l : List Int) (hne : l ≠ []) :
    changes l + 1 = l.length ↔ l.Chain' (fun a b => a ≠ b) := by
  induction l with
  | nil => exact absurd rfl hne
  | cons a t ih =>
    cases t with
    | nil => simp [changes]
    | cons b t =>
      have hih := ih (by simp)
      have hle := changes_lt_length (b :: t) (by simp)
      rw [List.chain'_cons, ← hih]
      simp only [changes, List.length_cons] at hle ⊢
      by_cases h : b = a
      · have hab : ¬ a ≠ b := fun hab => hab h.symm
        simp only [h, ne_eq, not_true_eq_false, if_false, false_and, iff_false]
        subst h
        omega
      · have hab : a ≠ b := fun hab => h hab.symm
        simp only [ne_eq, h, not_false_eq_true, if_true, hab, true_and, List.length_cons]
        omega

/-! ## Lemmas on sign changes -/

theorem pm_one_ne_iff (a b : Int) (ha : a = 1 ∨ a = -1) (hb : b = 1 ∨ b = -1) :
    (b ≠ a ↔ oppositeSign a b = true) ∧ (b ≠ a ↔ differentSign a b = true) := by
  rcases ha with rfl | rfl <;> rcases hb with rfl | rfl <;> decide

theorem adjacentChangeCount_pm_one (chips : List Int)
    (h : ∀ c ∈ chips, c = 1 ∨ c = -1) :
    adjacentChangeCount chips = signCrossingCount chips
      ∧ adjacentChangeCount chips = signChangeCount chips := by
  unfold adjacentChangeCount signCrossingCount signChangeCount
  constructor
  all_goals
    congr 1
    apply List.filter_congr
    intro i hi
    have hi1 : i < chips.length := List.mem_range.mp hi
    by_cases h0 : 1 ≤ i
    · have hi2 : i - 1 < chips.length := by omega
      have hb := h chips[i] (List.getElem_mem hi1)
      have ha := h chips[i - 1] (List.getElem_mem hi2)
      have key := pm_one_ne_iff chips[i - 1] chips[i] ha hb
      simp only [h0, decide_True, Bool.true_and, List.getElem?_eq_getElem hi1,
        List.getElem?_eq_getElem hi2, ne_eq, Option.some.injEq]
      first
        | exact Bool.eq_iff_iff.mpr (by simpa using key.1)
        | exact Bool.eq_iff_iff.mpr (by simpa using key.2)
    · simp [h0]

/-! ## Lemmas on `Less` -/

theorem Less_eq (m : WalshMatrix) (i j : Nat) (ri rj : SpreadingCode)
    (hi : m.Rows[i]? = some ri) (hj : m.Rows[j]? = some rj) :
    m.Less i j = some (decide (ri.Sequency < rj.Sequency)) := by
  simp only [WalshMatrix.Less, hi, hj]

/-! ## Lemmas on the grid -/

theorem mem_drawRowLoop (cell i : Nat) (c : Cell) (cols : List Int) :
    ∀ j0 : Nat, c ∈ drawRowLoop cell i j0 cols ↔
      ∃ (j : Nat) (col : Int), cols[j]? = some col ∧ c = cellAt cell i (j0 + j) col := by
  induction cols with
  | nil => intro j0; simp [drawRowLoop]
  | cons col0 cols ih =>
    intro j0
    rw [drawRowLoop, List.mem_cons, ih]
    constructor
    · rintro (h | ⟨j, col, hj, hc⟩)
      · exact ⟨0, col0, by simp, by simpa using h⟩
      · exact ⟨j + 1, col, by simpa using hj, by rw [hc]; congr 1; omega⟩
    · rintro ⟨j, col, hj, hc⟩
      cases j with
      | zero =>
        simp only [List.getElem?_cons_zero, Option.some.injEq] at hj
        subst hj
        exact Or.inl (by simpa using hc)
      | succ j =>
        simp only [List.getElem?_cons_succ] at hj
        exact Or.inr ⟨j, col, hj, by rw [hc]; congr 1; omega⟩

theorem mem_drawRowsLoop (cell : Nat) (c : Cell) (rows : List SpreadingCode) :
    ∀ i0 : Nat, c ∈ drawRowsLoop cell i0 rows ↔
      ∃ (i j : Nat) (row : SpreadingCode) (col : Int), rows[i]? = some row
        ∧ row.Chips[j]? = some col ∧ c = cellAt cell (i0 + i) j col := by
  induction rows with
  | nil => intro i0; simp [drawRowsLoop]
  | cons row0 rows ih =>
    intro i0
    rw [drawRowsLoop, List.mem_append, ih, mem_drawRowLoop]
    constructor
    · rintro (⟨j, col, hj, hc⟩ | ⟨i, j, row, col, hi, hj, hc⟩)
      · exact ⟨0, j, row0, col, by simp, hj, by simpa using hc⟩
      · exact ⟨i + 1, j, row, col, by simpa using hi, hj, by rw [hc]; congr 1; omega⟩
    · rintro ⟨i, j, row, col, hi, hj, hc⟩
      cases i with
      | zero =>
        simp only [List.getElem?_cons_zero, Option.some.injEq] at hi
        subst hi
        exact Or.inl ⟨j, col, hj, by simpa using hc⟩
      | succ i =>
        simp only [List.getElem?_cons_succ] at hi
        exact Or.inr ⟨i, j, row, col, hi, hj, by rw [hc]; congr 1; omega⟩

/-- The cells of the grid are exactly the cells of the chips of the matrix. -/
theorem mem_drawGrid (m : WalshMatrix) (cells : List Cell) (h : drawGrid m = some cells) :
    ∃ cell, cellPixSize m = some cell ∧ ∀ c : Cell, c ∈ cells ↔
      ∃ (i j : Nat) (row : SpreadingCode) (col : Int), m.Rows[i]? = some row
        ∧ row.Chips[j]? = some col ∧ c = cellAt cell i j col := by
  unfold drawGrid at h
  cases hc : cellPixSize m with
  | none => simp [hc] at h
  | some cell =>
    simp only [hc, Option.some.injEq] at h
    subst h
    refine ⟨cell, rfl, fun c => ?_⟩
    simpa using mem_drawRowsLoop cell c m.Rows 0

theorem cellPixSize_pos (m : WalshMatrix) (h : 1 ≤ m.Rows.length) :
    cellPixSize m = some (logoSize / m.Rows.length) := by
  have : m.Rows.length ≠ 0 := by omega
  simp [cellPixSize, this]

/-! ## Lemmas on line drawing -/

theorem Set_bounds (p : ImageRGBA) (x y : Int) (c : ColorRGBA) :
    (p.Set x y c).minX = p.minX ∧ (p.Set x y c).minY = p.minY
      ∧ (p.Set x y c).maxX = p.maxX ∧ (p.Set x y c).maxY = p.maxY := by
  unfold ImageRGBA.Set
  split <;> simp

theorem Set_pix (p : ImageRGBA) (x y : Int) (c : ColorRGBA) (x0 y0 : Int) :
    (p.Set x y c).pix x0 y0
      = if x0 = x ∧ y0 = y ∧ p.contains x y then c else p.pix x0 y0 := by
  unfold ImageRGBA.Set
  by_cases h : p.contains x y
  · simp [h]
  · simp [h]

theorem hLineLoop_spec (y : Int) (c : ColorRGBA) (k : Nat) :
    ∀ (x1 : Int) (img : Image),
      (hLineLoop y c k x1 img).RGBA.minX = img.RGBA.minX
        ∧ (hLineLoop y c k x1 img).RGBA.minY = img.RGBA.minY
        ∧ (hLineLoop y c k x1 img).RGBA.maxX = img.RGBA.maxX
        ∧ (hLineLoop y c k x1 img).RGBA.maxY = img.RGBA.maxY
        ∧ ∀ x0 y0 : Int, (hLineLoop y c k x1 img).RGBA.pix x0 y0
            = if y0 = y ∧ x1 ≤ x0 ∧ x0 < x1 + k ∧ img.RGBA.contains x0 y0 then c
              else img.RGBA.pix x0 y0 := by
  induction k with
  | zero =>
    intro x1 img
    refine ⟨rfl, rfl, rfl, rfl, fun x0 y0 => ?_⟩
    have : ¬ (y0 = y ∧ x1 ≤ x0 ∧ x0 < x1 + (0 : Nat) ∧ img.RGBA.contains x0 y0) := by
      rintro ⟨_, h1, h2, _⟩
      omega
    rw [if_neg this]
    rfl
  | succ k ih =>
    intro x1 img
    obtain ⟨b1, b2, b3, b4⟩ := Set_bounds img.RGBA x1 y c
    obtain ⟨h1, h2, h3, h4, hp⟩ := ih (x1 + 1) ⟨img.RGBA.Set x1 y c⟩
    rw [hLineLoop]
    refine ⟨h1.trans b1, h2.trans b2, h3.trans b3, h4.trans b4, fun x0 y0 => ?_⟩
    rw [hp, Set_pix]
    simp only [ImageRGBA.contains, b1, b2, b3, b4]
    push_cast
    split_ifs <;> first | rfl | (exfalso; simp only [ImageRGBA.contains] at *; omega)

theorem vLineLoop_spec (x : Int) (c : ColorRGBA) (k : Nat) :
    ∀ (y1 : Int) (img : Image),
      (vLineLoop x c k y1 img).RGBA.minX = img.RGBA.minX
        ∧ (vLineLoop x c k y1 img).RGBA.minY = img.RGBA.minY
        ∧ (vLineLoop x c k y1 img).RGBA.maxX = img.RGBA.maxX
        ∧ (vLineLoop x c k y1 img).RGBA.maxY = img.RGBA.maxY
        ∧ ∀ x0 y0 : Int, (vLineLoop x c k y1 img).RGBA.pix x0 y0
            = if x0 = x ∧ y1 ≤ y0 ∧ y0 < y1 + k ∧ img.RGBA.contains x0 y0 then c
              else img.RGBA.pix x0 y0 := by
  induction k with
  | zero =>
    intro y1 img
    refine ⟨rfl, rfl, rfl, rfl, fun x0 y0 => ?_⟩
    have : ¬ (x0 = x ∧ y1 ≤ y0 ∧ y0 < y1 + (0 : Nat) ∧ img.RGBA.contains x0 y0) := by
      rintro ⟨_, h1, h2, _⟩
      omega
    rw [if_neg this]
    rfl
  | succ k ih =>
    intro y1 img
    obtain ⟨b1, b2, b3, b4⟩ := Set_bounds img.RGBA x y1 c
    obtain ⟨h1, h2, h3, h4, hp⟩ := ih (y1 + 1) ⟨img.RGBA.Set x y1 c⟩
    rw [vLineLoop]
    refine ⟨h1.trans b1, h2.trans b2, h3.trans b3, h4.trans b4, fun x0 y0 => ?_⟩
    rw [hp, Set_pix]
    simp only [ImageRGBA.contains, b1, b2, b3, b4]
    push_cast
    split_ifs <;> first | rfl | (exfalso; simp only [ImageRGBA.contains] at *; omega)

/-- A horizontal line whose end is below the largest `int` is drawn: the
bounds stay, the pixels of the image on the segment take the colour, and every
other pixel keeps its value. -/
theorem HLine_spec (img : Image) (x1 y x2 : Int) (c : ColorRGBA) (hx2 : x2 < maxInt) :
    ∃ r, img.HLine x1 y x2 c = some r
      ∧ r.RGBA.minX = img.RGBA.minX ∧ r.RGBA.minY = img.RGBA.minY
      ∧ r.RGBA.maxX = img.RGBA.maxX ∧ r.RGBA.maxY = img.RGBA.maxY
      ∧ ∀ x0 y0 : Int, r.RGBA.pix x0 y0
          = if y0 = y ∧ x1 ≤ x0 ∧ x0 ≤ x2 ∧ img.RGBA.contains x0 y0 then c
            else img.RGBA.pix x0 y0 := by
  have hne : ¬ (x1 ≤ x2 ∧ x2 = maxInt) := fun h => by omega
  obtain ⟨h1, h2, h3, h4, hp⟩ := hLineLoop_spec y c (x2 + 1 - x1).toNat x1 img
  refine ⟨_, by rw [Image.HLine, if_neg hne], h1, h2, h3, h4, fun x0 y0 => ?_⟩
  rw [hp]
  apply if_congr _ rfl rfl
  constructor <;> rintro ⟨a, b, d, e⟩ <;> exact ⟨a, b, by omega, e⟩

theorem VLine_spec (img : Image) (x y1 y2 : Int) (c : ColorRGBA) (hy2 : y2 < maxInt) :
    ∃ r, img.VLine x y1 y2 c = some r
      ∧ r.RGBA.minX = img.RGBA.minX ∧ r.RGBA.minY = img.RGBA.minY
      ∧ r.RGBA.maxX = img.RGBA.maxX ∧ r.RGBA.maxY = img.RGBA.maxY
      ∧ ∀ x0 y0 : Int, r.RGBA.pix x0 y0
          = if x0 = x ∧ y1 ≤ y0 ∧ y0 ≤ y2 ∧ img.RGBA.contains x0 y0 then c
            else img.RGBA.pix x0 y0 := by
  have hne : ¬ (y1 ≤ y2 ∧ y2 = maxInt) := fun h => by omega
  obtain ⟨h1, h2, h3, h4, hp⟩ := vLineLoop_spec x c (y2 + 1 - y1).toNat y1 img
  refine ⟨_, by rw [Image.VLine, if_neg hne], h1, h2, h3, h4, fun x0 y0 => ?_⟩
  rw [hp]
  apply if_congr _ rfl rfl
  constructor <;> rintro ⟨a, b, d, e⟩ <;> exact ⟨a, b, by omega, e⟩

/-! ## Lemmas on the sorted matrix -/

theorem ascending_of_pairwise (R : List SpreadingCode) (hRs : R.Pairwise seqLE)
    (i j : Nat) (ri rj : SpreadingCode) (hij : i < j) (hi : R[i]? = some ri)
    (hj : R[j]? = some rj) : ri.Sequency ≤ rj.Sequency := by
  obtain ⟨hi1, hi2⟩ := List.getElem?_eq_some_iff.mp hi
  obtain ⟨hj1, hj2⟩ := List.getElem?_eq_some_iff.mp hj
  have := List.pairwise_iff_getElem.mp hRs i j hi1 hj1 hij
  rw [hi2, hj2] at this
  exact this

theorem sortWith_ascending (next : Nat → Nat) (m : WalshMatrix) :
    ∃ s, sortWith next m = some s
      ∧ ∀ (i j : Nat) (ri rj : SpreadingCode), i < j → s.Rows[i]? = some ri →
          s.Rows[j]? = some rj → ri.Sequency ≤ rj.Sequency := by
  obtain ⟨R, hR, hRs, _⟩ := sortWith_spec next m
  exact ⟨⟨R⟩, hR, ascending_of_pairwise R hRs⟩

theorem sortWith_permutation (next : Nat → Nat) (m : WalshMatrix) :
    ∃ s, sortWith next m = some s
      ∧ s.Rows.Perm m.Rows
      ∧ (∀ r : SpreadingCode, s.Rows.count r = m.Rows.count r)
      ∧ s.Len = m.Len := by
  obtain ⟨R, hR, _, hRp⟩ := sortWith_spec next m
  exact ⟨⟨R⟩, hR, hRp, fun r => hRp.count_eq r, hRp.length_eq⟩

theorem sortWith_idempotent (next : Nat → Nat) (m : WalshMatrix)
    (hd : m.sequencies.Nodup) :
    (∃ s, sortWith next m = some s ∧ sortWith next s = some s
        ∧ ∀ R : List SpreadingCode, R.Perm m.Rows → R.Pairwise seqLE → s = ⟨R⟩)
      ∧ (m.sequencies.Pairwise (· < ·) → sortWith next m = some m) := by
  obtain ⟨R, hR, hRs, hRp⟩ := sortWith_spec next m
  obtain ⟨R2, hR2, hRs2, hRp2⟩ := sortWith_spec next ⟨R⟩
  refine ⟨⟨⟨R⟩, hR, ?_, ?_⟩, ?_⟩
  · rw [hR2, ascending_unique m.Rows R2 R hd (hRp2.trans hRp) hRs2 hRp hRs]
  · intro R1 hp1 hs1
    rw [ascending_unique m.Rows R R1 hd hRp hRs hp1 hs1]
  · intro hasc
    rw [hR, ascending_unique m.Rows R m.Rows hd hRp hRs (List.Perm.refl _)
      (pairwise_lt_seqLE m.Rows hasc)]

/-! ## Claims -/

/-- C1: for every spreading code (any integers), `Sequency` returns exactly the
number of indices `i` with `1 ≤ i < len` and `chips[i] ≠ chips[i-1]`; in
particular it returns 0 for the empty row and for every row of length 1. -/
theorem C1_sequency_counts_adjacent_changes (code : SpreadingCode) (c : Int) :
    code.Sequency = (adjacentChangeCount code.Chips : Int)
      ∧ SpreadingCode.Sequency ⟨[]⟩ = 0
      ∧ SpreadingCode.Sequency ⟨[c]⟩ = 0 := by
  refine ⟨Sequency_eq_adjacentChangeCount code, ?_, ?_⟩
  · simp [SpreadingCode.Sequency]
  · simp [SpreadingCode.Sequency, sequencyLoop]

/-- C2: the listed values: `Sequency([]) = 0`, `Sequency([1]) = 0`,
`Sequency([1,1,1]) = 0`, `Sequency([1,-1,1,-1]) = 3`,
`Sequency([1,1,-1,-1,1]) = 2`. -/
theorem C2_sequency_listed_values :
    SpreadingCode.Sequency ⟨[]⟩ = 0
      ∧ SpreadingCode.Sequency ⟨[1]⟩ = 0
      ∧ SpreadingCode.Sequency ⟨[1, 1, 1]⟩ = 0
      ∧ SpreadingCode.Sequency ⟨[1, -1, 1, -1]⟩ = 3
      ∧ SpreadingCode.Sequency ⟨[1, 1, -1, -1, 1]⟩ = 2 := by
  refine ⟨by decide, by decide, by decide, by decide, by decide⟩

/-- C3: for every matrix, `sort.Sort` driven by the matrix's `Len`/`Swap`/`Less`
hooks, as `main` calls it, returns and leaves the rows in ascending sequency
order: for all positions `i < j` of the result,
`Sequency(Rows[i]) ≤ Sequency(Rows[j])`.  The sort is the library's
pattern-defeating quicksort with its insertion sort, heap sort and partitions;
the property holds with the library's generator in `breakPatterns` and with
every other one. -/
theorem C3_sort_ascending (m : WalshMatrix) :
    (∃ s, sort_Sort m = some s
        ∧ ∀ (i j : Nat) (ri rj : SpreadingCode), i < j → s.Rows[i]? = some ri →
            s.Rows[j]? = some rj → ri.Sequency ≤ rj.Sequency)
      ∧ ∀ next : Nat → Nat, ∃ s, sortWith next m = some s
          ∧ ∀ (i j : Nat) (ri rj : SpreadingCode), i < j → s.Rows[i]? = some ri →
              s.Rows[j]? = some rj → ri.Sequency ≤ rj.Sequency :=
  ⟨sortWith_ascending xorshiftNext m, fun next => sortWith_ascending next m⟩

set_option maxRecDepth 100000 in
/-- Witness for C3: rows with sequencies `[3, 0, 2]` end up with sequencies
`[0, 2, 3]`; and on 13 rows, of which the row at index 6 has sequency 1 and
the others sequency 0, the partition brings the row of index 9 to the front
and the row of index 0 to index 8. -/
theorem C3_sort_ascending_witness :
    exampleMatrix.sequencies = [3, 0, 2]
      ∧ (sort_Sort exampleMatrix).map WalshMatrix.sequencies = some [0, 2, 3]
      ∧ (∃ s, sort_Sort exampleMatrix = some s
          ∧ ∀ (i j : Nat) (ri rj : SpreadingCode), i < j → s.Rows[i]? = some ri →
              s.Rows[j]? = some rj → ri.Sequency ≤ rj.Sequency)
      ∧ tiedExample.sequencies = [0, 0, 0, 0, 0, 0, 1, 0, 0, 0, 0, 0, 0]
      ∧ sort_Sort tiedExample
          = some ⟨[⟨[9, 9]⟩, ⟨[1, 1]⟩, ⟨[2, 2]⟩, ⟨[3, 3]⟩, ⟨[4, 4]⟩, ⟨[5, 5]⟩, ⟨[7, 7]⟩,
              ⟨[8, 8]⟩, ⟨[0, 0]⟩, ⟨[10, 10]⟩, ⟨[11, 11]⟩, ⟨[12, 12]⟩, ⟨[6, -6]⟩]⟩ :=
  ⟨by decide, by decide, (C3_sort_ascending exampleMatrix).1, by decide, by decide⟩

/-- C4: for every matrix, the rows after `sort.Sort` are a permutation of the
rows before: each row, chips unchanged, occurs as often after as before, and
the number of rows is the same, also when rows share a sequency.  This holds
with the library's generator in `breakPatterns` and with every other one. -/
theorem C4_sort_permutation (m : WalshMatrix) :
    (∃ s, sort_Sort m = some s
        ∧ s.Rows.Perm m.Rows
        ∧ (∀ r : SpreadingCode, s.Rows.count r = m.Rows.count r)
        ∧ s.Len = m.Len)
      ∧ ∀ next : Nat → Nat, ∃ s, sortWith next m = some s
          ∧ s.Rows.Perm m.Rows
          ∧ (∀ r : SpreadingCode, s.Rows.count r = m.Rows.count r)
          ∧ s.Len = m.Len :=
  ⟨sortWith_permutation xorshiftNext m, fun next => sortWith_permutation next m⟩

/-- C5: for every matrix whose rows have pairwise distinct sequencies, sorting
the sorted matrix again leaves the row order unchanged, and the sorted matrix
is the one ascending arrangement of the rows; a matrix already in strictly
ascending sequency order is returned unchanged.  This holds with the library's
generator in `breakPatterns` and with every other one. -/
theorem C5_sort_idempotent (m : WalshMatrix) (hd : m.sequencies.Nodup) :
    ((∃ s, sort_Sort m = some s ∧ sort_Sort s = some s
          ∧ ∀ R : List SpreadingCode, R.Perm m.Rows → R.Pairwise seqLE → s = ⟨R⟩)
        ∧ (m.sequencies.Pairwise (· < ·) → sort_Sort m = some m))
      ∧ ∀ next : Nat → Nat,
          (∃ s, sortWith next m = some s ∧ sortWith next s = some s
            ∧ ∀ R : List SpreadingCode, R.Perm m.Rows → R.Pairwise seqLE → s = ⟨R⟩)
          ∧ (m.sequencies.Pairwise (· < ·) → sortWith next m = some m) :=
  ⟨sortWith_idempotent xorshiftNext m hd, fun next => sortWith_idempotent next m hd⟩

/-- Witness for C5: the matrix with sequencies `[0, 2, 3]` is returned
unchanged. -/
theorem C5_sort_idempotent_witness :
    sortedExample.sequencies.Nodup
      ∧ sortedExample.sequencies.Pairwise (· < ·)
      ∧ sort_Sort sortedExample = some sortedExample :=
  ⟨by decide, by decide, (C5_sort_idempotent sortedExample (by decide)).1.2 (by decide)⟩

/-- C6: sorting a matrix with zero rows or one row succeeds and returns the
matrix unchanged, by the early return of `sort.Sort` and also by the insertion
sort run on the whole slice; no hook call on such a matrix changes it. -/
theorem C6_sort_short_noop (m : WalshMatrix) (hlen : m.Len ≤ 1) :
    sort_Sort m = some m
      ∧ insertionSort m 0 m.Len = some m
      ∧ ∀ (i j : Nat) (m1 : WalshMatrix), m.Swap i j = some m1 → m1 = m := by
  refine ⟨?_, ?_, fun i j m1 h => Swap_short m m1 i j hlen h⟩
  · simp [sort_Sort, sortWith, hlen]
  · have h0 : m.Len - (0 + 1) = 0 := by omega
    simp [insertionSort, h0, insertionOuter]

/-- Witness for C6: the empty matrix and a one-row matrix. -/
theorem C6_sort_short_noop_witness :
    WalshMatrix.Len ⟨[]⟩ ≤ 1 ∧ WalshMatrix.Len ⟨[⟨[1, -1]⟩]⟩ ≤ 1
      ∧ sort_Sort ⟨[]⟩ = some ⟨[]⟩ ∧ sort_Sort ⟨[⟨[1, -1]⟩]⟩ = some ⟨[⟨[1, -1]⟩]⟩ :=
  ⟨by decide, by decide, (C6_sort_short_noop ⟨[]⟩ (by decide)).1,
    (C6_sort_short_noop ⟨[⟨[1, -1]⟩]⟩ (by decide)).1⟩

/-- C7 (amended): for every input text in which every line is shorter than the
scanner's buffer of 65536 bytes and every whitespace-delimited token is a valid
signed decimal integer (an optional sign, one or more digits, a value in the
`int` range from `-9223372036854775808` to `9223372036854775807`), the loader
returns exactly one row per line of the text, in file order, and row `k` is
the list of the integer values of the tokens of line `k` in order. -/
theorem C7_loader_rows (text : List Char)
    (hfit : ∀ l ∈ linesOf text, byteLen l < maxScanTokenSize)
    (hvalid : ∀ l ∈ linesOf text, ∀ t ∈ tokensOf l, ValidInt t) :
    (WalshMatrixFromFile (some text)).outcome
      = Outcome.returned ⟨(linesOf text).map rowOf⟩ := by
  rw [WalshMatrixFromFile_rows, scanAll_eq_linesOf _ _ (le_refl _) hfit, List.map_map]
  congr 2
  apply List.map_congr_left
  intro l hl
  simp only [Function.comp_apply, rowOf]
  rw [Fields_dropCR, Fields_eq_tokensOf]
  congr 1
  apply List.map_congr_left
  intro t ht
  rw [Atoi_valid t (hvalid l hl t ht)]

/-- Witness for C7: the text `"1 1\n1 -1\n"` yields the rows `[1,1]` and
`[1,-1]` in that order. -/
theorem C7_loader_rows_witness :
    (∀ l ∈ linesOf "1 1\n1 -1\n".toList, byteLen l < maxScanTokenSize)
      ∧ (∀ l ∈ linesOf "1 1\n1 -1\n".toList, ∀ t ∈ tokensOf l, ValidInt t)
      ∧ (WalshMatrixFromFile (some "1 1\n1 -1\n".toList)).outcome
          = Outcome.returned ⟨[⟨[1, 1]⟩, ⟨[1, -1]⟩]⟩ :=
  ⟨by decide, by decide,
    (C7_loader_rows "1 1\n1 -1\n".toList (by decide) (by decide)).trans (by decide)⟩

/-- Counterexample to C7 as stated: a text of one line of 32768 valid tokens
that is 65536 bytes long has one line, yet the loader returns a matrix with no
row. -/
theorem C7_long_line_counterexample :
    (∀ l ∈ linesOf longLineText, ∀ t ∈ tokensOf l, ValidInt t)
      ∧ (linesOf longLineText).length = 1
      ∧ (WalshMatrixFromFile (some longLineText)).outcome = Outcome.returned ⟨[]⟩
      ∧ (WalshMatrixFromFile (some longLineText)).outcome
          ≠ Outcome.returned ⟨(linesOf longLineText).map rowOf⟩ := by
  have hrun : (WalshMatrixFromFile (some longLineText)).outcome = Outcome.returned ⟨[]⟩ := by
    rw [WalshMatrixFromFile_rows, scanAll_of_Scan_none _ _ longLineText_Scan]
    rfl
  refine ⟨?_, by rw [longLineText_lines]; rfl, hrun, ?_⟩
  · intro l hl t ht
    rw [longLineText_lines, List.mem_singleton] at hl
    subst hl
    rw [← Fields_eq_tokensOf, longLineText, chipLine_Fields] at ht
    rw [List.eq_of_mem_replicate ht]
    decide
  · rw [hrun, longLineText_lines]
    simp

/-- C8: for every line, whether or not its tokens parse, the parsed row has as
many entries as the line has whitespace-delimited tokens, entry `i` being what
`Atoi` returned for token `i`; and for every text that opens, every scanned
line gives one row, so no parse failure stops the tokens and lines after it
(the scanned lines are the same for every fuel that covers the text). -/
theorem C8_row_length_is_token_count (text line : List Char) :
    (parseRow line).1.Chips.length = (tokensOf line).length
      ∧ (parseRow line).1.Chips = (tokensOf line).map (fun t => (Atoi t).1)
      ∧ (WalshMatrixFromFile (some text)).outcome
          = Outcome.returned ⟨(WalshMatrixFromFile (some text)).scanned.map
              (fun l => (parseRow l).1)⟩
      ∧ ∀ fuel : Nat, text.length ≤ fuel →
          scanAll fuel text = (WalshMatrixFromFile (some text)).scanned := by
  refine ⟨?_, ?_, ?_, ?_⟩
  · rw [parseRow_chips, Fields_eq_tokensOf]
    simp
  · rw [parseRow_chips, Fields_eq_tokensOf]
  · simp only [WalshMatrixFromFile, loadLoop_fst, List.nil_append]
  · intro fuel hfuel
    exact scanAll_fuel fuel text.length text hfuel (le_refl _)

/-- Witness for C8: the line `"1 x -1"` yields a row of length 3, and the text
`"1 x -1\n2\n"` yields two rows. -/
theorem C8_row_length_is_token_count_witness :
    (parseRow "1 x -1".toList).1.Chips.length = 3
      ∧ (WalshMatrixFromFile (some "1 x -1\n2\n".toList)).outcome
          = Outcome.returned ⟨[⟨[1, 0, -1]⟩, ⟨[2]⟩]⟩ :=
  ⟨(C8_row_length_is_token_count [] "1 x -1".toList).1.trans (by decide),
    (C8_row_length_is_token_count "1 x -1\n2\n".toList []).2.2.1.trans (by decide)⟩

/-- C9 (amended): for every token for which `Atoi` reports an error, the loader
leaves at the token's position the value `Atoi` returned with the error: the
zero value when the error is a syntax error, and when the error is a range
error the end of the `int` range on the side of the token's sign, the smallest
`int` `-9223372036854775808` for a token that starts with `-` and the largest
`int` `9223372036854775807` for every other token.  That end is the one nearest
to the token's value: a signed decimal numeral whose value is above the `int`
range gets a range error and the largest `int`, one whose value is below the
range a range error and the smallest `int`. -/
theorem C9_error_token_value (line tok : List Char) (i : Nat)
    (htok : (tokensOf line)[i]? = some tok) (herr : (Atoi tok).2 ≠ none) :
    (parseRow line).1.Chips[i]? = some (Atoi tok).1
      ∧ (((Atoi tok).2 = some NumError.ErrSyntax ∧ (Atoi tok).1 = 0)
        ∨ ((Atoi tok).2 = some NumError.ErrRange
            ∧ (Atoi tok).1 = if tok.head? = some '-' then minInt else maxInt))
      ∧ (digitsOf tok ≠ [] → (∀ c ∈ digitsOf tok, isDigit c = true) →
          (maxInt < intValue tok → Atoi tok = (maxInt, some NumError.ErrRange))
            ∧ (intValue tok < minInt → Atoi tok = (minInt, some NumError.ErrRange)))
      ∧ minInt = -9223372036854775808 ∧ maxInt = 9223372036854775807 := by
  refine ⟨?_, ?_, Atoi_out_of_range tok, by decide, by decide⟩
  · rw [parseRow_chips, Fields_eq_tokensOf]
    simp [List.getElem?_map, htok]
  · cases he : (Atoi tok).2 with
    | none => exact absurd he herr
    | some e =>
      cases e with
      | ErrSyntax => exact Or.inl ⟨rfl, (Atoi_error_value tok).1 he⟩
      | ErrRange => exact Or.inr ⟨rfl, Atoi_range_error_value tok he⟩

/-- Witness for C9: the line `"1 x -1"` yields the row `[1, 0, -1]`, and the
token `-99999999999999999999` leaves `-9223372036854775808`. -/
theorem C9_error_token_value_witness :
    (tokensOf "1 x -1".toList)[1]? = some ['x']
      ∧ (Atoi ['x']).2 ≠ none
      ∧ (Atoi ['x']).2 = some NumError.ErrSyntax
      ∧ (parseRow "1 x -1".toList).1.Chips[1]? = some 0
      ∧ (parseRow "1 x -1".toList).1 = ⟨[1, 0, -1]⟩
      ∧ (Atoi "-99999999999999999999".toList).2 = some NumError.ErrRange
      ∧ (parseRow "-99999999999999999999".toList).1.Chips[0]?
          = some (-9223372036854775808) :=
  ⟨by decide, by decide, by decide,
    (C9_error_token_value "1 x -1".toList ['x'] 1 (by decide) (by decide)).1.trans (by decide),
    by decide, by decide,
    (C9_error_token_value "-99999999999999999999".toList "-99999999999999999999".toList 0
      (by decide) (by decide)).1.trans (by decide)⟩

/-- Counterexample to C9 as stated: the token `99999999999999999999` fails to
parse with a range error, and the loader leaves `9223372036854775807`, not the
zero value, at its position. -/
theorem C9_out_of_range_counterexample :
    (Atoi "99999999999999999999".toList).2 = some NumError.ErrRange
      ∧ (parseRow "99999999999999999999".toList).1 = ⟨[9223372036854775807]⟩
      ∧ (parseRow "99999999999999999999".toList).1.Chips[0]? ≠ some 0 := by
  refine ⟨by decide, by decide, by decide⟩

/-- C10: when the file cannot be opened the loader ends in the fatal outcome:
no line is scanned, no token is parsed and no matrix is returned. -/
theorem C10_open_failure_is_fatal :
    (WalshMatrixFromFile none).outcome = Outcome.fatal "Couldn't open matrix file."
      ∧ (WalshMatrixFromFile none).scanned = []
      ∧ (WalshMatrixFromFile none).warned = []
      ∧ ∀ m : WalshMatrix, (WalshMatrixFromFile none).outcome ≠ Outcome.returned m := by
  refine ⟨rfl, rfl, rfl, ?_⟩
  intro m h
  simp [WalshMatrixFromFile] at h

/-- C11: the comment on `Sequency` promises the number of sign changes of the
code, the adjacent positions whose chips have different signs; on the row
`[1, 2]`, which has no sign change, `Sequency` returns 1. -/
theorem C11_sequency_counts_values_not_signs :
    SpreadingCode.Sequency ⟨[1, 2]⟩ = 1
      ∧ signChangeCount [1, 2] = 0
      ∧ SpreadingCode.Sequency ⟨[1, 2]⟩ ≠ (signChangeCount [1, 2] : Int)
      ∧ (parseRow "1 2".toList).1 = ⟨[1, 2]⟩ := by
  refine ⟨by decide, by decide, by decide, by decide⟩

/-- C12: for every spreading code whose chips are all `+1` or `-1`, the count
of adjacent inequalities that `Sequency` returns equals the number of adjacent
sign crossings (and the number of adjacent sign changes). -/
theorem C12_sequency_is_sign_crossings (code : SpreadingCode)
    (h : ∀ c ∈ code.Chips, c = 1 ∨ c = -1) :
    code.Sequency = (signCrossingCount code.Chips : Int)
      ∧ code.Sequency = (signChangeCount code.Chips : Int)
      ∧ adjacentChangeCount code.Chips = signCrossingCount code.Chips := by
  obtain ⟨h1, h2⟩ := adjacentChangeCount_pm_one code.Chips h
  refine ⟨?_, ?_, h1⟩
  · rw [Sequency_eq_adjacentChangeCount, h1]
  · rw [Sequency_eq_adjacentChangeCount, h2]

/-- Witness for C12: the code `[1, -1, -1, 1]` has sequency 2 and two sign
crossings. -/
theorem C12_sequency_is_sign_crossings_witness :
    (∀ c ∈ [(1 : Int), -1, -1, 1], c = 1 ∨ c = -1)
      ∧ SpreadingCode.Sequency ⟨[1, -1, -1, 1]⟩ = 2
      ∧ signCrossingCount [1, -1, -1, 1] = 2 :=
  ⟨by decide,
    (C12_sequency_is_sign_crossings ⟨[1, -1, -1, 1]⟩ (by decide)).1.trans (by decide),
    by decide⟩

/-- C13: the cells of the drawn grid are the cells of the chips of the matrix,
and the fill colour of a cell depends on the sign of its chip only: one fixed
colour for every negative chip, another fixed colour for every non-negative
chip (zero included), and the two colours differ. -/
theorem C13_fill_colour_by_sign (m : WalshMatrix) (cells : List Cell)
    (h : drawGrid m = some cells) :
    (∃ cell, ∀ c : Cell, c ∈ cells ↔
        ∃ (i j : Nat) (row : SpreadingCode) (col : Int), m.Rows[i]? = some row
          ∧ row.Chips[j]? = some col ∧ c = cellAt cell i j col)
      ∧ (∀ (cell i j : Nat) (col : Int), (cellAt cell i j col).fill = fillColor col)
      ∧ (∀ col : Int, col < 0 → fillColor col = ⟨0x44, 0xff, 0x44, 0xff⟩)
      ∧ (∀ col : Int, 0 ≤ col → fillColor col = ⟨0xff, 0x00, 0x44, 0x00⟩)
      ∧ (⟨0x44, 0xff, 0x44, 0xff⟩ : ColorRGBA) ≠ ⟨0xff, 0x00, 0x44, 0x00⟩ := by
  obtain ⟨cell, _, hmem⟩ := mem_drawGrid m cells h
  refine ⟨⟨cell, hmem⟩, fun _ _ _ _ => rfl, ?_, ?_, by decide⟩
  · intro col hcol
    simp [fillColor, hcol]
  · intro col hcol
    have : ¬ col < 0 := not_lt.mpr hcol
    simp [fillColor, this]

/-- Witness for C13: the one-row matrix `[-1, 0, 1]` is drawn as one cell of
the first colour and two cells of the second. -/
theorem C13_fill_colour_by_sign_witness :
    drawGrid ⟨[⟨[-1, 0, 1]⟩]⟩
        = some [⟨0, 0, 128, 128, ⟨0x44, 0xff, 0x44, 0xff⟩⟩,
          ⟨0, 128, 128, 256, ⟨0xff, 0x00, 0x44, 0x00⟩⟩,
          ⟨0, 256, 128, 384, ⟨0xff, 0x00, 0x44, 0x00⟩⟩]
      ∧ fillColor (-1) = ⟨0x44, 0xff, 0x44, 0xff⟩
      ∧ fillColor 0 = ⟨0xff, 0x00, 0x44, 0x00⟩ := by
  have hgrid : drawGrid ⟨[⟨[-1, 0, 1]⟩]⟩
      = some [⟨0, 0, 128, 128, ⟨0x44, 0xff, 0x44, 0xff⟩⟩,
        ⟨0, 128, 128, 256, ⟨0xff, 0x00, 0x44, 0x00⟩⟩,
        ⟨0, 256, 128, 384, ⟨0xff, 0x00, 0x44, 0x00⟩⟩] := by decide
  have h := C13_fill_colour_by_sign _ _ hgrid
  exact ⟨hgrid, h.2.2.1 (-1) (by decide), h.2.2.2.1 0 (by decide)⟩

/-- C14: for every matrix with `n ≥ 1` rows the cell size is `128 / n` in
truncating integer division (the floor of `128/n`), `n` times the cell size
never exceeds 128, the cell size is positive exactly when `n ≤ 128`, and every
cell drawn is a square of that size. -/
theorem C14_cell_size (m : WalshMatrix) (hn : 1 ≤ m.Rows.length) :
    ∃ cell, cellPixSize m = some cell
      ∧ cell = 128 / m.Rows.length
      ∧ m.Rows.length * cell ≤ 128
      ∧ 128 < m.Rows.length * (cell + 1)
      ∧ (0 < cell ↔ m.Rows.length ≤ 128)
      ∧ ∃ cells, drawGrid m = some cells
          ∧ ∀ c ∈ cells, c.x2 = c.x1 + cell ∧ c.y2 = c.y1 + cell := by
  have hsize := cellPixSize_pos m hn
  refine ⟨logoSize / m.Rows.length, hsize, rfl, ?_, ?_, ?_, ?_⟩
  · exact Nat.mul_div_le 128 m.Rows.length
  · exact Nat.lt_mul_div_succ 128 hn
  · constructor
    · intro hpos
      by_contra hgt
      have : logoSize / m.Rows.length = 0 := Nat.div_eq_of_lt (by unfold logoSize; omega)
      omega
    · intro hle
      exact Nat.div_pos hle hn
  · have hgrid : drawGrid m = some (drawRowsLoop (logoSize / m.Rows.length) 0 m.Rows) := by
      simp only [drawGrid, hsize]
    refine ⟨_, hgrid, ?_⟩
    intro c hc
    obtain ⟨cell, hcell, hmem⟩ := mem_drawGrid m _ hgrid
    rw [hsize, Option.some.injEq] at hcell
    obtain ⟨i, j, row, col, _, _, hcc⟩ := (hmem c).mp hc
    rw [hcc, ← hcell]
    exact ⟨rfl, rfl⟩

/-- Witness for C14: three rows give cells of size 42. -/
theorem C14_cell_size_witness :
    1 ≤ exampleMatrix.Rows.length
      ∧ cellPixSize exampleMatrix = some 42
      ∧ ∃ cell, cellPixSize exampleMatrix = some cell
          ∧ cell = 128 / exampleMatrix.Rows.length
          ∧ exampleMatrix.Rows.length * cell ≤ 128
          ∧ 128 < exampleMatrix.Rows.length * (cell + 1)
          ∧ (0 < cell ↔ exampleMatrix.Rows.length ≤ 128)
          ∧ ∃ cells, drawGrid exampleMatrix = some cells
              ∧ ∀ c ∈ cells, c.x2 = c.x1 + cell ∧ c.y2 = c.y1 + cell :=
  ⟨by decide, by decide, C14_cell_size exampleMatrix (by decide)⟩

/-- C15: the cell size of `main` is computed exactly when the matrix has at
least one row: with `n ≥ 1` rows the divisor is not zero, with no row the
division panics; the empty input loads and sorts to the matrix without rows,
and `main` then stops at the division by zero, before anything is drawn. -/
theorem C15_cell_size_needs_a_row (m : WalshMatrix) :
    (1 ≤ m.Rows.length → ∃ cell, cellPixSize m = some cell)
      ∧ (cellPixSize m = none ↔ m.Rows.length = 0)
      ∧ (WalshMatrixFromFile (some [])).outcome = Outcome.returned ⟨[]⟩
      ∧ sort_Sort ⟨[]⟩ = some ⟨[]⟩
      ∧ cellPixSize ⟨[]⟩ = none
      ∧ mainGrid (some []) = MainRun.divideByZero := by
  refine ⟨fun h => ⟨_, cellPixSize_pos m h⟩, ?_, by decide, by decide, by decide, by decide⟩
  unfold cellPixSize
  by_cases h : m.Rows.length = 0 <;> simp [h]

/-- Witness for C15: a matrix with three rows has a cell size. -/
theorem C15_cell_size_needs_a_row_witness :
    1 ≤ exampleMatrix.Rows.length ∧ ∃ cell, cellPixSize exampleMatrix = some cell :=
  ⟨by decide, (C15_cell_size_needs_a_row exampleMatrix).1 (by decide)⟩

/-- C16: on the row indices of every matrix `Less` is a strict weak ordering:
`Less(i,i)` is false, `Less` is asymmetric and transitive, and two indices are
incomparable exactly when their rows have equal sequency, which makes
incomparability transitive. -/
theorem C16_less_strict_weak_order (m : WalshMatrix) (i j k : Nat)
    (ri rj rk : SpreadingCode) (hi : m.Rows[i]? = some ri) (hj : m.Rows[j]? = some rj)
    (hk : m.Rows[k]? = some rk) :
    m.Less i i = some false
      ∧ (m.Less i j = some true → m.Less j i = some false)
      ∧ (m.Less i j = some true → m.Less j k = some true → m.Less i k = some true)
      ∧ ((m.Less i j = some false ∧ m.Less j i = some false)
          ↔ ri.Sequency = rj.Sequency)
      ∧ ((m.Less i j = some false ∧ m.Less j i = some false) →
          (m.Less j k = some false ∧ m.Less k j = some false) →
          (m.Less i k = some false ∧ m.Less k i = some false)) := by
  rw [Less_eq m i i ri ri hi hi, Less_eq m i j ri rj hi hj, Less_eq m j i rj ri hj hi,
    Less_eq m j k rj rk hj hk, Less_eq m k j rk rj hk hj, Less_eq m i k ri rk hi hk,
    Less_eq m k i rk ri hk hi]
  simp only [Option.some.injEq, decide_eq_true_eq, decide_eq_false_iff_not, lt_self_iff_false,
    not_false_eq_true, not_lt, true_and]
  refine ⟨?_, ?_, ?_, ?_⟩
  · intro h; exact le_of_lt h
  · intro h1 h2; exact lt_trans h1 h2
  · constructor
    · intro h; exact le_antisymm h.2 h.1
    · intro h; exact ⟨le_of_eq h.symm, le_of_eq h⟩
  · intro h1 h2
    exact ⟨le_trans h2.1 h1.1, le_trans h1.2 h2.2⟩

/-- Witness for C16: the three rows of the example matrix. -/
theorem C16_less_strict_weak_order_witness :
    exampleMatrix.Rows[0]? = some ⟨[1, -1, 1, -1]⟩
      ∧ exampleMatrix.Rows[1]? = some ⟨[1, 1, 1, 1]⟩
      ∧ exampleMatrix.Rows[2]? = some ⟨[1, -1, -1, 1]⟩
      ∧ exampleMatrix.Less 0 0 = some false
      ∧ exampleMatrix.Less 1 2 = some true
      ∧ exampleMatrix.Less 2 1 = some false :=
  ⟨by decide, by decide, by decide,
    (C16_less_strict_weak_order exampleMatrix 0 1 2 ⟨[1, -1, 1, -1]⟩ ⟨[1, 1, 1, 1]⟩
      ⟨[1, -1, -1, 1]⟩ (by decide) (by decide) (by decide)).1,
    by decide, by decide⟩

/-- C17: `Sequency` is bounded by the row length: it is never negative, for a
non-empty row it is at most `len - 1`, and it equals `len - 1` exactly when
every adjacent pair of chips differs. -/
theorem C17_sequency_bounds (code : SpreadingCode) :
    0 ≤ code.Sequency
      ∧ (code.Chips ≠ [] →
          code.Sequency ≤ (code.Chips.length : Int) - 1
            ∧ (code.Sequency = (code.Chips.length : Int) - 1
                ↔ code.Chips.Chain' (fun a b => a ≠ b))) := by
  rw [Sequency_eq_changes]
  refine ⟨by positivity, fun hne => ?_⟩
  have hle := changes_lt_length code.Chips hne
  have hiff := changes_max_iff code.Chips hne
  refine ⟨by omega, ?_⟩
  rw [← hiff]
  omega

/-- Witness for C17: the row `[1, -1, 1, -1]` reaches the bound 3, the row
`[1, 1, -1]` does not reach its bound 2. -/
theorem C17_sequency_bounds_witness :
    ([1, -1, 1, -1] : List Int) ≠ []
      ∧ SpreadingCode.Sequency ⟨[1, -1, 1, -1]⟩ ≤ 3
      ∧ SpreadingCode.Sequency ⟨[1, -1, 1, -1]⟩ = 3
      ∧ SpreadingCode.Sequency ⟨[1, 1, -1]⟩ = 1 :=
  ⟨by decide, ((C17_sequency_bounds ⟨[1, -1, 1, -1]⟩).2 (by decide)).1, by decide, by decide⟩

/-- C18: `Sequency` depends on the pattern of adjacent equalities only:
applying an injective function to every chip, negating every chip, and
reversing the order of the chips all leave it unchanged. -/
theorem C18_sequency_invariances (code : SpreadingCode) (f : Int → Int)
    (hf : Function.Injective f) :
    SpreadingCode.Sequency ⟨code.Chips.map f⟩ = code.Sequency
      ∧ SpreadingCode.Sequency ⟨code.Chips.map (fun c => -c)⟩ = code.Sequency
      ∧ SpreadingCode.Sequency ⟨code.Chips.reverse⟩ = code.Sequency := by
  simp only [Sequency_eq_changes]
  refine ⟨?_, ?_, ?_⟩
  · rw [changes_map f hf]
  · rw [changes_map (fun c => -c) (fun a b hab => neg_injective hab)]
  · rw [changes_reverse]

/-- Witness for C18: the code `[1, 1, -1, 1]` of sequency 2, shifted by 5,
negated and reversed. -/
theorem C18_sequency_invariances_witness :
    Function.Injective (fun c : Int => c + 5)
      ∧ SpreadingCode.Sequency ⟨[1, 1, -1, 1]⟩ = 2
      ∧ SpreadingCode.Sequency ⟨[6, 6, 4, 6]⟩ = 2
      ∧ SpreadingCode.Sequency ⟨[-1, -1, 1, -1]⟩ = 2
      ∧ SpreadingCode.Sequency ⟨[1, -1, 1, 1]⟩ = 2
      ∧ (SpreadingCode.Sequency ⟨[1, 1, -1, 1].map (fun c => c + 5)⟩
            = SpreadingCode.Sequency ⟨[1, 1, -1, 1]⟩
          ∧ SpreadingCode.Sequency ⟨[1, 1, -1, 1].map (fun c => -c)⟩
            = SpreadingCode.Sequency ⟨[1, 1, -1, 1]⟩
          ∧ SpreadingCode.Sequency ⟨[1, 1, -1, 1].reverse⟩
            = SpreadingCode.Sequency ⟨[1, 1, -1, 1]⟩) :=
  ⟨add_left_injective 5, by decide, by decide, by decide, by decide,
    C18_sequency_invariances ⟨[1, 1, -1, 1]⟩ (fun c => c + 5) (add_left_injective 5)⟩

/-- C19: for every image and every `x1 ≤ x2`, `y1 ≤ y2` inside the image
bounds, `Rect(x1, y1, x2, y2, c)` returns, keeps the bounds, sets to `c` the
pixels on the outline of the rectangle (both end points included) and leaves
every other pixel at its previous value; `HLine` and `VLine` change nothing
when their start coordinate is greater than their end coordinate. -/
theorem C19_rect_draws_outline (img : Image) (x1 y1 x2 y2 : Int) (c : ColorRGBA)
    (hx : x1 ≤ x2) (hy : y1 ≤ y2) (h1 : img.RGBA.contains x1 y1)
    (h2 : img.RGBA.contains x2 y2) (hb : img.boundsAreInts) :
    (∃ r, img.Rect x1 y1 x2 y2 c = some r
        ∧ r.RGBA.minX = img.RGBA.minX ∧ r.RGBA.minY = img.RGBA.minY
        ∧ r.RGBA.maxX = img.RGBA.maxX ∧ r.RGBA.maxY = img.RGBA.maxY
        ∧ ∀ x y : Int,
            (onOutline x1 y1 x2 y2 x y → r.RGBA.pix x y = c)
              ∧ (¬ onOutline x1 y1 x2 y2 x y → r.RGBA.pix x y = img.RGBA.pix x y))
      ∧ (∀ a y b : Int, b < a → img.HLine a y b c = some img)
      ∧ (∀ x a b : Int, b < a → img.VLine x a b c = some img) := by
  obtain ⟨hbx, hby⟩ := hb
  obtain ⟨h1a, h1b, h1c, h1d⟩ := h1
  obtain ⟨h2a, h2b, h2c, h2d⟩ := h2
  refine ⟨?_, ?_, ?_⟩
  · obtain ⟨a, ha, a1, a2, a3, a4, ap⟩ := HLine_spec img x1 y1 x2 c (by omega)
    obtain ⟨b, hb, b1, b2, b3, b4, bp⟩ := HLine_spec a x1 y2 x2 c (by omega)
    obtain ⟨d, hd, d1, d2, d3, d4, dp⟩ := VLine_spec b x1 y1 y2 c (by omega)
    obtain ⟨e, he, e1, e2, e3, e4, ep⟩ := VLine_spec d x2 y1 y2 c (by omega)
    refine ⟨e, by simp only [Image.Rect, ha, hb, hd, he], by omega, by omega, by omega,
      by omega, fun x y => ?_⟩
    rw [ep, dp, bp, ap]
    simp only [ImageRGBA.contains, onOutline, a1, a2, a3, a4, b1, b2, b3, b4, d1, d2, d3, d4]
    constructor
    · intro ho
      split_ifs <;> first | rfl | (exfalso; omega)
    · intro ho
      split_ifs <;> first | rfl | (exfalso; omega)
  · intro a y b hab
    have hne : ¬ (a ≤ b ∧ b = maxInt) := fun h => by omega
    have hk : (b + 1 - a).toNat = 0 := by omega
    rw [Image.HLine, if_neg hne, hk]
    rfl
  · intro x a b hab
    have hne : ¬ (a ≤ b ∧ b = maxInt) := fun h => by omega
    have hk : (b + 1 - a).toNat = 0 := by omega
    rw [Image.VLine, if_neg hne, hk]
    rfl

/-- Witness for C19: the rectangle with corners `(1, 1)` and `(3, 3)` on the
new image: the corner `(1, 1)` and the edge point `(2, 3)` are green, the
inner point `(2, 2)` and the outer point `(4, 4)` are unchanged. -/
theorem C19_rect_draws_outline_witness :
    (1 : Int) ≤ 3 ∧ NewImage.RGBA.contains 1 1 ∧ NewImage.RGBA.contains 3 3
      ∧ NewImage.boundsAreInts
      ∧ (NewImage.Rect 1 1 3 3 green).map
          (fun r => [r.RGBA.pix 1 1, r.RGBA.pix 2 3, r.RGBA.pix 2 2, r.RGBA.pix 4 4])
          = some [green, green, ⟨0, 0, 0, 0⟩, ⟨0, 0, 0, 0⟩]
      ∧ ∃ r, NewImage.Rect 1 1 3 3 green = some r
          ∧ r.RGBA.minX = NewImage.RGBA.minX ∧ r.RGBA.minY = NewImage.RGBA.minY
          ∧ r.RGBA.maxX = NewImage.RGBA.maxX ∧ r.RGBA.maxY = NewImage.RGBA.maxY
          ∧ ∀ x y : Int,
              (onOutline 1 1 3 3 x y → r.RGBA.pix x y = green)
                ∧ (¬ onOutline 1 1 3 3 x y → r.RGBA.pix x y = NewImage.RGBA.pix x y) :=
  ⟨by decide, by decide, by decide, by decide, by decide,
    (C19_rect_draws_outline NewImage 1 1 3 3 green (by decide) (by decide) (by decide)
      (by decide) (by decide)).1⟩

end Sclogo
